import Mathlib

/-!
# Verification of the deep-research Research Orchestration Engine

Shallow embedding of the Go sources of `clglavan/deep-research`
(`pkg/agent` — file `src/unnamed/part_000` — together with the interfaces of
`pkg/search` and `pkg/llm`), and proofs of the spec's testable properties.

Modelling conventions:
* Go strings are byte strings; they are modelled as `List Char` where every
  character stands for one byte (`Char.toNat < 256` on all inputs of
  interest).  `len`, slicing and index arithmetic on Go strings therefore
  correspond exactly to `List.length`, `List.take`/`List.drop` and list
  indices.  All concrete test inputs are ASCII, where the correspondence is
  exact.
* The LLM client (`pkg/llm.Client.Chat`) and the search provider
  (`pkg/search.Searcher`) are external capabilities; they are modelled as
  oracle functions indexed by a ghost call counter (`Nat`), so that two
  successive calls with the same arguments may answer differently, exactly as
  a remote service may.
* Go functions returning `(T, error)` are modelled as functions returning
  `T × Option Str` (the `error` component) or `Except Str T` where the Go
  code only ever uses one of the two components.
-/

set_option maxHeartbeats 1000000
set_option maxRecDepth 10000

namespace DeepResearch

/-- Go byte strings, modelled as lists of characters (one `Char` per byte). -/
abbrev Str := List Char

/-- Converts a Lean string literal to the `Str` model. -/
def strOf (s : String) : Str := s.toList

/-- Does `pat` occur in `s` at position `i`?  (Helper for the models of
`strings.Index` / `strings.LastIndex`.) -/
def subAt (s pat : Str) (i : Nat) : Bool := pat.isPrefixOf (s.drop i)

/-- Model of Go `strings.Index s pat`: position of the first occurrence of
`pat` in `s`, or `none` where Go returns `-1`. -/
def firstIdx? (s pat : Str) : Option Nat :=
  (List.range (s.length + 1)).find? (fun i => subAt s pat i)

/-- Scans positions `i, i-1, …, 0` for the last occurrence of `pat`. -/
def lastIdxFrom (s pat : Str) : Nat → Option Nat
  | 0 => if subAt s pat 0 then some 0 else none
  | i + 1 => if subAt s pat (i + 1) then some (i + 1) else lastIdxFrom s pat i

/-- Model of Go `strings.LastIndex s pat`: position of the last occurrence of
`pat` in `s`, or `none` where Go returns `-1`. -/
def lastIdx? (s pat : Str) : Option Nat := lastIdxFrom s pat s.length

/-- Model of Go `strings.Contains`. -/
def containsSub (s pat : Str) : Bool := (firstIdx? s pat).isSome

/-- Model of Go `unicode.IsSpace` restricted to single bytes (Latin-1):
space, `\t`, `\n`, vertical tab, form feed, `\r`, NEL (0x85), NBSP (0xA0). -/
def isSpaceChar (c : Char) : Bool :=
  c.toNat = 32 || (9 ≤ c.toNat && c.toNat ≤ 13) || c.toNat = 133 || c.toNat = 160

/-- Model of Go `strings.TrimSpace`. -/
def trimSpace (s : Str) : Str :=
  ((s.dropWhile isSpaceChar).reverse.dropWhile isSpaceChar).reverse

/-- Model of Go `strings.HasSuffix`. -/
def hasSuffixStr (s suf : Str) : Bool := suf.isSuffixOf s

/-- Model of Go `strings.TrimSuffix`. -/
def trimSuffixStr (s suf : Str) : Str :=
  if suf.isSuffixOf s then s.take (s.length - suf.length) else s

/-- Model of Go `strings.TrimPrefix`. -/
def trimPreStr (s p : Str) : Str :=
  if p.isPrefixOf s then s.drop p.length else s

/-- ASCII lower-casing of one byte (Go `strings.ToLower` on ASCII input;
the repository's inputs to `ToLower` are search queries, treated as ASCII). -/
def lowerChar (c : Char) : Char :=
  if 65 ≤ c.toNat && c.toNat ≤ 90 then Char.ofNat (c.toNat + 32) else c

/-- Model of Go `strings.ToLower` (ASCII). -/
def toLowerStr (s : Str) : Str := s.map lowerChar

/-- Model of Go `strings.Replace(s, "", new, -1)`: `new` is inserted before
every byte of `s` and at the end. -/
def repEmpty (new : Str) : Str → Str
  | [] => new
  | c :: cs => new ++ c :: repEmpty new cs

/-- Auxiliary left-to-right scan behind `replaceAllStr` (nonempty pattern).
`fuel` only bounds the recursion; a fuel of `t.length` is never exhausted,
because every step consumes at least one byte of `t`. -/
def repScanF (old new : Str) : Nat → Str → Str
  | 0, t => t
  | fuel + 1, t =>
    if old.isPrefixOf t ∧ old ≠ [] then
      new ++ repScanF old new fuel (t.drop old.length)
    else
      match t with
      | [] => []
      | c :: cs => c :: repScanF old new fuel cs

/-- Model of Go `strings.ReplaceAll`. -/
def replaceAllStr (s old new : Str) : Str :=
  if old = [] then repEmpty new s else repScanF old new s.length s

/-- Model of `stripThinkTags` (agent.go): removes everything up to and
including the first `"</think>"` when both tags occur, then trims space. -/
def stripThinkTags (s : Str) : Str :=
  match firstIdx? s (strOf "<think>") with
  | none => trimSpace s
  | some _ =>
    match firstIdx? s (strOf "</think>") with
    | none => trimSpace s
    | some e => trimSpace (s.drop (e + 8))

/-! ## splitContextIntoChunks (agent.go lines 181-214) -/

/-- Model of `searchStart := int(float64(maxChunkSize) * 0.8)`.
For every chunk size below `2^51` the Go float computation equals
`⌊4·maxChunkSize/5⌋` exactly (the rounding of the product never crosses an
integer), which is how it is modelled. -/
def chunkSearchStart (maxChunkSize : Nat) : Nat := 4 * maxChunkSize / 5

/-- The break point chosen by one iteration of the `splitContextIntoChunks`
loop: the end of the last `"\n\n"` in the final 20% of the chunk, else after
the last `"\n"` there, else after the last `" "` there, else the full chunk
size. -/
def chunkBreak (maxChunkSize : Nat) (remaining : Str) : Nat :=
  match lastIdx? ((remaining.take maxChunkSize).drop (chunkSearchStart maxChunkSize))
      (strOf "\n\n") with
  | some idx => chunkSearchStart maxChunkSize + idx + 2
  | none =>
    match lastIdx? ((remaining.take maxChunkSize).drop (chunkSearchStart maxChunkSize))
        (strOf "\n") with
    | some idx => chunkSearchStart maxChunkSize + idx + 1
    | none =>
      match lastIdx? ((remaining.take maxChunkSize).drop (chunkSearchStart maxChunkSize))
          (strOf " ") with
      | some idx => chunkSearchStart maxChunkSize + idx + 1
      | none => maxChunkSize

/-- The `for len(remaining) > 0` loop of `splitContextIntoChunks`.  `fuel`
bounds the number of iterations; for `maxChunkSize ≥ 1` a fuel of
`remaining.length` is never exhausted (each iteration removes at least one
byte).  For `maxChunkSize = 0` the Go loop diverges; the model then stops
when the fuel runs out. -/
def splitLoop (maxChunkSize : Nat) : Nat → Str → List Str
  | 0, _ => []
  | fuel + 1, remaining =>
    if remaining.length = 0 then []
    else if remaining.length ≤ maxChunkSize then [remaining]
    else
      let bp := chunkBreak maxChunkSize remaining
      remaining.take bp :: splitLoop maxChunkSize fuel (remaining.drop bp)

/-- Model of `splitContextIntoChunks` (agent.go): splits text into chunks of
at most `maxChunkSize` bytes, preferring paragraph, then line, then space
boundaries in the last 20% of each chunk. -/
def splitContextIntoChunks (text : Str) (maxChunkSize : Nat) : List Str :=
  if text.length ≤ maxChunkSize then [text]
  else splitLoop maxChunkSize text.length text

/-! ### Lemmas about the chunking loop -/

theorem lastIdxFrom_le {s pat : Str} {n i : Nat}
    (h : lastIdxFrom s pat n = some i) : i ≤ n ∧ subAt s pat i := by
  induction n with
  | zero =>
    by_cases hs : subAt s pat 0 <;> simp [lastIdxFrom, hs] at h
    exact ⟨Nat.le_of_eq h.symm, h ▸ hs⟩
  | succ n ih =>
    by_cases hs : subAt s pat (n + 1) <;> simp [lastIdxFrom, hs] at h
    · exact ⟨h ▸ Nat.le_refl _, h ▸ hs⟩
    · obtain ⟨h1, h2⟩ := ih h
      exact ⟨Nat.le_succ_of_le h1, h2⟩

theorem subAt_length_le {s pat : Str} {i : Nat} (h : subAt s pat i) :
    i + pat.length ≤ s.length ∨ pat = [] := by
  by_cases hp : pat = []
  · exact Or.inr hp
  · left
    have hpre : pat <+: s.drop i := by
      simpa [subAt, List.isPrefixOf_iff_prefix] using h
    have := hpre.length_le
    simp only [List.length_drop] at this
    by_cases hi : i ≤ s.length
    · omega
    · exfalso
      have : s.drop i = [] := List.drop_eq_nil_of_le (by omega)
      rw [this] at hpre
      exact hp (List.prefix_nil.mp hpre)

theorem lastIdx?_bound {s pat : Str} {i : Nat} (hpat : pat ≠ [])
    (h : lastIdx? s pat = some i) : i + pat.length ≤ s.length := by
  have h2 := (lastIdxFrom_le h).2
  rcases subAt_length_le h2 with h3 | h3
  · exact h3
  · exact absurd h3 hpat

theorem chunkSearchStart_lt {m : Nat} (hm : 1 ≤ m) : chunkSearchStart m < m := by
  simp only [chunkSearchStart]
  omega

theorem chunkBreak_pos {m : Nat} (r : Str) (hm : 1 ≤ m) :
    1 ≤ chunkBreak m r := by
  unfold chunkBreak
  split
  · omega
  · split
    · omega
    · split
      · omega
      · exact hm

theorem chunkBreak_le {m : Nat} {r : Str} (hm : 1 ≤ m) (hr : m < r.length) :
    chunkBreak m r ≤ m := by
  have hlen : ((r.take m).drop (chunkSearchStart m)).length = m - chunkSearchStart m := by
    simp only [List.length_drop, List.length_take]
    omega
  have hss := chunkSearchStart_lt (m := m) hm
  unfold chunkBreak
  split
  next i h2 =>
    have hb := lastIdx?_bound (by decide) h2
    rw [hlen] at hb
    have hl : (strOf "\n\n").length = 2 := by decide
    omega
  next h2 =>
    split
    next i h1 =>
      have hb := lastIdx?_bound (by decide) h1
      rw [hlen] at hb
      have hl : (strOf "\n").length = 1 := by decide
      omega
    next h1 =>
      split
      next i h0 =>
        have hb := lastIdx?_bound (by decide) h0
        rw [hlen] at hb
        have hl : (strOf " ").length = 1 := by decide
        omega
      next h0 => exact Nat.le_refl m

theorem splitLoop_spec {m : Nat} (hm : 1 ≤ m) :
    ∀ fuel (r : Str), r.length ≤ fuel →
      (splitLoop m fuel r).flatten = r ∧
      (∀ c ∈ splitLoop m fuel r, c.length ≤ m ∧ c ≠ []) := by
  intro fuel
  induction fuel with
  | zero =>
    intro r hr
    have : r = [] := List.length_eq_zero.mp (Nat.le_zero.mp hr)
    subst this
    simp [splitLoop]
  | succ fuel ih =>
    intro r hr
    by_cases h0 : r.length = 0
    · have : r = [] := List.length_eq_zero.mp h0
      subst this
      simp [splitLoop]
    · by_cases h1 : r.length ≤ m
      · constructor
        · simp [splitLoop, h0, h1]
        · intro c hc
          simp [splitLoop, h0, h1] at hc
          subst hc
          exact ⟨h1, by intro hc; exact h0 (by simp [hc])⟩
      · have hlt : m < r.length := Nat.lt_of_not_le h1
        have hbp1 : 1 ≤ chunkBreak m r := chunkBreak_pos r hm
        have hbpm : chunkBreak m r ≤ m := chunkBreak_le hm hlt
        have hdrop : (r.drop (chunkBreak m r)).length ≤ fuel := by
          simp only [List.length_drop]
          omega
        obtain ⟨ihj, ihc⟩ := ih (r.drop (chunkBreak m r)) hdrop
        constructor
        · simp only [splitLoop, h0, h1, if_false, List.length_eq_zero]
          simp only [List.flatten]
          rw [ihj]
          exact List.take_append_drop _ r
        · intro c hc
          simp only [splitLoop, h0, h1, if_false, List.mem_cons] at hc
          rcases hc with hc | hc
          · subst hc
            constructor
            · simp only [List.length_take]
              omega
            · intro hnil
              have := congrArg List.length hnil
              simp only [List.length_take, List.length_nil] at this
              omega
          · exact ihc c hc

/-- C4: for every text and chunk size `S ≥ 1`, the chunks concatenate back to
the input exactly and no chunk exceeds `S` bytes. -/
theorem splitContextIntoChunks_reconstructs (text : Str) (S : Nat) (hS : 1 ≤ S) :
    (splitContextIntoChunks text S).flatten = text ∧
    (∀ c ∈ splitContextIntoChunks text S, c.length ≤ S) := by
  unfold splitContextIntoChunks
  by_cases h : text.length ≤ S
  · simp [h]
  · simp only [h, if_false]
    obtain ⟨hj, hc⟩ := splitLoop_spec hS text.length text (Nat.le_refl _)
    exact ⟨hj, fun c hcm => (hc c hcm).1⟩

/-- Witness for C4 at a concrete input. -/
theorem splitContextIntoChunks_reconstructs_witness :
    (splitContextIntoChunks (strOf "hello world, this is a test") 10).flatten
        = strOf "hello world, this is a test" ∧
    (∀ c ∈ splitContextIntoChunks (strOf "hello world, this is a test") 10,
        c.length ≤ 10) :=
  splitContextIntoChunks_reconstructs (strOf "hello world, this is a test") 10
    (by decide)

/-- C10 counterexample: on the empty text the function returns a list whose
single chunk is empty, refuting "every chunk it returns is non-empty" for
every input. -/
theorem splitContextIntoChunks_empty_chunk :
    splitContextIntoChunks ([] : Str) 1 = [([] : Str)] ∧
    ¬ (∀ c ∈ splitContextIntoChunks ([] : Str) 1, c ≠ ([] : Str)) := by
  constructor
  · rfl
  · intro h
    exact h [] (by decide) rfl

/-- C10 (amended): for chunk size `S ≥ 1` the loop terminates on every input
(each iteration removes at least one byte, so there are at most
`text.length` chunks), and for non-empty input every returned chunk is
non-empty. -/
theorem splitContextIntoChunks_terminates (text : Str) (S : Nat) (hS : 1 ≤ S) :
    (splitContextIntoChunks text S).length ≤ max 1 text.length ∧
    (text ≠ [] → ∀ c ∈ splitContextIntoChunks text S, c ≠ []) := by
  constructor
  · by_cases h : text.length ≤ S
    · simp [splitContextIntoChunks, h]
    · simp only [splitContextIntoChunks, h, if_false]
      obtain ⟨hj, hc⟩ := splitLoop_spec hS text.length text (Nat.le_refl _)
      have h1 : ∀ i ∈ (splitLoop S text.length text).map List.length, 1 ≤ i := by
        intro i hi
        simp only [List.mem_map] at hi
        obtain ⟨c, hcm, hceq⟩ := hi
        have hne := (hc c hcm).2
        subst hceq
        cases c with
        | nil => exact absurd rfl hne
        | cons a as => simp
      have hlen : ((splitLoop S text.length text).map List.length).length ≤
          ((splitLoop S text.length text).map List.length).sum :=
        List.length_le_sum_of_one_le _ h1
      have hmapeq : ((splitLoop S text.length text).map List.length).length
          = (splitLoop S text.length text).length := List.length_map _ _
      have hsum : ((splitLoop S text.length text).map List.length).sum = text.length := by
        have hfl : ((splitLoop S text.length text).map List.length).sum
            = (splitLoop S text.length text).flatten.length :=
          (List.length_flatten _).symm
        rw [hfl, hj]
      rw [hmapeq, hsum] at hlen
      exact Nat.le_trans hlen (Nat.le_max_right _ _)
  · intro htext c hcm
    by_cases h : text.length ≤ S
    · simp only [splitContextIntoChunks, h, if_true, List.mem_singleton] at hcm
      subst hcm
      exact htext
    · simp only [splitContextIntoChunks, h, if_false] at hcm
      obtain ⟨hj, hc⟩ := splitLoop_spec hS text.length text (Nat.le_refl _)
      exact (hc c hcm).2

/-- Witness for C10's amended theorem at a concrete input. -/
theorem splitContextIntoChunks_terminates_witness :
    (splitContextIntoChunks (strOf "abc") 2).length ≤ max 1 (strOf "abc").length ∧
    ((strOf "abc") ≠ [] → ∀ c ∈ splitContextIntoChunks (strOf "abc") 2, c ≠ []) :=
  splitContextIntoChunks_terminates (strOf "abc") 2 (by decide)

/-! ## Query Expansion Synthesizer (agent.go lines 655-785) -/

/-- Model of `QueryExpansion` (agent.go): LLM-provided synonyms and platform
prefixes.  The Go `map[string][]string` is modelled as an association list;
the Go map's iteration order is unspecified, and every statement proved below
is insensitive to that order (see `expandQueriesWithLLM`). -/
structure QueryExpansion where
  synonyms : List (Str × List Str)
  platforms : List Str

/-- Insertion into the model of the Go dedup set `expanded map[string]bool`:
a key is added once, keys are kept in first-insertion order. -/
def insertDedup (l : List Str) (q : Str) : List Str :=
  if q ∈ l then l else l ++ [q]

/-- Loop body of phase 1 of `expandQueriesWithLLM`: add every base query of
length ≤ 60 ("Skip overly long queries"). -/
def phase1Step (acc : List Str) (q : Str) : List Str :=
  if q.length ≤ 60 then insertDedup acc q else acc

/-- Phase 1 of `expandQueriesWithLLM`: all base queries of length ≤ 60. -/
def expandPhase1 (baseQueries : List Str) : List Str :=
  baseQueries.foldl phase1Step []

/-- Inner loop body of phase 2: add `platform + " " + q` for each non-empty
platform.  Note the Go code applies no length check to the prefixed query. -/
def platStep (q : Str) (acc : List Str) (p : Str) : List Str :=
  if p ≠ [] then insertDedup acc (p ++ strOf " " ++ q) else acc

/-- Outer loop body of phase 2: skip base queries longer than 40 bytes. -/
def phase2Step (platforms : List Str) (acc : List Str) (q : Str) : List Str :=
  if 40 < q.length then acc else platforms.foldl (platStep q) acc

/-- Phase 2 of `expandQueriesWithLLM`: `platform + " " + q` for every base
query of length ≤ 40 and every non-empty platform. -/
def expandPhase2 (baseQueries : List Str) (platforms : List Str)
    (acc : List Str) : List Str :=
  baseQueries.foldl (phase2Step platforms) acc

/-- Innermost loop body of phase 3: one synonym substitution, kept only when
the variant differs from the matched term and is ≤ 60 bytes. -/
def synInnerStep (q w : Str) (acc : List Str) (syn : Str) : List Str :=
  if toLowerStr syn ≠ toLowerStr w then
    if (replaceAllStr (toLowerStr q) (toLowerStr w) (toLowerStr syn)).length ≤ 60 then
      insertDedup acc (replaceAllStr (toLowerStr q) (toLowerStr w) (toLowerStr syn))
    else acc
  else acc

/-- Middle loop body of phase 3: one synonym-map entry, applied only when the
term occurs case-insensitively in the query. -/
def synMidStep (q : Str) (acc : List Str) (ws : Str × List Str) : List Str :=
  if containsSub (toLowerStr q) (toLowerStr ws.1) then
    ws.2.foldl (synInnerStep q ws.1) acc
  else acc

/-- Outer loop body of phase 3: skip base queries longer than 50 bytes. -/
def synOuterStep (synonyms : List (Str × List Str)) (acc : List Str) (q : Str) :
    List Str :=
  if 50 < q.length then acc else synonyms.foldl (synMidStep q) acc

/-- Phase 3 of `expandQueriesWithLLM` (the `synonymQueries` set): lower-cased
synonym substitutions of base queries of length ≤ 50, each kept only when the
variant is ≤ 60 bytes. -/
def synonymVariants (baseQueries : List Str)
    (synonyms : List (Str × List Str)) : List Str :=
  baseQueries.foldl (synOuterStep synonyms) []

/-- The full deduplicated expansion set of `expandQueriesWithLLM` before the
150-entry cap, in insertion order. -/
def expandFull (baseQueries : List Str) (expansion : QueryExpansion) : List Str :=
  (synonymVariants baseQueries expansion.synonyms).foldl insertDedup
    (expandPhase2 baseQueries expansion.platforms (expandPhase1 baseQueries))

/-- Model of `expandQueriesWithLLM` (agent.go).  Go iterates the `expanded`
map in unspecified order, appending entries until the `maxQueries = 150` cap;
the model linearizes that iteration as insertion order.  All theorems below
either hold for every iteration order or (for the cap counterexample) exhibit
inputs on which every order violates the claim. -/
def expandQueriesWithLLM (baseQueries : List Str)
    (expansion : QueryExpansion) : List Str :=
  (expandFull baseQueries expansion).take 150

/-! ### Membership lemmas for the expansion phases -/

theorem mem_insertDedup_self (l : List Str) (q : Str) : q ∈ insertDedup l q := by
  unfold insertDedup
  by_cases h : q ∈ l
  · simpa [h]
  · simp [h]

theorem mem_insertDedup_of_mem {l : List Str} {a : Str} (q : Str) (h : a ∈ l) :
    a ∈ insertDedup l q := by
  unfold insertDedup
  by_cases hq : q ∈ l
  · simpa [hq]
  · simp [hq, h]

theorem mem_of_mem_insertDedup {l : List Str} {a q : Str}
    (h : a ∈ insertDedup l q) : a ∈ l ∨ a = q := by
  unfold insertDedup at h
  by_cases hq : q ∈ l
  · simp [hq] at h
    exact Or.inl h
  · simp [hq] at h
    exact h

theorem foldl_mem_mono {β : Type} (f : List Str → β → List Str)
    (hf : ∀ acc b a, a ∈ acc → a ∈ f acc b) :
    ∀ (l : List β) (acc : List Str) (a : Str), a ∈ acc → a ∈ l.foldl f acc := by
  intro l
  induction l with
  | nil => intro acc a h; simpa using h
  | cons b bs ih =>
    intro acc a h
    exact ih (f acc b) a (hf acc b a h)

theorem foldl_mem_cases {β : Type} (f : List Str → β → List Str)
    (Q : β → Str → Prop)
    (hf : ∀ acc b a, a ∈ f acc b → a ∈ acc ∨ Q b a) :
    ∀ (l : List β) (acc : List Str) (a : Str),
      a ∈ l.foldl f acc → a ∈ acc ∨ ∃ b ∈ l, Q b a := by
  intro l
  induction l with
  | nil => intro acc a h; exact Or.inl (by simpa using h)
  | cons b bs ih =>
    intro acc a h
    rcases ih (f acc b) a h with h1 | h1
    · rcases hf acc b a h1 with h2 | h2
      · exact Or.inl h2
      · exact Or.inr ⟨b, by simp, h2⟩
    · obtain ⟨b', hb', hq⟩ := h1
      exact Or.inr ⟨b', by simp [hb'], hq⟩

theorem mem_phase1Step {acc : List Str} {b a : Str} (h : a ∈ phase1Step acc b) :
    a ∈ acc ∨ (a = b ∧ b.length ≤ 60) := by
  unfold phase1Step at h
  by_cases hb : b.length ≤ 60
  · simp only [hb, if_true] at h
    rcases mem_of_mem_insertDedup h with h1 | h1
    · exact Or.inl h1
    · exact Or.inr ⟨h1, hb⟩
  · simp only [hb, if_false] at h
    exact Or.inl h

theorem mem_expandPhase1 {base : List Str} {a : Str}
    (h : a ∈ expandPhase1 base) : ∃ q ∈ base, a = q ∧ q.length ≤ 60 := by
  have hcase := foldl_mem_cases phase1Step (fun q a => a = q ∧ q.length ≤ 60)
    (fun acc b x hx => mem_phase1Step hx) base [] a h
  rcases hcase with h1 | h1
  · exact absurd h1 (List.not_mem_nil a)
  · exact h1

theorem mem_platStep {q : Str} {acc : List Str} {p a : Str}
    (h : a ∈ platStep q acc p) : a ∈ acc ∨ (p ≠ [] ∧ a = p ++ strOf " " ++ q) := by
  unfold platStep at h
  by_cases hp : p ≠ []
  · rw [if_pos hp] at h
    rcases mem_of_mem_insertDedup h with h1 | h1
    · exact Or.inl h1
    · exact Or.inr ⟨hp, h1⟩
  · rw [if_neg hp] at h
    exact Or.inl h

theorem mem_phase2Step {plats acc : List Str} {b a : Str}
    (h : a ∈ phase2Step plats acc b) :
    a ∈ acc ∨ (b.length ≤ 40 ∧ ∃ p ∈ plats, p ≠ [] ∧ a = p ++ strOf " " ++ b) := by
  unfold phase2Step at h
  by_cases hb : 40 < b.length
  · simp only [hb, if_true] at h
    exact Or.inl h
  · simp only [hb, if_false] at h
    have hin := foldl_mem_cases (platStep b)
      (fun p a => p ≠ [] ∧ a = p ++ strOf " " ++ b)
      (fun acc2 p y hy => mem_platStep hy) plats acc a h
    rcases hin with h1 | h1
    · exact Or.inl h1
    · exact Or.inr ⟨Nat.le_of_not_lt hb, h1⟩

theorem mem_expandPhase2 {base plats : List Str} {acc : List Str} {a : Str}
    (h : a ∈ expandPhase2 base plats acc) :
    a ∈ acc ∨ ∃ q ∈ base, q.length ≤ 40 ∧
      ∃ p ∈ plats, p ≠ [] ∧ a = p ++ strOf " " ++ q := by
  have hcase := foldl_mem_cases (phase2Step plats)
    (fun q a => q.length ≤ 40 ∧ ∃ p ∈ plats, p ≠ [] ∧ a = p ++ strOf " " ++ q)
    (fun acc2 b x hx => mem_phase2Step hx) base acc a h
  exact hcase

theorem mem_synInnerStep {q w : Str} {acc : List Str} {syn a : Str}
    (h : a ∈ synInnerStep q w acc syn) : a ∈ acc ∨ a.length ≤ 60 := by
  unfold synInnerStep at h
  by_cases hs : toLowerStr syn ≠ toLowerStr w
  · rw [if_pos hs] at h
    by_cases hl : (replaceAllStr (toLowerStr q) (toLowerStr w) (toLowerStr syn)).length ≤ 60
    · rw [if_pos hl] at h
      rcases mem_of_mem_insertDedup h with h1 | h1
      · exact Or.inl h1
      · exact Or.inr (h1 ▸ hl)
    · rw [if_neg hl] at h
      exact Or.inl h
  · rw [if_neg hs] at h
    exact Or.inl h

theorem mem_synMidStep {q : Str} {acc : List Str} {ws : Str × List Str} {a : Str}
    (h : a ∈ synMidStep q acc ws) : a ∈ acc ∨ a.length ≤ 60 := by
  unfold synMidStep at h
  by_cases hc : containsSub (toLowerStr q) (toLowerStr ws.1)
  · simp only [hc, if_true] at h
    have hin := foldl_mem_cases (synInnerStep q ws.1) (fun _ a => a.length ≤ 60)
      (fun acc2 syn y hy => mem_synInnerStep hy) ws.2 acc a h
    rcases hin with h1 | h1
    · exact Or.inl h1
    · obtain ⟨_, _, hq⟩ := h1
      exact Or.inr hq
  · simp only [hc, if_false] at h
    exact Or.inl h

theorem mem_synOuterStep {syns : List (Str × List Str)} {acc : List Str} {b a : Str}
    (h : a ∈ synOuterStep syns acc b) : a ∈ acc ∨ a.length ≤ 60 := by
  unfold synOuterStep at h
  by_cases hb : 50 < b.length
  · simp only [hb, if_true] at h
    exact Or.inl h
  · simp only [hb, if_false] at h
    have hin := foldl_mem_cases (synMidStep b) (fun _ a => a.length ≤ 60)
      (fun acc2 ws y hy => mem_synMidStep hy) syns acc a h
    rcases hin with h1 | h1
    · exact Or.inl h1
    · obtain ⟨_, _, hq⟩ := h1
      exact Or.inr hq

theorem mem_synonymVariants {base : List Str} {syns : List (Str × List Str)}
    {a : Str} (h : a ∈ synonymVariants base syns) : a.length ≤ 60 := by
  have hcase := foldl_mem_cases (synOuterStep syns) (fun _ a => a.length ≤ 60)
    (fun acc b x hx => mem_synOuterStep hx) base [] a h
  rcases hcase with h1 | h1
  · exact absurd h1 (List.not_mem_nil a)
  · obtain ⟨_, _, hq⟩ := h1
    exact hq

theorem mem_foldl_insertDedup {l acc : List Str} {a : Str}
    (h : a ∈ l.foldl insertDedup acc) : a ∈ acc ∨ a ∈ l := by
  have := foldl_mem_cases insertDedup (fun b a => a = b)
    (by intro acc b x hx; exact mem_of_mem_insertDedup hx)
    l acc a h
  rcases this with h1 | h1
  · exact Or.inl h1
  · obtain ⟨b, hb, hq⟩ := h1
    exact Or.inr (hq ▸ hb)

/-- C3 (amended): `expandQueriesWithLLM` never returns more than 150 queries,
and every returned query is ≤ 60 bytes long **unless** it is a
platform-prefixed query `platform ++ " " ++ q` (seed `q` ≤ 40 bytes), which
the code never length-checks, so its length is `platform.length + 1 +
q.length` and can exceed 60. -/
theorem expandQueriesWithLLM_cap (baseQueries : List Str) (exp : QueryExpansion) :
    (expandQueriesWithLLM baseQueries exp).length ≤ 150 ∧
    ∀ q' ∈ expandQueriesWithLLM baseQueries exp,
      q'.length ≤ 60 ∨
      ∃ p ∈ exp.platforms, ∃ q ∈ baseQueries, q.length ≤ 40 ∧
        q' = p ++ strOf " " ++ q ∧ q'.length = p.length + 1 + q.length := by
  constructor
  · exact List.length_take_le 150 _
  · intro q' hq'
    have hmem : q' ∈ expandFull baseQueries exp :=
      List.mem_of_mem_take hq'
    unfold expandFull at hmem
    rcases mem_foldl_insertDedup hmem with h1 | h1
    · rcases mem_expandPhase2 h1 with h2 | h2
      · obtain ⟨q, _, hqe, hql⟩ := mem_expandPhase1 h2
        exact Or.inl (hqe ▸ hql)
      · obtain ⟨q, hq, hql, p, hp, _, hpe⟩ := h2
        refine Or.inr ⟨p, hp, q, hq, hql, hpe, ?_⟩
        subst hpe
        simp only [List.length_append, strOf, String.toList]
        simp

    · exact Or.inl (mem_synonymVariants h1)

/-- Witness for C3's amended theorem at a concrete input. -/
theorem expandQueriesWithLLM_cap_witness :
    (expandQueriesWithLLM [strOf "flats"] ⟨[], []⟩).length ≤ 150 ∧
    ((strOf "flats").length ≤ 60 ∨
      ∃ p ∈ ([] : List Str), ∃ q ∈ [strOf "flats"], q.length ≤ 40 ∧
        strOf "flats" = p ++ strOf " " ++ q ∧
        (strOf "flats").length = p.length + 1 + q.length) :=
  ⟨(expandQueriesWithLLM_cap [strOf "flats"] ⟨[], []⟩).1,
   (expandQueriesWithLLM_cap [strOf "flats"] ⟨[], []⟩).2 (strOf "flats") (by decide)⟩

/-- C3 counterexample: a 38-byte platform prefix applied to a 39-byte seed
query produces a 78-byte query that `expandQueriesWithLLM` returns, refuting
"never returns a query longer than 60 characters". -/
theorem expandQueriesWithLLM_long_query :
    (strOf "site:accommodationlistings.example.com"
        ++ strOf " " ++ strOf "cheap apartment for rent in springfield")
      ∈ expandQueriesWithLLM [strOf "cheap apartment for rent in springfield"]
          ⟨[], [strOf "site:accommodationlistings.example.com"]⟩ ∧
    60 < (strOf "site:accommodationlistings.example.com"
        ++ strOf " " ++ strOf "cheap apartment for rent in springfield").length := by
  constructor
  · decide
  · decide

/-! ### Seed queries survive the phases (needed for C7) -/

theorem phase1Step_mono {acc : List Str} {b a : Str} (h : a ∈ acc) :
    a ∈ phase1Step acc b := by
  unfold phase1Step
  by_cases hb : b.length ≤ 60
  · rw [if_pos hb]
    exact mem_insertDedup_of_mem b h
  · rwa [if_neg hb]

theorem platStep_mono {q : Str} {acc : List Str} {p a : Str} (h : a ∈ acc) :
    a ∈ platStep q acc p := by
  unfold platStep
  by_cases hp : p ≠ []
  · rw [if_pos hp]
    exact mem_insertDedup_of_mem _ h
  · rwa [if_neg hp]

theorem phase2Step_mono {plats acc : List Str} {b a : Str} (h : a ∈ acc) :
    a ∈ phase2Step plats acc b := by
  unfold phase2Step
  by_cases hb : 40 < b.length
  · rwa [if_pos hb]
  · rw [if_neg hb]
    exact foldl_mem_mono (platStep b) (fun acc2 p x hx => platStep_mono hx) plats acc a h

theorem seed_mem_foldl_phase1Step :
    ∀ (base acc : List Str) (q : Str), q ∈ base → q.length ≤ 60 →
      q ∈ base.foldl phase1Step acc := by
  intro base
  induction base with
  | nil => intro acc q hq _; exact absurd hq (List.not_mem_nil q)
  | cons b bs ih =>
    intro acc q hq hlen
    rcases List.mem_cons.mp hq with hq1 | hq1
    · subst hq1
      have hin : q ∈ phase1Step acc q := by
        unfold phase1Step
        rw [if_pos hlen]
        exact mem_insertDedup_self acc q
      exact foldl_mem_mono phase1Step (fun acc2 b2 x hx => phase1Step_mono hx)
        bs (phase1Step acc q) q hin
    · exact ih (phase1Step acc b) q hq1 hlen

theorem seed_mem_expandFull {base : List Str} {exp : QueryExpansion} {q : Str}
    (hq : q ∈ base) (hlen : q.length ≤ 60) : q ∈ expandFull base exp := by
  have h1 : q ∈ expandPhase1 base := seed_mem_foldl_phase1Step base [] q hq hlen
  have h2 : q ∈ expandPhase2 base exp.platforms (expandPhase1 base) :=
    foldl_mem_mono (phase2Step exp.platforms)
      (fun acc b x hx => phase2Step_mono hx) base (expandPhase1 base) q h1
  exact foldl_mem_mono insertDedup (fun acc b x hx => mem_insertDedup_of_mem b hx)
    (synonymVariants base exp.synonyms) _ q h2

/-- C7 (amended): whenever the deduplicated expansion set fits within the
150-entry cap, the output of `expandQueriesWithLLM` includes every seed query
of length ≤ 60 unchanged (with more than 150 entries the cap can drop seed
queries — see the counterexample); and in the spec's scenario with seed
`"a flat for rent"`, no platforms and synonym `flat → apartment`, the output
contains both `"a flat for rent"` and `"a apartment for rent"`. -/
theorem expandQueriesWithLLM_keeps_seeds :
    (∀ (baseQueries : List Str) (exp : QueryExpansion) (q : Str),
        q ∈ baseQueries → q.length ≤ 60 →
        (expandFull baseQueries exp).length ≤ 150 →
        q ∈ expandQueriesWithLLM baseQueries exp) ∧
    strOf "a flat for rent" ∈ expandQueriesWithLLM [strOf "a flat for rent"]
      ⟨[(strOf "flat", [strOf "apartment"])], []⟩ ∧
    strOf "a apartment for rent" ∈ expandQueriesWithLLM [strOf "a flat for rent"]
      ⟨[(strOf "flat", [strOf "apartment"])], []⟩ := by
  refine ⟨?_, by decide, by decide⟩
  intro base exp q hq hlen hcap
  unfold expandQueriesWithLLM
  rw [List.take_of_length_le hcap]
  exact seed_mem_expandFull hq hlen

/-- Witness for C7's amended theorem at a concrete input. -/
theorem expandQueriesWithLLM_keeps_seeds_witness :
    strOf "flat" ∈ expandQueriesWithLLM [strOf "flat"] ⟨[], []⟩ :=
  expandQueriesWithLLM_keeps_seeds.1 [strOf "flat"] ⟨[], []⟩ (strOf "flat")
    (by decide) (by decide) (by decide)

/-- A 13-character alphabet used to build many distinct two-byte seeds. -/
def seedChars : List Char := ("abcdefghijklm").toList

/-- 151 pairwise distinct two-byte seed queries. -/
def manySeeds : List Str :=
  (List.range 151).map (fun i => [seedChars.getD (i / 13) 'z', seedChars.getD (i % 13) 'z'])

/-- C7 counterexample: with 151 distinct seed queries of length 2 (all ≤ 60)
and an empty expansion, the 150-entry cap drops the last seed, refuting
"the output includes every seed query of length ≤ 60" for every seed list. -/
theorem expandQueriesWithLLM_drops_seed :
    manySeeds.getD 150 [] ∈ manySeeds ∧
    (manySeeds.getD 150 []).length ≤ 60 ∧
    manySeeds.getD 150 [] ∉ expandQueriesWithLLM manySeeds ⟨[], []⟩ := by
  refine ⟨by decide, by decide, by decide⟩

/-! ## Model of Go `net/url` (used by `normalizeURL`, agent.go lines 633-653)

`normalizeURL` relies on `url.Parse`, `URL.Query` / `Values.Del` /
`Values.Encode` and `URL.String` from Go's standard `net/url` package.  The
definitions below transliterate those functions for the byte-string model.
Model restrictions (documented divergences from `net/url`, each turning a
URL class outside the claims' scope into a parse error): URLs containing
userinfo (`user@host`) or a bracketed IPv6 host are rejected by the model's
`parseAuthority`/`parseHost` (Go parses them), and characters above `0xFF`
(impossible for Go, which sees bytes) are treated like control bytes. -/

/-- Model of `strings.Contains` with a single-byte pattern. -/
def hasChar : Str → Char → Bool
  | [], _ => false
  | x :: xs, c => if x = c then true else hasChar xs c

/-- Model of `strings.Cut` with a single-byte separator: splits at the first
occurrence, returning (before, after, found). -/
def strCut (sep : Char) : Str → Str × Str × Bool
  | [] => ([], [], false)
  | c :: cs =>
    if c = sep then ([], cs, true)
    else
      let r := strCut sep cs
      (c :: r.1, r.2.1, r.2.2)

/-- Is `c` an ASCII letter? -/
def isAlphaChar (c : Char) : Bool :=
  (97 ≤ c.toNat && c.toNat ≤ 122) || (65 ≤ c.toNat && c.toNat ≤ 90)

/-- Is `c` an ASCII digit? -/
def isDigitChar (c : Char) : Bool := 48 ≤ c.toNat && c.toNat ≤ 57

/-- Is `c` an ASCII letter or digit? -/
def isAlphaNumChar (c : Char) : Bool := isAlphaChar c || isDigitChar c

/-- Model of `net/url.ishex`. -/
def isHexDigit (c : Char) : Bool :=
  isDigitChar c || (97 ≤ c.toNat && c.toNat ≤ 102) || (65 ≤ c.toNat && c.toNat ≤ 70)

/-- Model of `net/url.unhex`. -/
def unhex (c : Char) : Nat :=
  if isDigitChar c then c.toNat - 48
  else if 97 ≤ c.toNat && c.toNat ≤ 102 then c.toNat - 87
  else if 65 ≤ c.toNat && c.toNat ≤ 70 then c.toNat - 55
  else 0

/-- Model of `net/url.upperhex` digit selection. -/
def upperHexDigit (n : Nat) : Char := (strOf "0123456789ABCDEF").getD n '0'

/-- The `net/url` escaping modes used by `normalizeURL`'s code paths. -/
inductive EncMode
  | path
  | host
  | queryComponent
  | fragment
deriving DecidableEq

/-- The extra characters `net/url.shouldEscape` keeps literal in hosts. -/
def hostExtraChar (c : Char) : Bool :=
  c = '!' || c = '$' || c = '&' || c = '\'' || c = '(' || c = ')' || c = '*' ||
  c = '+' || c = ',' || c = ';' || c = '=' || c = ':' || c = '[' || c = ']' ||
  c = '<' || c = '>' || c = '"'

/-- The RFC 3986 reserved characters handled per-mode by `shouldEscape`. -/
def reservedChar (c : Char) : Bool :=
  c = '$' || c = '&' || c = '+' || c = ',' || c = '/' || c = ':' || c = ';' ||
  c = '=' || c = '?' || c = '@'

/-- Model of `net/url.shouldEscape`. -/
def shouldEscape (c : Char) (mode : EncMode) : Bool :=
  if isAlphaNumChar c then false
  else if mode = EncMode.host && hostExtraChar c then false
  else if c = '-' || c = '_' || c = '.' || c = '~' then false
  else if reservedChar c then
    match mode with
    | EncMode.path => c = '?'
    | EncMode.queryComponent => true
    | EncMode.fragment => false
    | EncMode.host => true
  else if mode = EncMode.fragment && (c = '!' || c = '(' || c = ')' || c = '*') then
    false
  else true

/-- One byte of `net/url.escape` output. -/
def escapeChar (c : Char) (mode : EncMode) : Str :=
  if shouldEscape c mode then
    if c = ' ' && mode = EncMode.queryComponent then ['+']
    else ['%', upperHexDigit (c.toNat / 16), upperHexDigit (c.toNat % 16)]
  else [c]

/-- Model of `net/url.escape`. -/
def escapeStr (s : Str) (mode : EncMode) : Str :=
  (s.map (fun c => escapeChar c mode)).flatten

/-- The host-mode rejection of `%0X`–`%7X` escapes other than `%25`
(`net/url.unescape`, `case '%'`). -/
def hostRejectEsc (mode : EncMode) (c1 c2 : Char) : Bool :=
  mode = EncMode.host && unhex c1 < 8 && !(c1 = '2' && c2 = '5')

/-- The host-mode rejection of literal bytes that should have been escaped
(`net/url.unescape`, default case). -/
def hostRejectLit (mode : EncMode) (c : Char) : Bool :=
  mode = EncMode.host && c.toNat < 128 && shouldEscape c EncMode.host

/-- Model of `net/url.unescape`: errors on malformed percent escapes, on
`%0X`–`%7X` escapes other than `%25` in hosts, and on literal host bytes
that should have been escaped. -/
def unescape (mode : EncMode) : Str → Except Unit Str
  | [] => Except.ok []
  | c :: rest =>
    if c = '%' then
      match rest with
      | c1 :: c2 :: rest2 =>
        if isHexDigit c1 && isHexDigit c2 then
          if hostRejectEsc mode c1 c2 then Except.error ()
          else
            match unescape mode rest2 with
            | Except.error e => Except.error e
            | Except.ok r => Except.ok (Char.ofNat (16 * unhex c1 + unhex c2) :: r)
        else Except.error ()
      | _ => Except.error ()
    else if c = '+' then
      match unescape mode rest with
      | Except.error e => Except.error e
      | Except.ok r =>
        Except.ok ((if mode = EncMode.queryComponent then ' ' else '+') :: r)
    else if hostRejectLit mode c then Except.error ()
    else
      match unescape mode rest with
      | Except.error e => Except.error e
      | Except.ok r => Except.ok (c :: r)

/-- Model of `net/url.validEncoded`. -/
def validEncoded (s : Str) (mode : EncMode) : Bool :=
  s.all fun c =>
    if c = '!' || c = '$' || c = '&' || c = '\'' || c = '(' || c = ')' ||
       c = '*' || c = '+' || c = ',' || c = ';' || c = '=' || c = ':' ||
       c = '@' || c = '[' || c = ']' || c = '%' then true
    else !shouldEscape c mode

/-! ### Model of `net/url.Values` -/

/-- `url.Values` (`map[string][]string`), modelled as an association list in
key-first-appearance order; `Encode` sorts the keys, so the map's iteration
order is irrelevant to every observable of `normalizeURL`. -/
abbrev Values := List (Str × List Str)

/-- `m[key] = append(m[key], value)` on the association-list model. -/
def valuesAdd (k v : Str) : Values → Values
  | [] => [(k, [v])]
  | e :: rest =>
    if e.1 = k then (e.1, e.2 ++ [v]) :: rest else e :: valuesAdd k v rest

/-- Model of `url.Values.Del`. -/
def valuesDel (m : Values) (k : Str) : Values := m.filter (fun e => !(e.1 = k : Bool))

/-- Processing of one `&`-chunk by `net/url.parseQuery`: chunks with a `;`,
empty chunks, and chunks whose key or value fails unescaping are silently
skipped (as `URL.Query()` ignores the error). -/
def procChunk (m : Values) (chunk : Str) : Values :=
  if hasChar chunk ';' then m
  else if chunk = [] then m
  else
    match unescape EncMode.queryComponent (strCut '=' chunk).1,
        unescape EncMode.queryComponent (strCut '=' chunk).2.1 with
    | Except.ok k, Except.ok v => valuesAdd k v m
    | _, _ => m

/-- Loop of `net/url.parseQuery` as used by `URL.Query()`.  `fuel` bounds the
iteration count; `query.length` always suffices, since every step consumes at
least one byte. -/
def parseQueryLoop (m : Values) : Nat → Str → Values
  | 0, _ => m
  | fuel + 1, query =>
    if query = [] then m
    else parseQueryLoop (procChunk m (strCut '&' query).1) fuel (strCut '&' query).2.1

/-- Model of `URL.Query()` (`ParseQuery` with the error ignored). -/
def parseQueryValues (query : Str) : Values := parseQueryLoop [] query.length query

/-- Bytewise lexicographic order on byte strings (Go `string` `<`). -/
def strLt : Str → Str → Bool
  | [], [] => false
  | [], _ :: _ => true
  | _ :: _, [] => false
  | a :: as, b :: bs =>
    if a.toNat < b.toNat then true
    else if b.toNat < a.toNat then false
    else strLt as bs

/-- Insertion into a key-sorted association list. -/
def insertSorted (e : Str × List Str) : Values → Values
  | [] => [e]
  | f :: rest => if strLt f.1 e.1 then f :: insertSorted e rest else e :: f :: rest

/-- Key-sorting of `Values` (Go's `Encode` sorts the key slice; any correct
sort of the distinct keys yields the same order). -/
def sortValues (m : Values) : Values := m.foldr insertSorted []

/-- One `key=value` pair of `url.Values.Encode` output. -/
def encPair (k v : Str) : Str :=
  escapeStr k EncMode.queryComponent ++ '=' :: escapeStr v EncMode.queryComponent

/-- Model of `url.Values.Encode`. -/
def encodeValues (m : Values) : Str :=
  List.intercalate ['&']
    ((sortValues m).flatMap (fun e => e.2.map (fun v => encPair e.1 v)))

/-! ### Model of `net/url.URL`, `Parse` and `String` -/

/-- Model of `net/url.URL` restricted to the fields `normalizeURL` can reach
(no `User`: the model rejects userinfo at parse time). `opq` is Go's
`URL.Opaque`. -/
structure GoURL where
  scheme : Str := []
  opq : Str := []
  host : Str := []
  path : Str := []
  rawPath : Str := []
  forceQuery : Bool := false
  rawQuery : Str := []
  fragment : Str := []
  rawFragment : Str := []
  omitHost : Bool := false
deriving DecidableEq

/-- Scan of `net/url.getScheme`: `i` is the current position, the second
argument the unscanned tail of `full`. -/
def getSchemeAux (full : Str) : Nat → Str → Except Unit (Str × Str)
  | _, [] => Except.ok ([], full)
  | i, c :: rest =>
    if isAlphaChar c then getSchemeAux full (i + 1) rest
    else if isDigitChar c || c = '+' || c = '-' || c = '.' then
      if i = 0 then Except.ok ([], full) else getSchemeAux full (i + 1) rest
    else if c = ':' then
      if i = 0 then Except.error () else Except.ok (full.take i, full.drop (i + 1))
    else Except.ok ([], full)

/-- Model of `net/url.getScheme` (errors mean "missing protocol scheme"). -/
def getScheme (s : Str) : Except Unit (Str × Str) := getSchemeAux s 0 s

/-- Model of `net/url.validOptionalPort`. -/
def validOptionalPort (p : Str) : Bool :=
  match p with
  | [] => true
  | c :: rest => c = ':' && rest.all isDigitChar

/-- Model of `net/url.parseHost` (without the IPv6 bracket form, which the
model rejects). -/
def parseHost (host : Str) : Except Unit Str :=
  if host.head? = some '[' then Except.error ()
  else
    match lastIdx? host (strOf ":") with
    | some i =>
      if validOptionalPort (host.drop i) then unescape EncMode.host host
      else Except.error ()
    | none => unescape EncMode.host host

/-- Model of `net/url.parseAuthority`; authorities with userinfo (`@`) are
outside the model and rejected (Go parses and validates them). -/
def parseAuthority (authority : Str) : Except Unit Str :=
  if hasChar authority '@' then Except.error () else parseHost authority

/-- Model of `stringContainsCTLByte`, extended so that characters above
`0xFF` (outside the byte model) are also rejected. -/
def hasCTL (s : Str) : Bool := s.any fun c => c.toNat < 32 || c.toNat = 127 || 256 ≤ c.toNat

/-- Model of `URL.setPath`. -/
def setPath (u : GoURL) (p : Str) : Except Unit GoURL :=
  match unescape EncMode.path p with
  | Except.error e => Except.error e
  | Except.ok dec =>
    Except.ok { u with path := dec, rawPath := if escapeStr dec EncMode.path = p then [] else p }

/-- The query-splitting step of `net/url.parse`: handles the lone trailing
`?` (ForceQuery) and otherwise cuts at the first `?`. -/
def splitQuery (rest0 : Str) : Str × Bool × Str :=
  if hasSuffixStr rest0 (strOf "?") && !(hasChar (trimSuffixStr rest0 (strOf "?")) '?') then
    (rest0.take (rest0.length - 1), true, [])
  else
    let c := strCut '?' rest0
    (c.1, false, c.2.1)

/-- The authority/path step of `net/url.parse` (`viaRequest = false`),
after the opaque and relative-path checks. -/
def parseAfterScheme (u : GoURL) (rest : Str) : Except Unit GoURL :=
  if (!(u.scheme = []) || !((strOf "///").isPrefixOf rest)) &&
      (strOf "//").isPrefixOf rest then
    let authRest := rest.drop 2
    let c := strCut '/' authRest
    let authority := if c.2.2 then c.1 else authRest
    let rest2 := if c.2.2 then '/' :: c.2.1 else []
    match parseAuthority authority with
    | Except.error e => Except.error e
    | Except.ok h => setPath { u with host := h } rest2
  else
    setPath { u with omitHost := !(u.scheme = []) && (strOf "/").isPrefixOf rest } rest

/-- Model of `net/url.parse` on the pre-fragment part (`viaRequest=false`). -/
def parseMain (rawURL : Str) : Except Unit GoURL :=
  if hasCTL rawURL then Except.error ()
  else if rawURL = strOf "*" then Except.ok { path := strOf "*" }
  else
    match getScheme rawURL with
    | Except.error e => Except.error e
    | Except.ok sr =>
      let scheme := toLowerStr sr.1
      let q := splitQuery sr.2
      let rest := q.1
      if !((strOf "/").isPrefixOf rest) && !(scheme = []) then
        Except.ok { scheme := scheme, opq := rest, forceQuery := q.2.1, rawQuery := q.2.2 }
      else if !((strOf "/").isPrefixOf rest) && hasChar (strCut '/' rest).1 ':' then
        Except.error ()
      else
        parseAfterScheme
          { scheme := scheme, forceQuery := q.2.1, rawQuery := q.2.2 } rest

/-- Model of `net/url.Parse`: splits the fragment at the first `#`, parses
the rest, then unescapes and records the fragment. -/
def urlParse (rawURL : Str) : Except Unit GoURL :=
  let c := strCut '#' rawURL
  match parseMain c.1 with
  | Except.error e => Except.error e
  | Except.ok u =>
    if c.2.1 = [] then Except.ok u
    else
      match unescape EncMode.fragment c.2.1 with
      | Except.error e => Except.error e
      | Except.ok f =>
        Except.ok { u with
          fragment := f,
          rawFragment := if escapeStr f EncMode.fragment = c.2.1 then [] else c.2.1 }

/-- Does the `Except` hold exactly this value? (Bool-valued helper.) -/
def exceptOkEq (e : Except Unit Str) (s : Str) : Bool :=
  match e with
  | Except.ok t => t = s
  | Except.error _ => false

/-- Model of `URL.EscapedPath`. -/
def escapedPath (u : GoURL) : Str :=
  if u.rawPath ≠ [] && validEncoded u.rawPath EncMode.path &&
      exceptOkEq (unescape EncMode.path u.rawPath) u.path then u.rawPath
  else if u.path = strOf "*" then strOf "*"
  else escapeStr u.path EncMode.path

/-- Model of `URL.EscapedFragment`. -/
def escapedFragment (u : GoURL) : Str :=
  if u.rawFragment ≠ [] && validEncoded u.rawFragment EncMode.fragment &&
      exceptOkEq (unescape EncMode.fragment u.rawFragment) u.fragment then
    u.rawFragment
  else escapeStr u.fragment EncMode.fragment

/-- Model of `URL.String` (with `User` always nil). -/
def urlString (u : GoURL) : Str :=
  let p := escapedPath u
  let core :=
    if u.opq ≠ [] then u.opq
    else
      let auth :=
        if u.scheme ≠ [] || u.host ≠ [] then
          if u.omitHost && u.host = [] then []
          else
            (if u.host ≠ [] || u.path ≠ [] then strOf "//" else []) ++
              escapeStr u.host EncMode.host
        else []
      let slash := if p ≠ [] && p.head? ≠ some '/' && u.host ≠ [] then ['/'] else []
      let dotSlash :=
        if u.scheme = [] && auth = [] && slash = [] && hasChar (strCut '/' p).1 ':' then
          strOf "./"
        else []
      auth ++ slash ++ dotSlash ++ p
  (if u.scheme ≠ [] then u.scheme ++ [':'] else []) ++ core ++
    (if u.forceQuery || u.rawQuery ≠ [] then '?' :: u.rawQuery else []) ++
    (if u.fragment ≠ [] then '#' :: escapedFragment u else [])

/-! ### normalizeURL (agent.go lines 633-653) -/

/-- The tracking parameters stripped by `normalizeURL`. -/
def trackingParams : List Str :=
  [strOf "utm_source", strOf "utm_medium", strOf "utm_campaign",
   strOf "utm_content", strOf "utm_term", strOf "fbclid", strOf "gclid",
   strOf "ref", strOf "source"]

/-- The mutation `normalizeURL` applies to a parsed URL: delete the tracking
parameters and re-encode the query, then strip one trailing slash from the
path (leaving `RawPath` untouched, as the Go code does). -/
def normTransform (u : GoURL) : GoURL :=
  { u with
    rawQuery := encodeValues (trackingParams.foldl valuesDel (parseQueryValues u.rawQuery)),
    path := trimSuffixStr u.path (strOf "/") }

/-- Model of `normalizeURL` (agent.go): parse, strip tracking parameters,
drop one trailing slash from the path, re-serialize; on a parse error,
return the input with one trailing slash stripped. -/
def normalizeURL (rawURL : Str) : Str :=
  match urlParse rawURL with
  | Except.error _ => trimSuffixStr rawURL (strOf "/")
  | Except.ok u => urlString (normTransform u)

/-! ### Escape/unescape lemmas -/

theorem isHexDigit_upperHexDigit (n : Nat) : isHexDigit (upperHexDigit n) = true := by
  rcases Nat.lt_or_ge n 16 with h | h
  · have : ∀ m, m < 16 → isHexDigit (upperHexDigit m) = true := by decide
    exact this n h
  · have hlen : (strOf "0123456789ABCDEF").length ≤ n := by
      have : (strOf "0123456789ABCDEF").length = 16 := by decide
      omega
    unfold upperHexDigit
    rw [List.getD_eq_default _ _ hlen]
    decide

theorem unhex_upperHexDigit {n : Nat} (h : n < 16) : unhex (upperHexDigit n) = n := by
  have : ∀ m, m < 16 → unhex (upperHexDigit m) = m := by decide
  exact this n h

theorem escapeStr_nil (mode : EncMode) : escapeStr [] mode = [] := rfl

theorem escapeStr_cons (c : Char) (s : Str) (mode : EncMode) :
    escapeStr (c :: s) mode = escapeChar c mode ++ escapeStr s mode := by
  simp [escapeStr]

theorem escapeStr_append (a b : Str) (mode : EncMode) :
    escapeStr (a ++ b) mode = escapeStr a mode ++ escapeStr b mode := by
  simp [escapeStr]

theorem mem_escapeChar {c' c : Char} {mode : EncMode} (h : c' ∈ escapeChar c mode) :
    (c' = c ∧ shouldEscape c mode = false) ∨ c' = '%' ∨ c' = '+' ∨
      isHexDigit c' = true := by
  unfold escapeChar at h
  by_cases hse : shouldEscape c mode
  · rw [if_pos hse] at h
    by_cases hsp : c = ' ' && mode = EncMode.queryComponent
    · rw [if_pos hsp] at h
      simp at h
      exact Or.inr (Or.inr (Or.inl h))
    · rw [if_neg hsp] at h
      simp at h
      rcases h with h | h | h
      · exact Or.inr (Or.inl h)
      · exact Or.inr (Or.inr (Or.inr (h ▸ isHexDigit_upperHexDigit _)))
      · exact Or.inr (Or.inr (Or.inr (h ▸ isHexDigit_upperHexDigit _)))
  · rw [if_neg hse] at h
    simp at h
    exact Or.inl ⟨h, by simpa using hse⟩

theorem mem_escapeStr {c' : Char} {s : Str} {mode : EncMode}
    (h : c' ∈ escapeStr s mode) :
    (c' ∈ s ∧ shouldEscape c' mode = false) ∨ c' = '%' ∨ c' = '+' ∨
      isHexDigit c' = true := by
  unfold escapeStr at h
  rw [List.mem_flatten] at h
  obtain ⟨blk, hblk, hc⟩ := h
  rw [List.mem_map] at hblk
  obtain ⟨c, hcs, hceq⟩ := hblk
  subst hceq
  rcases mem_escapeChar hc with ⟨h1, h2⟩ | h1
  · exact Or.inl ⟨h1 ▸ hcs, h1 ▸ h2⟩
  · exact Or.inr h1

/-- A character that must be escaped in `mode` and is not `%`, `+` or a hex
digit never appears in escaped output. -/
theorem not_mem_escapeStr {c' : Char} {mode : EncMode} (s : Str)
    (h1 : shouldEscape c' mode = true) (h2 : c' ≠ '%') (h3 : c' ≠ '+')
    (h4 : isHexDigit c' = false) : c' ∉ escapeStr s mode := by
  intro hmem
  rcases mem_escapeStr hmem with ⟨_, hse⟩ | h | h | h
  · rw [h1] at hse; exact Bool.false_ne_true hse.symm
  · exact h2 h
  · exact h3 h
  · rw [h4] at h; exact Bool.false_ne_true h

/-- The per-byte side condition under which host escaping round-trips. -/
def hostCharOK (c : Char) : Prop :=
  shouldEscape c EncMode.host = false ∨ c = '%' ∨ 128 ≤ c.toNat

theorem shouldEscape_percent (mode : EncMode) : shouldEscape '%' mode = true := by
  cases mode <;> decide

theorem unescape_cons_pct (mode : EncMode) (c1 c2 : Char) (rest2 : Str) :
    unescape mode ('%' :: c1 :: c2 :: rest2) =
      if isHexDigit c1 && isHexDigit c2 then
        if hostRejectEsc mode c1 c2 then Except.error ()
        else
          match unescape mode rest2 with
          | Except.error e => Except.error e
          | Except.ok r => Except.ok (Char.ofNat (16 * unhex c1 + unhex c2) :: r)
      else Except.error () := by
  rfl

theorem unescape_cons_plus (mode : EncMode) (rest : Str) :
    unescape mode ('+' :: rest) =
      match unescape mode rest with
      | Except.error e => Except.error e
      | Except.ok r =>
        Except.ok ((if mode = EncMode.queryComponent then ' ' else '+') :: r) := by
  conv_lhs => unfold unescape
  rw [if_neg (by decide), if_pos rfl]

theorem unescape_cons_lit {mode : EncMode} {c : Char} (rest : Str)
    (h1 : ¬ c = '%') (h2 : ¬ c = '+') (h3 : hostRejectLit mode c = false) :
    unescape mode (c :: rest) =
      match unescape mode rest with
      | Except.error e => Except.error e
      | Except.ok r => Except.ok (c :: r) := by
  conv_lhs => unfold unescape
  rw [if_neg h1, if_neg h2]
  simp [h3]

theorem shouldEscape_plus_query : shouldEscape '+' EncMode.queryComponent = true := by decide

theorem unescape_escapeChar (mode : EncMode) (c : Char) (rest : Str)
    (hb : c.toNat < 256) (hh : mode = EncMode.host → hostCharOK c) :
    unescape mode (escapeChar c mode ++ rest) =
      match unescape mode rest with
      | Except.error e => Except.error e
      | Except.ok r => Except.ok (c :: r) := by
  by_cases hse : shouldEscape c mode
  · by_cases hsp : (c = ' ' && mode = EncMode.queryComponent) = true
    · have hc : c = ' ' := by
        rcases Bool.and_eq_true_iff.mp hsp with ⟨h1, _⟩
        exact of_decide_eq_true h1
      have hm : mode = EncMode.queryComponent := by
        rcases Bool.and_eq_true_iff.mp hsp with ⟨_, h2⟩
        exact of_decide_eq_true h2
      have he : escapeChar c mode = ['+'] := by
        unfold escapeChar
        rw [if_pos hse, if_pos hsp]
      rw [he]
      simp only [List.cons_append, List.nil_append]
      rw [unescape_cons_plus]
      subst hc hm
      rfl
    · have he : escapeChar c mode =
          ['%', upperHexDigit (c.toNat / 16), upperHexDigit (c.toNat % 16)] := by
        unfold escapeChar
        rw [if_pos hse, if_neg hsp]
      rw [he]
      simp only [List.cons_append, List.nil_append]
      rw [unescape_cons_pct]
      have hhex1 := isHexDigit_upperHexDigit (c.toNat / 16)
      have hhex2 := isHexDigit_upperHexDigit (c.toNat % 16)
      rw [if_pos (by rw [hhex1, hhex2]; rfl)]
      have hrej : hostRejectEsc mode (upperHexDigit (c.toNat / 16))
          (upperHexDigit (c.toNat % 16)) = false := by
        unfold hostRejectEsc
        by_cases hm : mode = EncMode.host
        · subst hm
          rcases hh rfl with hcase | hcase | hcase
          · rw [hse] at hcase
            exact absurd hcase (by decide)
          · subst hcase
            decide
          · have hdiv : 8 ≤ c.toNat / 16 := by omega
            have hlt : c.toNat / 16 < 16 := by omega
            rw [unhex_upperHexDigit hlt]
            simp only [decide_eq_false (Nat.not_lt.mpr hdiv)]
            simp
        · simp [hm]
      rw [if_neg (by rw [hrej]; exact Bool.false_ne_true)]
      have hdiv : c.toNat / 16 < 16 := by omega
      have hmod : c.toNat % 16 < 16 := by omega
      rw [unhex_upperHexDigit hdiv, unhex_upperHexDigit hmod]
      have hsum : 16 * (c.toNat / 16) + c.toNat % 16 = c.toNat := by omega
      rw [hsum, Char.ofNat_toNat]
  · have he : escapeChar c mode = [c] := by
      unfold escapeChar
      rw [if_neg hse]
    rw [he]
    simp only [List.cons_append, List.nil_append]
    by_cases hplus : c = '+'
    · subst hplus
      rw [unescape_cons_plus]
      have hm : ¬ mode = EncMode.queryComponent := by
        intro hm
        subst hm
        rw [shouldEscape_plus_query] at hse
        exact hse rfl
      simp [hm]
    · have hpct : ¬ c = '%' := by
        intro hc
        subst hc
        rw [shouldEscape_percent] at hse
        exact hse rfl
      have hrl : hostRejectLit mode c = false := by
        unfold hostRejectLit
        by_cases hm : mode = EncMode.host
        · have : shouldEscape c EncMode.host = false := by
            rw [← hm]
            exact Bool.not_eq_true _ ▸ (by simpa using hse)
          rw [this]
          simp
        · simp [hm]
      exact unescape_cons_lit rest hpct hplus hrl

theorem unescape_escapeStr (mode : EncMode) (s : Str)
    (hb : ∀ c ∈ s, c.toNat < 256) (hh : mode = EncMode.host → ∀ c ∈ s, hostCharOK c) :
    unescape mode (escapeStr s mode) = Except.ok s := by
  induction s with
  | nil => rfl
  | cons c cs ih =>
    rw [escapeStr_cons, unescape_escapeChar mode c _ (hb c (by simp))
      (fun hm => hh hm c (by simp))]
    rw [ih (fun x hx => hb x (by simp [hx])) (fun hm x hx => hh hm x (by simp [hx]))]

/-- Prepending bytes that unescape to themselves distributes over
`unescape`. -/
theorem unescape_append_lit (mode : EncMode) (a b : Str)
    (ha : ∀ c ∈ a, ¬ c = '%' ∧ ¬ c = '+' ∧ hostRejectLit mode c = false) :
    unescape mode (a ++ b) =
      match unescape mode b with
      | Except.error e => Except.error e
      | Except.ok r => Except.ok (a ++ r) := by
  induction a with
  | nil =>
    simp only [List.nil_append]
    cases unescape mode b <;> rfl
  | cons c cs ih =>
    obtain ⟨h1, h2, h3⟩ := ha c (by simp)
    simp only [List.cons_append]
    rw [unescape_cons_lit _ h1 h2 h3, ih (fun x hx => ha x (by simp [hx]))]
    cases unescape mode b <;> rfl

theorem hasChar_cons (x : Char) (xs : Str) (c : Char) :
    hasChar (x :: xs) c = if x = c then true else hasChar xs c := rfl

theorem hasChar_append (a b : Str) (c : Char) :
    hasChar (a ++ b) c = (hasChar a c || hasChar b c) := by
  induction a with
  | nil => simp [hasChar]
  | cons x xs ih =>
    simp only [List.cons_append]
    rw [hasChar_cons, hasChar_cons]
    by_cases hx : x = c
    · rw [if_pos hx]
      simp [hx]
    · rw [if_neg hx, if_neg hx, ih]

theorem toNat_ofNat_byte {v : Nat} (hv : v < 256) : (Char.ofNat v).toNat = v := by
  have hvalid : v.isValidChar := Or.inl (by omega)
  rw [Char.ofNat, dif_pos hvalid]
  simp [Char.ofNatAux, Char.toNat, UInt32.toNat, BitVec.toNat_ofNatLt]

theorem unhex_lt (c : Char) : unhex c < 16 := by
  unfold unhex
  split
  · next h =>
    unfold isDigitChar at h
    simp at h
    omega
  · split
    · next h =>
      simp at h
      omega
    · split
      · next h =>
        simp at h
        omega
      · omega

theorem isHexDigit_ne_colon {c : Char} (h : isHexDigit c = true) : ¬ c = ':' := by
  intro hc
  subst hc
  exact absurd h (by decide)

theorem unescape_pct_nil (mode : EncMode) :
    unescape mode ['%'] = Except.error () := rfl

theorem unescape_pct_one (mode : EncMode) (c1 : Char) :
    unescape mode ['%', c1] = Except.error () := rfl

theorem unescape_cons_lit_reject {mode : EncMode} {c : Char} (rest : Str)
    (h1 : ¬ c = '%') (h2 : ¬ c = '+') (h3 : hostRejectLit mode c = true) :
    unescape mode (c :: rest) = Except.error () := by
  conv_lhs => unfold unescape
  rw [if_neg h1, if_neg h2]
  simp [h3]

/-- Facts about the output of a successful `unescape`: emptiness reflects the
input, bytes stay bytes, and in host mode every output byte satisfies
`hostCharOK`, colons come only from literal colons, and the first byte is
the input's first byte, `%`, or a high byte. -/
theorem unescape_ok_facts (mode : EncMode) : (s r : Str) →
    unescape mode s = Except.ok r →
    (r = [] ↔ s = []) ∧
    ((∀ c ∈ s, c.toNat < 256) → ∀ c ∈ r, c.toNat < 256) ∧
    (mode = EncMode.host → ∀ c ∈ r, hostCharOK c) ∧
    (mode = EncMode.host → hasChar r ':' = hasChar s ':') ∧
    (mode = EncMode.host → ∀ a, r.head? = some a →
      s.head? = some a ∨ 128 ≤ a.toNat ∨ a = '%')
  | [], r, h => by
    have hr : r = [] := by
      have : Except.ok ([] : Str) = Except.ok r := h
      simpa using this.symm
    subst hr
    refine ⟨by simp, by simp, by simp, ?_, by simp⟩
    intro _
    rfl
  | c0 :: rest, r, h => by
    by_cases hp : c0 = '%'
    · subst hp
      rcases rest with _ | ⟨c1, _ | ⟨c2, rest2⟩⟩
      · rw [unescape_pct_nil] at h
        exact absurd h (by simp)
      · rw [unescape_pct_one] at h
        exact absurd h (by simp)
      · rw [unescape_cons_pct] at h
        by_cases hhex : (isHexDigit c1 && isHexDigit c2) = true
        · rw [if_pos hhex] at h
          by_cases hrej : hostRejectEsc mode c1 c2 = true
          · rw [if_pos hrej] at h
            exact absurd h (by simp)
          · rw [if_neg hrej] at h
            rcases hrec : unescape mode rest2 with e | r'
            · rw [hrec] at h
              exact absurd h (by simp)
            · rw [hrec] at h
              simp only [Except.ok.injEq] at h
              subst h
              obtain ⟨ih1, ih2, ih3, ih4, ih5⟩ := unescape_ok_facts mode rest2 r' hrec
              have hu1 := unhex_lt c1
              have hu2 := unhex_lt c2
              have hvlt : 16 * unhex c1 + unhex c2 < 256 := by omega
              have htn : (Char.ofNat (16 * unhex c1 + unhex c2)).toNat
                  = 16 * unhex c1 + unhex c2 := toNat_ofNat_byte hvlt
              have hhost : mode = EncMode.host →
                  128 ≤ (Char.ofNat (16 * unhex c1 + unhex c2)).toNat ∨
                  Char.ofNat (16 * unhex c1 + unhex c2) = '%' := by
                intro hm
                subst hm
                unfold hostRejectEsc at hrej
                rcases Nat.lt_or_ge (unhex c1) 8 with h8 | h8
                · have h25 : c1 = '2' ∧ c2 = '5' := by
                    by_contra hne
                    have hb : (decide (c1 = '2') && decide (c2 = '5')) = false := by
                      simp only [not_and_or] at hne
                      rcases hne with hne | hne <;> simp [hne]
                    apply hrej
                    simp [h8, hb]
                  obtain ⟨h2, h5⟩ := h25
                  subst h2
                  subst h5
                  right
                  decide
                · left
                  rw [htn]
                  omega
              refine ⟨by simp, ?_, ?_, ?_, ?_⟩
              · intro hb x hx
                rcases List.mem_cons.mp hx with hx | hx
                · subst hx
                  rw [htn]
                  exact hvlt
                · exact ih2 (fun y hy => hb y (by simp [hy])) x hx
              · intro hm x hx
                rcases List.mem_cons.mp hx with hx | hx
                · subst hx
                  rcases hhost hm with hcase | hcase
                  · exact Or.inr (Or.inr hcase)
                  · exact Or.inr (Or.inl hcase)
                · exact ih3 hm x hx
              · intro hm
                have hne : ¬ Char.ofNat (16 * unhex c1 + unhex c2) = ':' := by
                  intro he
                  rcases hhost hm with hcase | hcase
                  · rw [he] at hcase
                    simp at hcase
                  · rw [hcase] at he
                    exact absurd he (by decide)
                have hhx : isHexDigit c1 = true ∧ isHexDigit c2 = true := by
                  simpa using hhex
                rw [hasChar_cons, if_neg hne, ih4 hm, hasChar_cons,
                  if_neg (by decide), hasChar_cons, if_neg (isHexDigit_ne_colon hhx.1),
                  hasChar_cons, if_neg (isHexDigit_ne_colon hhx.2)]
              · intro hm a ha
                simp only [List.head?_cons, Option.some.injEq] at ha
                subst ha
                rcases hhost hm with hcase | hcase
                · exact Or.inr (Or.inl hcase)
                · exact Or.inr (Or.inr hcase)
        · rw [if_neg hhex] at h
          exact absurd h (by simp)
    · by_cases hplus : c0 = '+'
      · subst hplus
        rw [unescape_cons_plus] at h
        rcases hrec : unescape mode rest with e | r'
        · rw [hrec] at h
          exact absurd h (by simp)
        · rw [hrec] at h
          simp only [Except.ok.injEq] at h
          subst h
          obtain ⟨ih1, ih2, ih3, ih4, ih5⟩ := unescape_ok_facts mode rest r' hrec
          refine ⟨by simp, ?_, ?_, ?_, ?_⟩
          · intro hb x hx
            rcases List.mem_cons.mp hx with hx | hx
            · subst hx
              by_cases hm : mode = EncMode.queryComponent <;> simp [hm] <;> decide
            · exact ih2 (fun y hy => hb y (by simp [hy])) x hx
          · intro hm x hx
            subst hm
            rcases List.mem_cons.mp hx with hx | hx
            · subst hx
              rw [if_neg (by decide : ¬ EncMode.host = EncMode.queryComponent)]
              exact Or.inl (by decide)
            · exact ih3 rfl x hx
          · intro hm
            subst hm
            rw [if_neg (by decide : ¬ EncMode.host = EncMode.queryComponent)]
            rw [hasChar_cons, hasChar_cons, if_neg (by decide), if_neg (by decide),
              ih4 rfl]
          · intro hm a ha
            subst hm
            rw [if_neg (by decide : ¬ EncMode.host = EncMode.queryComponent)] at ha
            simp only [List.head?_cons, Option.some.injEq] at ha
            subst ha
            exact Or.inl rfl
      · by_cases hlit : hostRejectLit mode c0 = true
        · rw [unescape_cons_lit_reject rest hp hplus hlit] at h
          exact absurd h (by simp)
        · rw [unescape_cons_lit rest hp hplus (by simpa using hlit)] at h
          rcases hrec : unescape mode rest with e | r'
          · rw [hrec] at h
            exact absurd h (by simp)
          · rw [hrec] at h
            simp only [Except.ok.injEq] at h
            subst h
            obtain ⟨ih1, ih2, ih3, ih4, ih5⟩ := unescape_ok_facts mode rest r' hrec
            refine ⟨by simp, ?_, ?_, ?_, ?_⟩
            · intro hb x hx
              rcases List.mem_cons.mp hx with hx | hx
              · subst hx
                exact hb x (by simp)
              · exact ih2 (fun y hy => hb y (by simp [hy])) x hx
            · intro hm x hx
              subst hm
              rcases List.mem_cons.mp hx with hx | hx
              · subst hx
                by_cases hse : shouldEscape x EncMode.host = false
                · exact Or.inl hse
                · have hse' : shouldEscape x EncMode.host = true := by
                    revert hse
                    cases shouldEscape x EncMode.host <;> simp
                  have h128 : ¬ x.toNat < 128 := by
                    intro h128
                    apply hlit
                    unfold hostRejectLit
                    simp [h128, hse']
                  exact Or.inr (Or.inr (by omega))
              · exact ih3 rfl x hx
            · intro hm
              rw [hasChar_cons, hasChar_cons]
              by_cases hc : c0 = ':'
              · rw [if_pos hc, if_pos hc]
              · rw [if_neg hc, if_neg hc, ih4 hm]
            · intro hm a ha
              simp only [List.head?_cons, Option.some.injEq] at ha
              subst ha
              exact Or.inl rfl

/-- Digit-only strings unescape to themselves in every mode. -/
theorem unescape_digits (mode : EncMode) : (s : Str) → s.all isDigitChar = true →
    unescape mode s = Except.ok s
  | [], _ => rfl
  | c :: rest, h => by
    rw [List.all_cons, Bool.and_eq_true] at h
    have hd := h.1
    have hne1 : ¬ c = '%' := by
      intro hc; subst hc; exact absurd hd (by decide)
    have hne2 : ¬ c = '+' := by
      intro hc; subst hc; exact absurd hd (by decide)
    have hlit : hostRejectLit mode c = false := by
      unfold hostRejectLit
      have : shouldEscape c EncMode.host = false := by
        unfold shouldEscape
        rw [if_pos (by unfold isAlphaNumChar; rw [hd]; simp)]
      rw [this]
      simp
    rw [unescape_cons_lit rest hne1 hne2 hlit, unescape_digits mode rest h.2]

/-! ### strCut and parseQuery lemmas -/

theorem strCut_cons (sep c : Char) (cs : Str) :
    strCut sep (c :: cs) =
      if c = sep then ([], cs, true)
      else ((c :: (strCut sep cs).1, (strCut sep cs).2.1, (strCut sep cs).2.2)) := rfl

theorem strCut_not_found (sep : Char) : (s : Str) → hasChar s sep = false →
    strCut sep s = (s, [], false)
  | [], _ => rfl
  | c :: cs, h => by
    rw [hasChar_cons] at h
    by_cases hc : c = sep
    · rw [if_pos hc] at h
      exact absurd h (by simp)
    · rw [if_neg hc] at h
      rw [strCut_cons, if_neg hc, strCut_not_found sep cs h]

theorem strCut_found (sep : Char) : (a b : Str) → hasChar a sep = false →
    strCut sep (a ++ sep :: b) = (a, b, true)
  | [], b, _ => by simp [strCut_cons]
  | c :: cs, b, h => by
    rw [hasChar_cons] at h
    by_cases hc : c = sep
    · rw [if_pos hc] at h
      exact absurd h (by simp)
    · rw [if_neg hc] at h
      simp only [List.cons_append]
      rw [strCut_cons, if_neg hc, strCut_found sep cs b h]

theorem strCut_rest_length (sep : Char) : (s : Str) → s ≠ [] →
    (strCut sep s).2.1.length < s.length
  | [], h => absurd rfl h
  | c :: cs, _ => by
    rw [strCut_cons]
    by_cases hc : c = sep
    · rw [if_pos hc]
      simp
    · rw [if_neg hc]
      show (strCut sep cs).2.1.length < (c :: cs).length
      rcases cs with _ | ⟨d, ds⟩
      · simp [strCut]
      · have := strCut_rest_length sep (d :: ds) (by simp)
        simp only [List.length_cons] at this ⊢
        omega

theorem parseQueryLoop_nil (m : Values) : (fuel : Nat) →
    parseQueryLoop m fuel [] = m
  | 0 => rfl
  | _ + 1 => rfl

theorem parseQueryLoop_fuel (m : Values) : (fuel fuel' : Nat) → (q : Str) →
    q.length ≤ fuel → q.length ≤ fuel' →
    parseQueryLoop m fuel q = parseQueryLoop m fuel' q
  | 0, 0, _, _, _ => rfl
  | 0, fuel' + 1, q, h, _ => by
    have : q = [] := List.length_eq_zero.mp (Nat.le_zero.mp h)
    subst this
    rfl
  | fuel + 1, 0, q, _, h' => by
    have : q = [] := List.length_eq_zero.mp (Nat.le_zero.mp h')
    subst this
    rfl
  | fuel + 1, fuel' + 1, q, h, h' => by
    by_cases hq : q = []
    · subst hq
      rfl
    · show parseQueryLoop _ (fuel + 1) q = parseQueryLoop _ (fuel' + 1) q
      unfold parseQueryLoop
      rw [if_neg hq, if_neg hq]
      have hlen := strCut_rest_length '&' q hq
      exact parseQueryLoop_fuel _ fuel fuel' _ (by omega) (by omega)
termination_by fuel _ _ _ _ => fuel

/-- Feeding `&`-joined chunks through the parse loop folds `procChunk` over
the chunks, provided no chunk contains `&`. -/
theorem parseQueryLoop_chunks : (parts : List Str) → (m : Values) →
    (∀ p ∈ parts, p ≠ [] ∧ hasChar p '&' = false) →
    parseQueryLoop m (List.intercalate ['&'] parts).length (List.intercalate ['&'] parts)
      = parts.foldl procChunk m
  | [], m, _ => by simp [List.intercalate, parseQueryLoop]
  | [p], m, hp => by
    obtain ⟨hne, hamp⟩ := hp p (by simp)
    have hi : List.intercalate ['&'] [p] = p := by
      simp [List.intercalate]
    rw [hi]
    have hl : p.length = (p.length - 1) + 1 := by
      cases p with
      | nil => exact absurd rfl hne
      | cons c cs => simp
    rw [hl]
    show parseQueryLoop m _ p = _
    unfold parseQueryLoop
    rw [if_neg hne, strCut_not_found '&' p hamp]
    show parseQueryLoop (procChunk m p) (p.length - 1) [] = [p].foldl procChunk m
    rw [parseQueryLoop_nil]
    rfl
  | p :: p2 :: parts, m, hp => by
    obtain ⟨hne, hamp⟩ := hp p (by simp)
    have hi : List.intercalate ['&'] (p :: p2 :: parts)
        = p ++ '&' :: List.intercalate ['&'] (p2 :: parts) := by
      simp [List.intercalate, List.intersperse]
    rw [hi]
    have hl : (p ++ '&' :: List.intercalate ['&'] (p2 :: parts)).length
        = (p.length + (List.intercalate ['&'] (p2 :: parts)).length) + 1 := by
      simp
      omega
    rw [hl]
    show parseQueryLoop m _ _ = _
    unfold parseQueryLoop
    rw [if_neg (by simp), strCut_found '&' p _ hamp]
    have hrec := parseQueryLoop_chunks (p2 :: parts) (procChunk m p)
      (fun q hq => hp q (by simp [hq]))
    calc parseQueryLoop (procChunk m p) (p.length + (List.intercalate ['&'] (p2 :: parts)).length)
          (List.intercalate ['&'] (p2 :: parts))
        = parseQueryLoop (procChunk m p) (List.intercalate ['&'] (p2 :: parts)).length
          (List.intercalate ['&'] (p2 :: parts)) := by
          exact parseQueryLoop_fuel _ _ _ _ (by omega) (by omega)
      _ = (p2 :: parts).foldl procChunk (procChunk m p) := hrec

theorem hasChar_eq_mem (s : Str) (c : Char) : hasChar s c = true ↔ c ∈ s := by
  induction s with
  | nil => simp [hasChar]
  | cons x xs ih =>
    rw [hasChar_cons]
    by_cases hx : x = c
    · simp [hx]
    · rw [if_neg hx]
      simp only [List.mem_cons, ih]
      constructor
      · exact Or.inr
      · intro h
        rcases h with h | h
        · exact absurd h.symm hx
        · exact h

theorem hasChar_false_iff (s : Str) (c : Char) : hasChar s c = false ↔ c ∉ s := by
  rw [← hasChar_eq_mem]
  cases hasChar s c <;> simp

/-! ### strLt ordering lemmas -/

theorem strLt_irrefl : (a : Str) → strLt a a = false
  | [] => rfl
  | c :: cs => by
    unfold strLt
    rw [if_neg (by omega), if_neg (by omega)]
    exact strLt_irrefl cs

theorem strLt_trans : (a b c : Str) → strLt a b = true → strLt b c = true →
    strLt a c = true
  | [], [], _, hab, _ => by simp [strLt] at hab
  | [], _ :: _, [], _, hbc => by simp [strLt] at hbc
  | [], _ :: _, _ :: _, _, _ => rfl
  | _ :: _, [], _, hab, _ => by simp [strLt] at hab
  | _ :: _, _ :: _, [], _, hbc => by simp [strLt] at hbc
  | a0 :: as, b0 :: bs, c0 :: cs, hab, hbc => by
    unfold strLt at hab hbc ⊢
    by_cases h1 : a0.toNat < b0.toNat <;> by_cases h2 : b0.toNat < c0.toNat
    · rw [if_pos (by omega : a0.toNat < c0.toNat)]
    · rw [if_neg h2] at hbc
      by_cases h3 : c0.toNat < b0.toNat
      · rw [if_pos h3] at hbc
        exact absurd hbc (by simp)
      · rw [if_neg h3] at hbc
        rw [if_pos (by omega : a0.toNat < c0.toNat)]
    · rw [if_neg h1] at hab
      by_cases h4 : b0.toNat < a0.toNat
      · rw [if_pos h4] at hab
        exact absurd hab (by simp)
      · rw [if_neg h4] at hab
        rw [if_pos (by omega : a0.toNat < c0.toNat)]
    · rw [if_neg h1] at hab
      by_cases h4 : b0.toNat < a0.toNat
      · rw [if_pos h4] at hab
        exact absurd hab (by simp)
      · rw [if_neg h4] at hab
        rw [if_neg h2] at hbc
        by_cases h3 : c0.toNat < b0.toNat
        · rw [if_pos h3] at hbc
          exact absurd hbc (by simp)
        · rw [if_neg h3] at hbc
          rw [if_neg (by omega : ¬ a0.toNat < c0.toNat),
            if_neg (by omega : ¬ c0.toNat < a0.toNat)]
          exact strLt_trans as bs cs hab hbc

theorem toNat_inj_char {a b : Char} (h : a.toNat = b.toNat) : a = b := by
  have h2 := Char.ofNat_toNat a
  rw [h, Char.ofNat_toNat b] at h2
  exact h2.symm

theorem strLt_total_ne : (a b : Str) → a ≠ b →
    strLt a b = true ∨ strLt b a = true
  | [], [], h => absurd rfl h
  | [], _ :: _, _ => Or.inl rfl
  | _ :: _, [], _ => Or.inr rfl
  | a0 :: as, b0 :: bs, h => by
    by_cases h0 : a0.toNat < b0.toNat
    · left
      unfold strLt
      rw [if_pos h0]
    · by_cases h0' : b0.toNat < a0.toNat
      · right
        unfold strLt
        rw [if_pos h0']
      · have he : a0 = b0 := toNat_inj_char (by omega)
        subst he
        have hne : as ≠ bs := by
          intro hh
          exact h (by rw [hh])
        rcases strLt_total_ne as bs hne with hc | hc
        · left
          unfold strLt
          rw [if_neg (by omega), if_neg (by omega)]
          exact hc
        · right
          unfold strLt
          rw [if_neg (by omega), if_neg (by omega)]
          exact hc

theorem strLt_asymm {a b : Str} (h : strLt a b = true) : strLt b a = false := by
  by_contra hc
  have hba : strLt b a = true := by
    revert hc
    cases strLt b a <;> simp
  have := strLt_trans a b a h hba
  rw [strLt_irrefl] at this
  exact absurd this (by simp)

/-! ### valuesAdd / sortValues lemmas -/

/-- The key list of a `Values`. -/
def valKeys (m : Values) : List Str := m.map Prod.fst

theorem valuesAdd_new (k : Str) (v : Str) : (acc : Values) → k ∉ valKeys acc →
    valuesAdd k v acc = acc ++ [(k, [v])]
  | [], _ => rfl
  | e :: rest, h => by
    have hk : ¬ e.1 = k := by
      intro hh
      exact h (by simp [valKeys, hh])
    unfold valuesAdd
    rw [if_neg hk, valuesAdd_new k v rest (fun hh => h (by simp [valKeys] at hh ⊢; exact Or.inr hh))]
    simp

theorem valuesAdd_append_last (k : Str) (v : Str) (l : List Str) :
    (acc : Values) → k ∉ valKeys acc →
    valuesAdd k v (acc ++ [(k, l)]) = acc ++ [(k, l ++ [v])]
  | [], _ => by
    simp only [List.nil_append]
    unfold valuesAdd
    rw [if_pos rfl]
  | e :: rest, h => by
    have hk : ¬ e.1 = k := by
      intro hh
      exact h (by simp [valKeys, hh])
    simp only [List.cons_append]
    unfold valuesAdd
    rw [if_neg hk,
      valuesAdd_append_last k v l rest (fun hh => h (by simp [valKeys] at hh ⊢; exact Or.inr hh))]

/-- All (key, value) pairs of a `Values`, in order. -/
def pairsOf (m : Values) : List (Str × Str) :=
  m.flatMap (fun e => e.2.map (fun v => (e.1, v)))

theorem foldl_valuesAdd_values (k : Str) : (vs : List Str) → (acc : Values) →
    (l : List Str) → k ∉ valKeys acc →
    (vs.map (fun v => (k, v))).foldl (fun a kv => valuesAdd kv.1 kv.2 a) (acc ++ [(k, l)])
      = acc ++ [(k, l ++ vs)]
  | [], acc, l, _ => by simp
  | v :: vs, acc, l, h => by
    simp only [List.map_cons, List.foldl_cons]
    rw [valuesAdd_append_last k v l acc h,
      foldl_valuesAdd_values k vs acc (l ++ [v]) h]
    simp

theorem rebuild_pairs : (m' : Values) → (acc : Values) →
    (∀ k ∈ valKeys m', k ∉ valKeys acc) →
    (valKeys m').Nodup → (∀ e ∈ m', e.2 ≠ []) →
    (pairsOf m').foldl (fun a kv => valuesAdd kv.1 kv.2 a) acc = acc ++ m'
  | [], acc, _, _, _ => by simp [pairsOf]
  | (k, vs) :: rest, acc, hdisj, hnd, hne => by
    have hvs : vs ≠ [] := hne (k, vs) (by simp)
    rcases vs with _ | ⟨v0, vtl⟩
    · exact absurd rfl hvs
    · have hk : k ∉ valKeys acc := hdisj k (by simp [valKeys])
      have hfold : pairsOf ((k, v0 :: vtl) :: rest) =
          ((v0 :: vtl).map (fun v => (k, v))) ++ pairsOf rest := by
        simp [pairsOf]
      rw [hfold, List.foldl_append]
      have h1 : ((v0 :: vtl).map (fun v => (k, v))).foldl
          (fun a kv => valuesAdd kv.1 kv.2 a) acc = acc ++ [(k, v0 :: vtl)] := by
        simp only [List.map_cons, List.foldl_cons]
        rw [valuesAdd_new k v0 acc hk]
        have := foldl_valuesAdd_values k vtl acc [v0] hk
        simpa using this
      rw [h1]
      have hnd' : (valKeys rest).Nodup := by
        simp only [valKeys, List.map_cons, List.nodup_cons] at hnd
        exact hnd.2
      have hkrest : k ∉ valKeys rest := by
        simp only [valKeys, List.map_cons, List.nodup_cons] at hnd
        exact hnd.1
      have hdisj' : ∀ k' ∈ valKeys rest, k' ∉ valKeys (acc ++ [(k, v0 :: vtl)]) := by
        intro k' hk' hmem
        have hmem2 : k' ∈ valKeys acc ∨ k' = k := by
          simp only [valKeys, List.map_append, List.mem_append] at hmem
          rcases hmem with hmem | hmem
          · exact Or.inl hmem
          · simp at hmem
            exact Or.inr hmem
        rcases hmem2 with hmem2 | hmem2
        · exact hdisj k' (List.mem_cons_of_mem _ hk') hmem2
        · subst hmem2
          exact hkrest hk'
      rw [rebuild_pairs rest (acc ++ [(k, v0 :: vtl)]) hdisj' hnd'
        (fun e he => hne e (by simp [he]))]
      simp

/-! ### Insertion sort lemmas -/

/-- Strict key order on `Values` entries. -/
def entLt (a b : Str × List Str) : Prop := strLt a.1 b.1 = true

theorem mem_insertSorted {x e : Str × List Str} : (l : Values) →
    (x ∈ insertSorted e l ↔ x = e ∨ x ∈ l)
  | [] => by simp [insertSorted]
  | f :: rest => by
    unfold insertSorted
    by_cases hf : strLt f.1 e.1 = true
    · rw [if_pos hf]
      simp only [List.mem_cons, mem_insertSorted rest]
      tauto
    · rw [if_neg hf]
      simp only [List.mem_cons]

theorem insertSorted_pairwise {e : Str × List Str} : (l : Values) →
    l.Pairwise entLt → (∀ f ∈ l, f.1 ≠ e.1) →
    (insertSorted e l).Pairwise entLt
  | [], _, _ => by simp [insertSorted, List.pairwise_cons]
  | f :: rest, hl, hne => by
    unfold insertSorted
    by_cases hf : strLt f.1 e.1 = true
    · rw [if_pos hf]
      rw [List.pairwise_cons] at hl ⊢
      constructor
      · intro x hx
        rcases (mem_insertSorted rest).mp hx with hx | hx
        · subst hx
          exact hf
        · exact hl.1 x hx
      · exact insertSorted_pairwise rest hl.2 (fun g hg => hne g (by simp [hg]))
    · rw [if_neg hf]
      have hef : entLt e f := by
        rcases strLt_total_ne f.1 e.1 (hne f (by simp)) with hc | hc
        · exact absurd hc hf
        · exact hc
      rw [List.pairwise_cons] at hl
      rw [List.pairwise_cons]
      constructor
      · intro x hx
        rcases List.mem_cons.mp hx with hx | hx
        · subst hx
          exact hef
        · exact strLt_trans _ _ _ hef (hl.1 x hx)
      · rw [List.pairwise_cons]
        exact ⟨hl.1, hl.2⟩

theorem insertSorted_perm (e : Str × List Str) : (l : Values) →
    (insertSorted e l).Perm (e :: l)
  | [] => List.Perm.refl _
  | f :: rest => by
    unfold insertSorted
    by_cases hf : strLt f.1 e.1 = true
    · rw [if_pos hf]
      have h1 : (f :: insertSorted e rest).Perm (f :: e :: rest) :=
        (insertSorted_perm e rest).cons f
      exact h1.trans (List.Perm.swap e f rest)
    · rw [if_neg hf]

theorem sortValues_perm : (m : Values) → (sortValues m).Perm m
  | [] => List.Perm.refl _
  | f :: rest => by
    show (insertSorted f (sortValues rest)).Perm (f :: rest)
    exact (insertSorted_perm f (sortValues rest)).trans ((sortValues_perm rest).cons f)

theorem valKeys_perm {m m' : Values} (h : m.Perm m') :
    (valKeys m).Perm (valKeys m') := h.map Prod.fst

theorem sortValues_pairwise : (m : Values) → (valKeys m).Nodup →
    (sortValues m).Pairwise entLt
  | [], _ => List.Pairwise.nil
  | f :: rest, hnd => by
    show (insertSorted f (sortValues rest)).Pairwise entLt
    have hnd0 : f.1 ∉ valKeys rest := by
      simp only [valKeys, List.map_cons, List.nodup_cons] at hnd
      exact hnd.1
    have hnd1 : (valKeys rest).Nodup := by
      simp only [valKeys, List.map_cons, List.nodup_cons] at hnd
      exact hnd.2
    refine insertSorted_pairwise (sortValues rest) (sortValues_pairwise rest hnd1) ?_
    intro g hg he
    apply hnd0
    rw [← he]
    have : g ∈ rest := (sortValues_perm rest).mem_iff.mp hg
    exact List.mem_map_of_mem Prod.fst this

theorem sortValues_eq_self : (m : Values) → m.Pairwise entLt → sortValues m = m
  | [], _ => rfl
  | f :: rest, h => by
    show insertSorted f (sortValues rest) = f :: rest
    rw [List.pairwise_cons] at h
    rw [sortValues_eq_self rest h.2]
    rcases rest with _ | ⟨g, rest'⟩
    · rfl
    · unfold insertSorted
      have hgf : strLt g.1 f.1 = false := strLt_asymm (h.1 g (by simp))
      rw [if_neg (by simp [hgf])]

theorem sortValues_idem (m : Values) (hnd : (valKeys m).Nodup) :
    sortValues (sortValues m) = sortValues m :=
  sortValues_eq_self (sortValues m) (sortValues_pairwise m hnd)

/-! ### procChunk on canonical pairs -/

theorem encPair_ne_nil (k v : Str) : encPair k v ≠ [] := by
  unfold encPair
  rcases hk : escapeStr k EncMode.queryComponent with _ | ⟨c, cs⟩ <;> simp

theorem encPair_no_char (k v : Str) (c : Char)
    (h1 : shouldEscape c EncMode.queryComponent = true) (h2 : c ≠ '%')
    (h3 : c ≠ '+') (h4 : isHexDigit c = false) (h5 : c ≠ '=') :
    hasChar (encPair k v) c = false := by
  unfold encPair
  rw [hasChar_append, hasChar_cons, if_neg (fun he => h5 he.symm)]
  have ha : c ∉ escapeStr k EncMode.queryComponent := not_mem_escapeStr k h1 h2 h3 h4
  have hb : c ∉ escapeStr v EncMode.queryComponent := not_mem_escapeStr v h1 h2 h3 h4
  rw [(hasChar_false_iff _ c).mpr ha, (hasChar_false_iff _ c).mpr hb]
  rfl

theorem procChunk_encPair (m : Values) (k v : Str)
    (hk : ∀ c ∈ k, c.toNat < 256) (hv : ∀ c ∈ v, c.toNat < 256) :
    procChunk m (encPair k v) = valuesAdd k v m := by
  unfold procChunk
  rw [encPair_no_char k v ';' (by decide) (by decide) (by decide) (by decide) (by decide)]
  rw [if_neg (by simp), if_neg (encPair_ne_nil k v)]
  have hcut : strCut '=' (encPair k v) =
      (escapeStr k EncMode.queryComponent, escapeStr v EncMode.queryComponent, true) := by
    unfold encPair
    apply strCut_found
    exact (hasChar_false_iff _ '=').mpr
      (not_mem_escapeStr k (by decide) (by decide) (by decide) (by decide))
  rw [hcut]
  rw [unescape_escapeStr EncMode.queryComponent k hk (by intro h; exact absurd h (by decide)),
    unescape_escapeStr EncMode.queryComponent v hv (by intro h; exact absurd h (by decide))]

theorem foldl_procChunk_pairs (m0 : Values) : (entries : Values) →
    (hb : ∀ e ∈ entries, (∀ c ∈ e.1, c.toNat < 256) ∧
      ∀ v ∈ e.2, ∀ c ∈ v, c.toNat < 256) →
    (entries.flatMap (fun e => e.2.map (fun v => encPair e.1 v))).foldl procChunk m0
      = (pairsOf entries).foldl (fun a kv => valuesAdd kv.1 kv.2 a) m0
  | [], _ => rfl
  | e :: rest, hb => by
    simp only [List.flatMap_cons, pairsOf, List.foldl_append]
    obtain ⟨hbk, hbv⟩ := hb e (by simp)
    have hinner : ∀ (vs : List Str) (acc : Values), (∀ v ∈ vs, ∀ c ∈ v, c.toNat < 256) →
        (vs.map (fun v => encPair e.1 v)).foldl procChunk acc
          = (vs.map (fun v => (e.1, v))).foldl (fun a kv => valuesAdd kv.1 kv.2 a) acc := by
      intro vs
      induction vs with
      | nil => intro acc _; rfl
      | cons v vtl ih =>
        intro acc hvb
        simp only [List.map_cons, List.foldl_cons]
        rw [procChunk_encPair acc e.1 v hbk (hvb v (by simp))]
        exact ih _ (fun w hw => hvb w (by simp [hw]))
    rw [hinner e.2 m0 hbv]
    have hrest := foldl_procChunk_pairs
      ((e.2.map (fun v => (e.1, v))).foldl (fun a kv => valuesAdd kv.1 kv.2 a) m0)
      rest (fun f hf => hb f (by simp [hf]))
    rw [hrest]
    rfl

/-- Parsing the encoding of a well-formed `Values` recovers it, sorted. -/
theorem parse_encode (m : Values) (hnd : (valKeys m).Nodup)
    (hvals : ∀ e ∈ m, e.2 ≠ [])
    (hbytes : ∀ e ∈ m, (∀ c ∈ e.1, c.toNat < 256) ∧
      ∀ v ∈ e.2, ∀ c ∈ v, c.toNat < 256) :
    parseQueryValues (encodeValues m) = sortValues m := by
  have hmem : ∀ e ∈ sortValues m, e ∈ m := fun e he => (sortValues_perm m).mem_iff.mp he
  have hbytes' : ∀ e ∈ sortValues m, (∀ c ∈ e.1, c.toNat < 256) ∧
      ∀ v ∈ e.2, ∀ c ∈ v, c.toNat < 256 := fun e he => hbytes e (hmem e he)
  have hparts : ∀ p ∈ (sortValues m).flatMap (fun e => e.2.map (fun v => encPair e.1 v)),
      p ≠ [] ∧ hasChar p '&' = false := by
    intro p hp
    simp only [List.mem_flatMap, List.mem_map] at hp
    obtain ⟨e, _, v, _, hpe⟩ := hp
    subst hpe
    exact ⟨encPair_ne_nil _ _,
      encPair_no_char _ _ '&' (by decide) (by decide) (by decide) (by decide) (by decide)⟩
  unfold parseQueryValues encodeValues
  rw [parseQueryLoop_chunks _ [] hparts]
  rw [foldl_procChunk_pairs [] (sortValues m) hbytes']
  have hndS : (valKeys (sortValues m)).Nodup :=
    (valKeys_perm (sortValues_perm m)).nodup_iff.mpr hnd
  have := rebuild_pairs (sortValues m) [] (by simp [valKeys]) hndS
    (fun e he => hvals e (hmem e he))
  simpa using this

/-! ### Well-formedness of parsed query values -/

/-- Invariant of every `Values` built by `parseQueryValues`: distinct keys,
non-empty value lists, byte-sized characters. -/
def ValuesWF (m : Values) : Prop :=
  (valKeys m).Nodup ∧ (∀ e ∈ m, e.2 ≠ []) ∧
  ∀ e ∈ m, (∀ c ∈ e.1, c.toNat < 256) ∧ ∀ v ∈ e.2, ∀ c ∈ v, c.toNat < 256

theorem valKeys_valuesAdd (k v : Str) : (m : Values) →
    valKeys (valuesAdd k v m) = if k ∈ valKeys m then valKeys m else valKeys m ++ [k]
  | [] => by simp [valuesAdd, valKeys]
  | e :: rest => by
    unfold valuesAdd
    by_cases he : e.1 = k
    · rw [if_pos he]
      have hk : k ∈ valKeys (e :: rest) := by simp [valKeys, he]
      rw [if_pos hk]
      simp [valKeys, he]
    · rw [if_neg he]
      have h1 : valKeys ((e.1, e.2) :: valuesAdd k v rest)
          = e.1 :: valKeys (valuesAdd k v rest) := rfl
      have h2 : valKeys (e :: valuesAdd k v rest) = e.1 :: valKeys (valuesAdd k v rest) := rfl
      rw [h2, valKeys_valuesAdd k v rest]
      by_cases hk : k ∈ valKeys rest
      · rw [if_pos hk, if_pos (show k ∈ valKeys (e :: rest) from
          List.mem_cons_of_mem e.1 hk)]
        rfl
      · rw [if_neg hk, if_neg (by
          simp only [valKeys, List.map_cons, List.mem_cons]
          push_neg
          exact ⟨fun hh => he hh.symm, hk⟩)]
        rfl

theorem valuesAdd_vals_ne {k v : Str} : (m : Values) → (∀ e ∈ m, e.2 ≠ []) →
    ∀ e ∈ valuesAdd k v m, e.2 ≠ []
  | [], _, e, he => by
    simp [valuesAdd] at he
    subst he
    simp
  | f :: rest, hne, e, he => by
    unfold valuesAdd at he
    by_cases hf : f.1 = k
    · rw [if_pos hf] at he
      rcases List.mem_cons.mp he with he | he
      · subst he
        simp only []
        intro hc
        exact absurd (List.append_eq_nil.mp hc).2 (by simp)
      · exact hne e (by simp [he])
    · rw [if_neg hf] at he
      rcases List.mem_cons.mp he with he | he
      · rw [he]
        exact hne f (by simp)
      · exact valuesAdd_vals_ne rest (fun g hg => hne g (by simp [hg])) e he

theorem valuesAdd_bytes {k v : Str} (hk : ∀ c ∈ k, c.toNat < 256)
    (hv : ∀ c ∈ v, c.toNat < 256) : (m : Values) →
    (∀ e ∈ m, (∀ c ∈ e.1, c.toNat < 256) ∧ ∀ w ∈ e.2, ∀ c ∈ w, c.toNat < 256) →
    ∀ e ∈ valuesAdd k v m,
      (∀ c ∈ e.1, c.toNat < 256) ∧ ∀ w ∈ e.2, ∀ c ∈ w, c.toNat < 256
  | [], _, e, he => by
    simp [valuesAdd] at he
    subst he
    refine ⟨hk, ?_⟩
    intro w hw
    simp at hw
    subst hw
    exact hv
  | f :: rest, hb, e, he => by
    unfold valuesAdd at he
    by_cases hf : f.1 = k
    · rw [if_pos hf] at he
      rcases List.mem_cons.mp he with he | he
      · subst he
        obtain ⟨hbk, hbv⟩ := hb f (by simp)
        refine ⟨hbk, ?_⟩
        intro w hw
        rcases List.mem_append.mp hw with hw | hw
        · exact hbv w hw
        · simp at hw
          subst hw
          exact hv
      · exact hb e (by simp [he])
    · rw [if_neg hf] at he
      rcases List.mem_cons.mp he with he | he
      · rw [he]
        exact hb f (by simp)
      · exact valuesAdd_bytes hk hv rest (fun g hg => hb g (by simp [hg])) e he

theorem valuesAdd_WF {m : Values} {k v : Str} (hwf : ValuesWF m)
    (hk : ∀ c ∈ k, c.toNat < 256) (hv : ∀ c ∈ v, c.toNat < 256) :
    ValuesWF (valuesAdd k v m) := by
  obtain ⟨hnd, hne, hb⟩ := hwf
  refine ⟨?_, valuesAdd_vals_ne m hne, valuesAdd_bytes hk hv m hb⟩
  rw [valKeys_valuesAdd]
  by_cases hkm : k ∈ valKeys m
  · rwa [if_pos hkm]
  · rw [if_neg hkm]
    rw [List.nodup_append]
    exact ⟨hnd, List.nodup_singleton k, by simpa using hkm⟩

theorem mem_strCut_fst {sep : Char} : (s : Str) → ∀ c ∈ (strCut sep s).1, c ∈ s
  | [], _, hc => by simp [strCut] at hc
  | x :: xs, c, hc => by
    rw [strCut_cons] at hc
    by_cases hx : x = sep
    · rw [if_pos hx] at hc
      simp at hc
    · rw [if_neg hx] at hc
      rcases List.mem_cons.mp hc with hc | hc
      · simp [hc]
      · exact List.mem_cons_of_mem x (mem_strCut_fst xs c hc)

theorem mem_strCut_rest {sep : Char} : (s : Str) → ∀ c ∈ (strCut sep s).2.1, c ∈ s
  | [], _, hc => by simp [strCut] at hc
  | x :: xs, c, hc => by
    rw [strCut_cons] at hc
    by_cases hx : x = sep
    · rw [if_pos hx] at hc
      exact List.mem_cons_of_mem x hc
    · rw [if_neg hx] at hc
      exact List.mem_cons_of_mem x (mem_strCut_rest xs c hc)

theorem procChunk_WF {m : Values} {chunk : Str} (hwf : ValuesWF m)
    (hb : ∀ c ∈ chunk, c.toNat < 256) : ValuesWF (procChunk m chunk) := by
  unfold procChunk
  by_cases h1 : hasChar chunk ';' = true
  · rwa [if_pos h1]
  · rw [if_neg h1]
    by_cases h2 : chunk = []
    · rwa [if_pos h2]
    · rw [if_neg h2]
      rcases hu1 : unescape EncMode.queryComponent (strCut '=' chunk).1 with e | k
      · exact hwf
      · rcases hu2 : unescape EncMode.queryComponent (strCut '=' chunk).2.1 with e | v
        · exact hwf
        · have hkb := (unescape_ok_facts _ _ _ hu1).2.1
            (fun c hc => hb c (mem_strCut_fst chunk c hc))
          have hvb := (unescape_ok_facts _ _ _ hu2).2.1
            (fun c hc => hb c (mem_strCut_rest chunk c hc))
          exact valuesAdd_WF hwf hkb hvb

theorem parseQueryLoop_WF {m : Values} (hwf : ValuesWF m) : (fuel : Nat) → (q : Str) →
    (∀ c ∈ q, c.toNat < 256) → ValuesWF (parseQueryLoop m fuel q)
  | 0, _, _ => hwf
  | fuel + 1, q, hb => by
    by_cases hq : q = []
    · subst hq
      exact hwf
    · show ValuesWF (parseQueryLoop _ (fuel + 1) q)
      unfold parseQueryLoop
      rw [if_neg hq]
      exact parseQueryLoop_WF
        (procChunk_WF hwf (fun c hc => hb c (mem_strCut_fst q c hc))) fuel _
        (fun c hc => hb c (mem_strCut_rest q c hc))

theorem parseQueryValues_WF (q : Str) (hb : ∀ c ∈ q, c.toNat < 256) :
    ValuesWF (parseQueryValues q) :=
  parseQueryLoop_WF ⟨by simp [valKeys], by simp, by simp⟩ q.length q hb

/-! ### valuesDel lemmas -/

/-- `normalizeURL`'s tracking-parameter deletion. -/
def delTracking (q : Values) : Values := trackingParams.foldl valuesDel q

theorem valuesDel_sublist (m : Values) (k : Str) : (valuesDel m k).Sublist m :=
  List.filter_sublist m

theorem valuesDel_WF {m : Values} (hwf : ValuesWF m) (k : Str) :
    ValuesWF (valuesDel m k) := by
  obtain ⟨hnd, hne, hb⟩ := hwf
  refine ⟨?_, ?_, ?_⟩
  · exact List.Nodup.sublist ((valuesDel_sublist m k).map Prod.fst) hnd
  · intro e he
    exact hne e ((valuesDel_sublist m k).mem he)
  · intro e he
    exact hb e ((valuesDel_sublist m k).mem he)

theorem delTracking_WF {m : Values} (hwf : ValuesWF m) : ValuesWF (delTracking m) := by
  unfold delTracking
  induction trackingParams generalizing m with
  | nil => exact hwf
  | cons t ts ih => exact ih (valuesDel_WF hwf t)

theorem not_mem_valKeys_valuesDel (m : Values) (k : Str) :
    k ∉ valKeys (valuesDel m k) := by
  intro h
  simp only [valKeys, List.mem_map] at h
  obtain ⟨e, he, hek⟩ := h
  unfold valuesDel at he
  rw [List.mem_filter] at he
  have := he.2
  simp [hek] at this

theorem valKeys_valuesDel_subset (m : Values) (k : Str) :
    ∀ k' ∈ valKeys (valuesDel m k), k' ∈ valKeys m := by
  intro k' h
  simp only [valKeys, List.mem_map] at h ⊢
  obtain ⟨e, he, hek⟩ := h
  exact ⟨e, (valuesDel_sublist m k).mem he, hek⟩

theorem valKeys_foldl_del_subset : (ts : List Str) → (m : Values) →
    ∀ k' ∈ valKeys (ts.foldl valuesDel m), k' ∈ valKeys m
  | [], _, _, h => h
  | t :: ts, m, k', h => by
    have := valKeys_foldl_del_subset ts (valuesDel m t) k' h
    exact valKeys_valuesDel_subset m t k' this

theorem not_mem_valKeys_foldl_del : (ts : List Str) → (m : Values) → (t : Str) →
    t ∈ ts → t ∉ valKeys (ts.foldl valuesDel m)
  | [], _, _, ht => absurd ht (by simp)
  | t0 :: ts, m, t, ht => by
    rcases List.mem_cons.mp ht with ht | ht
    · subst ht
      intro h
      exact not_mem_valKeys_valuesDel m t
        (valKeys_foldl_del_subset ts (valuesDel m t) t h)
    · exact not_mem_valKeys_foldl_del ts (valuesDel m t0) t ht

theorem valuesDel_id {m : Values} {k : Str} (h : k ∉ valKeys m) :
    valuesDel m k = m := by
  unfold valuesDel
  apply List.filter_eq_self.mpr
  intro e he
  simp only [Bool.not_eq_true', decide_eq_false_iff_not]
  intro hek
  exact h (by simp [valKeys, List.mem_map]; exact ⟨e.2, by rw [← hek]; exact he⟩)

theorem foldl_del_id : (ts : List Str) → (m : Values) →
    (∀ t ∈ ts, t ∉ valKeys m) → ts.foldl valuesDel m = m
  | [], _, _ => rfl
  | t :: ts, m, h => by
    show ts.foldl valuesDel (valuesDel m t) = m
    rw [valuesDel_id (h t (by simp))]
    exact foldl_del_id ts m (fun t' ht' => h t' (by simp [ht']))

/-- The canonical form of `normalizeURL`'s query rewriting: parsing the
emitted query string, deleting the (already absent) tracking parameters and
re-encoding reproduces the emitted string. -/
theorem query_roundtrip (rawQ : Str) (hbq : ∀ c ∈ rawQ, c.toNat < 256) :
    encodeValues (delTracking (parseQueryValues
        (encodeValues (delTracking (parseQueryValues rawQ)))))
      = encodeValues (delTracking (parseQueryValues rawQ)) := by
  have hwf : ValuesWF (delTracking (parseQueryValues rawQ)) :=
    delTracking_WF (parseQueryValues_WF rawQ hbq)
  obtain ⟨hnd, hne, hb⟩ := hwf
  rw [parse_encode _ hnd hne hb]
  have htrack : ∀ t ∈ trackingParams,
      t ∉ valKeys (sortValues (delTracking (parseQueryValues rawQ))) := by
    intro t ht hmem
    have hperm := valKeys_perm (sortValues_perm (delTracking (parseQueryValues rawQ)))
    exact not_mem_valKeys_foldl_del trackingParams (parseQueryValues rawQ) t ht
      (hperm.mem_iff.mp hmem)
  have hdel : delTracking (sortValues (delTracking (parseQueryValues rawQ)))
      = sortValues (delTracking (parseQueryValues rawQ)) :=
    foldl_del_id trackingParams _ (fun t ht => htrack t ht)
  rw [hdel]
  unfold encodeValues
  rw [sortValues_idem _ hnd]

/-! ### Port-check machinery for host round-trips -/

/-- Declarative form of `validOptionalPort` after the last colon: whatever
follows the last `:` consists of digits. -/
def portOKP (x : Str) : Prop :=
  ∀ a b : Str, x = a ++ ':' :: b → hasChar b ':' = false → b.all isDigitChar = true

theorem portOKP_nil : portOKP [] := by
  intro a b hab
  exact absurd hab (by simp)

theorem portOKP_tail {c : Char} {t : Str} (h : portOKP (c :: t)) : portOKP t := by
  intro a b hab hb
  exact h (c :: a) b (by simp [hab]) hb

theorem lastIdxFrom_max {s pat : Str} : {n i : Nat} →
    lastIdxFrom s pat n = some i → ∀ j, i < j → j ≤ n → subAt s pat j = false
  | 0, i, h, j, hij, hj => by omega
  | n + 1, i, h, j, hij, hj => by
    by_cases hs : subAt s pat (n + 1)
    · rw [lastIdxFrom, if_pos hs] at h
      simp at h
      omega
    · rw [lastIdxFrom, if_neg hs] at h
      rcases Nat.lt_or_ge j (n + 1) with hlt | hge
      · exact lastIdxFrom_max h j hij (by omega)
      · have : j = n + 1 := by omega
        subst this
        simpa using hs

theorem lastIdxFrom_none_all {s pat : Str} : {n : Nat} →
    lastIdxFrom s pat n = none → ∀ j, j ≤ n → subAt s pat j = false
  | 0, h, j, hj => by
    have : j = 0 := by omega
    subst this
    by_cases hs : subAt s pat 0
    · rw [lastIdxFrom, if_pos hs] at h
      simp at h
    · simpa using hs
  | n + 1, h, j, hj => by
    by_cases hs : subAt s pat (n + 1)
    · rw [lastIdxFrom, if_pos hs] at h
      simp at h
    · rw [lastIdxFrom, if_neg hs] at h
      rcases Nat.lt_or_ge j (n + 1) with hlt | hge
      · exact lastIdxFrom_none_all h j (by omega)
      · have : j = n + 1 := by omega
        subst this
        simpa using hs

theorem lastIdxFrom_ge {s pat : Str} : {n j : Nat} → subAt s pat j = true → j ≤ n →
    ∃ i, lastIdxFrom s pat n = some i ∧ j ≤ i
  | 0, j, hs, hj => by
    have : j = 0 := by omega
    subst this
    exact ⟨0, by rw [lastIdxFrom, if_pos hs], Nat.le_refl 0⟩
  | n + 1, j, hs, hj => by
    by_cases hTop : subAt s pat (n + 1)
    · exact ⟨n + 1, by rw [lastIdxFrom, if_pos hTop], hj⟩
    · have hjn : j ≤ n := by
        rcases Nat.lt_or_ge j (n + 1) with hlt | hge
        · omega
        · have : j = n + 1 := by omega
          subst this
          exact absurd hs (by simpa using hTop)
      obtain ⟨i, hi, hji⟩ := lastIdxFrom_ge hs hjn
      exact ⟨i, by rw [lastIdxFrom, if_neg hTop]; exact hi, hji⟩

theorem strOf_colon : strOf ":" = [':'] := rfl

theorem subAt_colon_decomp {x : Str} {i : Nat} (h : subAt x (strOf ":") i = true) :
    x = x.take i ++ ':' :: x.drop (i + 1) ∧ i < x.length := by
  rw [strOf_colon] at h
  have hpre : [':'] <+: x.drop i := by
    simpa [subAt, List.isPrefixOf_iff_prefix] using h
  obtain ⟨t, ht⟩ := hpre
  have hd : x.drop i = ':' :: t := by simpa using ht.symm
  have hlen : i < x.length := by
    by_contra hc
    have : x.drop i = [] := List.drop_eq_nil_of_le (by omega)
    rw [this] at hd
    exact absurd hd (by simp)
  have ht2 : x.drop (i + 1) = t := by
    have : x.drop (i + 1) = (x.drop i).drop 1 := by
      rw [List.drop_drop]
    rw [this, hd]
    rfl
  constructor
  · conv_lhs => rw [← List.take_append_drop i x]
    rw [hd, ht2]
  · exact hlen

theorem subAt_of_decomp (a b : Str) (c : Char) :
    subAt (a ++ c :: b) [c] a.length = true := by
  unfold subAt
  rw [List.drop_left]
  simp [List.isPrefixOf]

theorem hasChar_decomp {b : Str} {c : Char} (h : hasChar b c = true) :
    ∃ p q, b = p ++ c :: q := by
  rw [hasChar_eq_mem] at h
  obtain ⟨p, q, hpq⟩ := List.append_of_mem h
  exact ⟨p, q, hpq⟩

/-- `portOKP` implies the computed `lastIdx?`/`validOptionalPort` check. -/
theorem portOKP_check {x : Str} (h : portOKP x) :
    ∀ i, lastIdx? x (strOf ":") = some i → validOptionalPort (x.drop i) = true := by
  intro i hi
  have hsub := (@lastIdxFrom_le x (strOf ":") x.length i hi).2
  obtain ⟨hdec, hlen⟩ := subAt_colon_decomp hsub
  have hmax := @lastIdxFrom_max x (strOf ":") x.length i hi
  have hnocolon : hasChar (x.drop (i + 1)) ':' = false := by
    by_contra hc
    have hc2 : hasChar (x.drop (i + 1)) ':' = true := by
      revert hc
      cases hasChar (x.drop (i + 1)) ':' <;> simp
    obtain ⟨p, q, hpq⟩ := hasChar_decomp hc2
    have hx2 : x = (x.take i ++ ':' :: p) ++ ':' :: q := by
      conv_lhs => rw [hdec, hpq]
      simp
    have hst : subAt x (strOf ":") (x.take i ++ ':' :: p).length = true := by
      rw [strOf_colon]
      have h0 := subAt_of_decomp (x.take i ++ ':' :: p) q ':'
      rw [← hx2] at h0
      exact h0
    have hlarge : i < (x.take i ++ ':' :: p).length := by
      simp only [List.length_append, List.length_take, List.length_cons]
      omega
    have hbound : (x.take i ++ ':' :: p).length ≤ x.length := by
      conv_rhs => rw [hx2]
      simp
    have := hmax _ hlarge hbound
    rw [hst] at this
    exact absurd this (by simp)
  have hdig := h (x.take i) (x.drop (i + 1)) hdec hnocolon
  have htake : (x.take i).length = i := by
    rw [List.length_take]
    omega
  have hdrop : x.drop i = ':' :: x.drop (i + 1) := by
    conv_lhs => rw [hdec]
    rw [List.drop_left' htake]
  rw [hdrop]
  unfold validOptionalPort
  simp [hdig]

/-- The computed `lastIdx?`/`validOptionalPort` check implies `portOKP`. -/
theorem portOKP_of_check {x : Str}
    (h : ∀ i, lastIdx? x (strOf ":") = some i → validOptionalPort (x.drop i) = true) :
    portOKP x := by
  intro a b hab hb
  have hocc : subAt x (strOf ":") a.length = true := by
    rw [strOf_colon, hab]
    exact subAt_of_decomp a b ':'
  have hlen : a.length ≤ x.length := by
    rw [hab]
    simp
  obtain ⟨i, hi, hai⟩ := lastIdxFrom_ge hocc hlen
  have hvp := h i hi
  have hsubi := (lastIdxFrom_le hi).2
  have hieq : i = a.length := by
    rcases Nat.lt_or_ge a.length i with hlt | hge
    · exfalso
      have hpre : [':'] <+: x.drop i := by
        rw [strOf_colon] at hsubi
        simpa [subAt, List.isPrefixOf_iff_prefix] using hsubi
      have hcmem : ':' ∈ x.drop i := hpre.subset (by simp)
      have hb1 : x.drop (a.length + 1) = b := by
        rw [hab, show a ++ ':' :: b = (a ++ [':']) ++ b from by simp]
        exact List.drop_left' (by simp)
      have hdropb : x.drop i = b.drop (i - (a.length + 1)) := by
        rw [← hb1, List.drop_drop]
        congr 1
        omega
      rw [hdropb] at hcmem
      rw [hasChar_false_iff] at hb
      exact hb (List.mem_of_mem_drop hcmem)
    · omega
  have hdropa : x.drop a.length = ':' :: b := by
    rw [hab, List.drop_left]
  rw [hieq, hdropa] at hvp
  unfold validOptionalPort at hvp
  simpa using hvp

theorem portOKP_cons_ne {d : Char} {r2 : Str} (hd : ¬ d = ':') (h2 : portOKP r2) :
    portOKP (d :: r2) := by
  intro a b hab hb
  cases a with
  | nil =>
    simp only [List.nil_append, List.cons.injEq] at hab
    exact absurd hab.1 hd
  | cons e a2 =>
    simp only [List.cons_append, List.cons.injEq] at hab
    exact h2 a2 b hab.2 hb

theorem portOKP_cons_colon {r2 : Str}
    (hdig : hasChar r2 ':' = false → r2.all isDigitChar = true) (h2 : portOKP r2) :
    portOKP (':' :: r2) := by
  intro a b hab hb
  cases a with
  | nil =>
    simp only [List.nil_append, List.cons.injEq] at hab
    rw [← hab.2] at hb ⊢
    exact hdig hb
  | cons e a2 =>
    simp only [List.cons_append, List.cons.injEq] at hab
    exact h2 a2 b hab.2 hb

theorem append_eq_colon_split : {x y a b : Str} → x ++ y = a ++ ':' :: b →
    hasChar x ':' = false → ∃ a2, a = x ++ a2 ∧ y = a2 ++ ':' :: b
  | [], y, a, b, h, _ => ⟨a, by simp, by simpa using h⟩
  | c :: x2, y, a, b, h, hx => by
    cases a with
    | nil =>
      simp only [List.cons_append, List.nil_append, List.cons.injEq] at h
      rw [hasChar_cons, if_pos h.1] at hx
      exact absurd hx (by simp)
    | cons d a3 =>
      simp only [List.cons_append, List.cons.injEq] at h
      have hx2 : hasChar x2 ':' = false := by
        rw [hasChar_cons] at hx
        by_cases hc : c = ':'
        · rw [if_pos hc] at hx
          exact absurd hx (by simp)
        · rw [if_neg hc] at hx
          exact hx
      obtain ⟨a2, ha3, hy⟩ := append_eq_colon_split h.2 hx2
      exact ⟨a2, by rw [h.1, ha3]; simp, hy⟩

theorem portOKP_append_left {x y : Str} (hx : hasChar x ':' = false)
    (hy : portOKP y) : portOKP (x ++ y) := by
  intro a b hab hb
  obtain ⟨a2, _, hysplit⟩ := append_eq_colon_split hab hx
  exact hy a2 b hysplit hb

/-- A successful host-mode `unescape` preserves `portOKP`. -/
theorem unescape_portOKP : (s r : Str) → unescape EncMode.host s = Except.ok r →
    portOKP s → portOKP r
  | [], r, h, _ => by
    have hr : r = [] := by
      have : Except.ok ([] : Str) = Except.ok r := h
      simpa using this.symm
    rw [hr]
    exact portOKP_nil
  | c0 :: rest, r, h, hps => by
    by_cases hp : c0 = '%'
    · subst hp
      rcases rest with _ | ⟨c1, _ | ⟨c2, rest2⟩⟩
      · rw [unescape_pct_nil] at h
        exact absurd h (by simp)
      · rw [unescape_pct_one] at h
        exact absurd h (by simp)
      · rw [unescape_cons_pct] at h
        by_cases hhex : (isHexDigit c1 && isHexDigit c2) = true
        · rw [if_pos hhex] at h
          by_cases hrej : hostRejectEsc EncMode.host c1 c2 = true
          · rw [if_pos hrej] at h
            exact absurd h (by simp)
          · rw [if_neg hrej] at h
            rcases hrec : unescape EncMode.host rest2 with e | r2
            · rw [hrec] at h
              exact absurd h (by simp)
            · rw [hrec] at h
              simp only [Except.ok.injEq] at h
              rw [← h]
              have hps2 : portOKP rest2 :=
                portOKP_tail (portOKP_tail (portOKP_tail hps))
              refine portOKP_cons_ne ?_ (unescape_portOKP rest2 r2 hrec hps2)
              intro he
              unfold hostRejectEsc at hrej
              have hu1 := unhex_lt c1
              have hu2 := unhex_lt c2
              have hvlt : 16 * unhex c1 + unhex c2 < 256 := by omega
              have htn := toNat_ofNat_byte hvlt
              rcases Nat.lt_or_ge (unhex c1) 8 with h8 | h8
              · have h25 : c1 = '2' ∧ c2 = '5' := by
                  by_contra hne
                  have hb2 : (decide (c1 = '2') && decide (c2 = '5')) = false := by
                    simp only [not_and_or] at hne
                    rcases hne with hne | hne <;> simp [hne]
                  apply hrej
                  simp [h8, hb2]
                obtain ⟨h2, h5⟩ := h25
                subst h2
                subst h5
                exact absurd he (by decide)
              · rw [he] at htn
                have h58 : (':').toNat = 58 := by decide
                rw [h58] at htn
                omega
        · rw [if_neg hhex] at h
          exact absurd h (by simp)
    · by_cases hplus : c0 = '+'
      · subst hplus
        rw [unescape_cons_plus] at h
        rcases hrec : unescape EncMode.host rest with e | r2
        · rw [hrec] at h
          exact absurd h (by simp)
        · rw [hrec] at h
          simp only [Except.ok.injEq] at h
          rw [← h]
          rw [if_neg (by decide : ¬ EncMode.host = EncMode.queryComponent)]
          exact portOKP_cons_ne (by decide)
            (unescape_portOKP rest r2 hrec (portOKP_tail hps))
      · by_cases hlit : hostRejectLit EncMode.host c0 = true
        · rw [unescape_cons_lit_reject rest hp hplus hlit] at h
          exact absurd h (by simp)
        · rw [unescape_cons_lit rest hp hplus (by simpa using hlit)] at h
          rcases hrec : unescape EncMode.host rest with e | r2
          · rw [hrec] at h
            exact absurd h (by simp)
          · rw [hrec] at h
            simp only [Except.ok.injEq] at h
            rw [← h]
            have ihp := unescape_portOKP rest r2 hrec (portOKP_tail hps)
            by_cases hc : c0 = ':'
            · subst hc
              refine portOKP_cons_colon ?_ ihp
              intro hnoc
              obtain ⟨_, _, _, ih4, _⟩ := unescape_ok_facts EncMode.host rest r2 hrec
              have hrest_noc : hasChar rest ':' = false := by
                rw [← ih4 rfl]
                exact hnoc
              have hdig : rest.all isDigitChar = true :=
                hps [] rest (by simp) hrest_noc
              have hid := unescape_digits EncMode.host rest hdig
              rw [hid] at hrec
              have heq : rest = r2 := by simpa using hrec
              rw [← heq]
              exact hdig
            · exact portOKP_cons_ne hc ihp

theorem escapeChar_no_colon {c : Char} {mode : EncMode} (hc : ¬ c = ':') :
    hasChar (escapeChar c mode) ':' = false := by
  rw [hasChar_false_iff]
  intro hmem
  rcases mem_escapeChar hmem with ⟨he, _⟩ | he | he | he
  · exact hc he.symm
  · exact absurd he (by decide)
  · exact absurd he (by decide)
  · exact absurd he (by decide)

theorem escapeChar_colon_host : escapeChar ':' EncMode.host = [':'] := by decide

theorem escapeStr_colon_host : (s : Str) →
    hasChar (escapeStr s EncMode.host) ':' = hasChar s ':'
  | [] => rfl
  | c :: t => by
    rw [escapeStr_cons, hasChar_append, hasChar_cons]
    by_cases hc : c = ':'
    · subst hc
      rw [escapeChar_colon_host, if_pos rfl, hasChar_cons, if_pos rfl]
      simp
    · rw [escapeChar_no_colon hc, if_neg hc, escapeStr_colon_host t]
      simp

theorem escapeStr_digits : (s : Str) → s.all isDigitChar = true →
    escapeStr s EncMode.host = s
  | [], _ => rfl
  | c :: t, h => by
    rw [List.all_cons, Bool.and_eq_true] at h
    rw [escapeStr_cons]
    have hse : shouldEscape c EncMode.host = false := by
      unfold shouldEscape
      rw [if_pos (by unfold isAlphaNumChar; rw [h.1]; simp)]
    have hch : escapeChar c EncMode.host = [c] := by
      unfold escapeChar
      simp [hse]
    rw [hch, escapeStr_digits t h.2]
    rfl

/-- Host-mode escaping preserves `portOKP`. -/
theorem escapeStr_portOKP : (h : Str) → portOKP h → portOKP (escapeStr h EncMode.host)
  | [], _ => by
    rw [escapeStr_nil]
    exact portOKP_nil
  | c :: t, hp => by
    rw [escapeStr_cons]
    by_cases hc : c = ':'
    · subst hc
      rw [escapeChar_colon_host]
      rw [List.singleton_append]
      refine portOKP_cons_colon ?_ (escapeStr_portOKP t (portOKP_tail hp))
      intro hnoc
      have ht_noc : hasChar t ':' = false := by
        rw [← escapeStr_colon_host t]
        exact hnoc
      have hdig : t.all isDigitChar = true := hp [] t (by simp) ht_noc
      rw [escapeStr_digits t hdig]
      exact hdig
    · exact portOKP_append_left (escapeChar_no_colon hc)
        (escapeStr_portOKP t (portOKP_tail hp))

theorem escapeStr_head_ne_bracket {h : Str} (hh : ¬ h.head? = some '[') :
    ¬ (escapeStr h EncMode.host).head? = some '[' := by
  cases h with
  | nil =>
    rw [escapeStr_nil]
    simp
  | cons c t =>
    rw [escapeStr_cons]
    unfold escapeChar
    by_cases hse : shouldEscape c EncMode.host = true
    · rw [if_pos hse]
      rw [if_neg (by simp : ¬ (c = ' ' && EncMode.host = EncMode.queryComponent) = true)]
      rw [List.cons_append, List.head?_cons]
      simp
    · rw [if_neg hse, List.singleton_append]
      intro hcon
      rw [List.head?_cons] at hcon
      have hcb : c = '[' := by simpa using hcon
      apply hh
      rw [List.head?_cons, hcb]

/-- A host accepted by `parseHost` reparses to itself after host-mode
re-escaping. -/
theorem parseHost_roundtrip {raw hst : Str} (hb : ∀ c ∈ raw, c.toNat < 256)
    (hp : parseHost raw = Except.ok hst) :
    parseHost (escapeStr hst EncMode.host) = Except.ok hst := by
  unfold parseHost at hp
  by_cases hbr : raw.head? = some '['
  · rw [if_pos hbr] at hp
    exact absurd hp (by simp)
  rw [if_neg hbr] at hp
  have hextract : unescape EncMode.host raw = Except.ok hst ∧
      (∀ i, lastIdx? raw (strOf ":") = some i →
        validOptionalPort (raw.drop i) = true) := by
    rcases hL : lastIdx? raw (strOf ":") with _ | i
    · rw [hL] at hp
      exact ⟨hp, fun j hj => by cases hj⟩
    · rw [hL] at hp
      have hp2 : (if validOptionalPort (raw.drop i) = true
          then unescape EncMode.host raw else Except.error ()) = Except.ok hst := hp
      by_cases hvp : validOptionalPort (raw.drop i) = true
      · rw [if_pos hvp] at hp2
        refine ⟨hp2, fun j hj => ?_⟩
        have hij : i = j := by simpa using hj
        rw [← hij]
        exact hvp
      · rw [if_neg hvp] at hp2
        exact absurd hp2 (by simp)
  obtain ⟨hu, hchk⟩ := hextract
  obtain ⟨_, hbytes, hhost, _, hhead⟩ := unescape_ok_facts EncMode.host raw hst hu
  have hpok := escapeStr_portOKP hst (unescape_portOKP raw hst hu (portOKP_of_check hchk))
  unfold parseHost
  have hbr1 : ¬ hst.head? = some '[' := by
    intro hcon
    rcases hhead rfl '[' hcon with hcase | hcase | hcase
    · exact hbr hcase
    · exact absurd hcase (by decide)
    · exact absurd hcase (by decide)
  rw [if_neg (escapeStr_head_ne_bracket hbr1)]
  have hux := unescape_escapeStr EncMode.host hst (hbytes hb) (fun _ => hhost rfl)
  rcases hL2 : lastIdx? (escapeStr hst EncMode.host) (strOf ":") with _ | i
  · exact hux
  · show (if validOptionalPort ((escapeStr hst EncMode.host).drop i) = true
        then unescape EncMode.host (escapeStr hst EncMode.host)
        else Except.error ()) = Except.ok hst
    rw [if_pos (portOKP_check hpok i hL2)]
    exact hux

/-! ### Character-class lemmas for reassembled URL strings -/

/-- Control bytes, DEL and out-of-byte characters are escaped in every mode. -/
theorem shouldEscape_out {c : Char} (mode : EncMode)
    (hc : c.toNat < 32 ∨ c.toNat = 127 ∨ 256 ≤ c.toNat) :
    shouldEscape c mode = true := by
  unfold shouldEscape
  have h1 : ¬ isAlphaNumChar c = true := by
    intro h
    simp only [isAlphaNumChar, isAlphaChar, isDigitChar, Bool.or_eq_true,
      Bool.and_eq_true, decide_eq_true_eq] at h
    omega
  rw [if_neg h1]
  have h2 : ¬ (mode = EncMode.host && hostExtraChar c) = true := by
    intro h
    rw [Bool.and_eq_true] at h
    have h' := h.2
    simp only [hostExtraChar, Bool.or_eq_true, decide_eq_true_eq, or_assoc] at h'
    rcases h' with h'|h'|h'|h'|h'|h'|h'|h'|h'|h'|h'|h'|h'|h'|h'|h'|h' <;>
      (subst h'; revert hc; decide)
  rw [if_neg h2]
  have h3 : ¬ (c = '-' || c = '_' || c = '.' || c = '~') = true := by
    intro h
    simp only [Bool.or_eq_true, decide_eq_true_eq, or_assoc] at h
    rcases h with h|h|h|h <;> (subst h; revert hc; decide)
  rw [if_neg h3]
  have h4 : ¬ reservedChar c = true := by
    intro h
    simp only [reservedChar, Bool.or_eq_true, decide_eq_true_eq, or_assoc] at h
    rcases h with h|h|h|h|h|h|h|h|h|h <;> (subst h; revert hc; decide)
  rw [if_neg h4]
  have h5 : ¬ (mode = EncMode.fragment && (c = '!' || c = '(' || c = ')' || c = '*')) = true := by
    intro h
    rw [Bool.and_eq_true] at h
    have h' := h.2
    simp only [Bool.or_eq_true, decide_eq_true_eq, or_assoc] at h'
    rcases h' with h'|h'|h'|h' <;> (subst h'; revert hc; decide)
  rw [if_neg h5]

/-- Control bytes, DEL and out-of-byte characters never appear in `escape`
output. -/
theorem ctl_not_mem_escapeStr {c : Char} (s : Str) (mode : EncMode)
    (hc : c.toNat < 32 ∨ c.toNat = 127 ∨ 256 ≤ c.toNat) :
    c ∉ escapeStr s mode := by
  refine not_mem_escapeStr s (shouldEscape_out mode hc) ?_ ?_ ?_
  · intro h
    subst h
    revert hc
    decide
  · intro h
    subst h
    revert hc
    decide
  · by_cases hx : isHexDigit c = true
    · exfalso
      simp only [isHexDigit, isDigitChar, Bool.or_eq_true, Bool.and_eq_true,
        decide_eq_true_eq] at hx
      omega
    · revert hx
      cases isHexDigit c <;> simp

/-- Escaping a byte string yields a byte string. -/
theorem escapeStr_bytes {c' : Char} {s : Str} {mode : EncMode}
    (hb : ∀ c ∈ s, c.toNat < 256) (h : c' ∈ escapeStr s mode) : c'.toNat < 256 := by
  rcases mem_escapeStr h with ⟨hmem, _⟩ | h1 | h1 | h1
  · exact hb c' hmem
  · subst h1
    decide
  · subst h1
    decide
  · simp only [isHexDigit, isDigitChar, Bool.or_eq_true, Bool.and_eq_true,
      decide_eq_true_eq] at h1
    omega

theorem hash_not_mem_escapeStr (s : Str) (mode : EncMode) : '#' ∉ escapeStr s mode :=
  not_mem_escapeStr s (by cases mode <;> decide) (by decide) (by decide) (by decide)

theorem question_not_mem_escapeStr (s : Str) {mode : EncMode}
    (hm : ¬ mode = EncMode.fragment) : '?' ∉ escapeStr s mode := by
  refine not_mem_escapeStr s ?_ (by decide) (by decide) (by decide)
  cases mode
  · decide
  · decide
  · decide
  · exact absurd rfl hm

theorem at_not_mem_escapeStr_host (s : Str) : '@' ∉ escapeStr s EncMode.host :=
  not_mem_escapeStr s (by decide) (by decide) (by decide) (by decide)

theorem escapeChar_ne_nil (c : Char) (mode : EncMode) : escapeChar c mode ≠ [] := by
  unfold escapeChar
  by_cases hse : shouldEscape c mode = true
  · rw [if_pos hse]
    by_cases hsp : (c = ' ' && mode = EncMode.queryComponent) = true
    · rw [if_pos hsp]
      simp
    · rw [if_neg hsp]
      simp
  · rw [if_neg hse]
    simp

theorem escapeStr_ne_nil {s : Str} (hs : s ≠ []) (mode : EncMode) :
    escapeStr s mode ≠ [] := by
  cases s with
  | nil => exact absurd rfl hs
  | cons c t =>
    rw [escapeStr_cons]
    intro h
    exact escapeChar_ne_nil c mode (List.append_eq_nil.mp h).1

/-- In host mode the escaped string never starts with a slash. -/
theorem escapeStr_host_head_ne_slash (h : Str) :
    ¬ (escapeStr h EncMode.host).head? = some '/' := by
  cases h with
  | nil =>
    rw [escapeStr_nil]
    simp
  | cons c t =>
    rw [escapeStr_cons]
    unfold escapeChar
    by_cases hse : shouldEscape c EncMode.host = true
    · rw [if_pos hse]
      rw [if_neg (by simp : ¬ (c = ' ' && EncMode.host = EncMode.queryComponent) = true)]
      rw [List.cons_append, List.head?_cons]
      simp
    · rw [if_neg hse, List.singleton_append]
      intro hcon
      rw [List.head?_cons] at hcon
      have hcs : c = '/' := by simpa using hcon
      subst hcs
      exact hse (by decide)

theorem mem_getLast? {c : Char} : (l : Str) → l.getLast? = some c → c ∈ l
  | [], h => by simp at h
  | [a], h => by
    simp only [List.getLast?_singleton, Option.some.injEq] at h
    simp [h]
  | a :: b :: t, h => by
    rw [List.getLast?_cons_cons] at h
    exact List.mem_cons_of_mem a (mem_getLast? (b :: t) h)

theorem hasSuffix_single_mem {x : Str} {c : Char} (h : hasSuffixStr x [c] = true) :
    c ∈ x := by
  unfold hasSuffixStr at h
  rw [List.isSuffixOf_iff_suffix] at h
  exact h.subset (by simp)

theorem trimSuffixStr_id {x suf : Str} (h : hasSuffixStr x suf = false) :
    trimSuffixStr x suf = x := by
  unfold trimSuffixStr
  unfold hasSuffixStr at h
  rw [if_neg (by rw [h]; simp)]

theorem not_ctl_of_mem_escapeStr {c' : Char} {s : Str} {mode : EncMode}
    (h : c' ∈ escapeStr s mode) :
    ¬ (c'.toNat < 32 ∨ c'.toNat = 127 ∨ 256 ≤ c'.toNat) :=
  fun hc => ctl_not_mem_escapeStr s mode hc h

theorem mem_intersperse_str {x sep : Str} : (L : List Str) →
    x ∈ L.intersperse sep → x = sep ∨ x ∈ L
  | [], h => by simp at h
  | [y], h => by
    rw [List.intersperse_singleton] at h
    exact Or.inr h
  | y :: z :: t, h => by
    rw [List.intersperse_cons_cons] at h
    rcases List.mem_cons.mp h with h | h
    · exact Or.inr (by simp [h])
    · rcases List.mem_cons.mp h with h | h
      · exact Or.inl h
      · rcases mem_intersperse_str (z :: t) h with h | h
        · exact Or.inl h
        · exact Or.inr (List.mem_cons_of_mem y h)

/-- Every byte of `Values.Encode` output is `&`, `=`, or part of an escaped
key or value. -/
theorem mem_encodeValues {c : Char} {m : Values} (h : c ∈ encodeValues m) :
    c = '&' ∨ c = '=' ∨
      ∃ x, c ∈ escapeStr x EncMode.queryComponent := by
  unfold encodeValues at h
  rw [List.intercalate] at h
  rw [List.mem_flatten] at h
  obtain ⟨blk, hblk, hc⟩ := h
  rcases mem_intersperse_str _ hblk with hb | hb
  · subst hb
    left
    simpa using hc
  · rw [List.mem_flatMap] at hb
    obtain ⟨e, _, hmap⟩ := hb
    rw [List.mem_map] at hmap
    obtain ⟨v, _, hv⟩ := hmap
    subst hv
    unfold encPair at hc
    rcases List.mem_append.mp hc with hc | hc
    · exact Or.inr (Or.inr ⟨e.1, hc⟩)
    · rcases List.mem_cons.mp hc with hc | hc
      · exact Or.inr (Or.inl hc)
      · exact Or.inr (Or.inr ⟨v, hc⟩)

theorem encodeValues_no_hash (m : Values) : '#' ∉ encodeValues m := by
  intro h
  rcases mem_encodeValues h with h | h | ⟨x, h⟩
  · exact absurd h (by decide)
  · exact absurd h (by decide)
  · exact hash_not_mem_escapeStr x EncMode.queryComponent h

theorem encodeValues_no_question (m : Values) : '?' ∉ encodeValues m := by
  intro h
  rcases mem_encodeValues h with h | h | ⟨x, h⟩
  · exact absurd h (by decide)
  · exact absurd h (by decide)
  · exact question_not_mem_escapeStr x (by decide) h

theorem encodeValues_not_ctl {c : Char} {m : Values} (h : c ∈ encodeValues m) :
    ¬ (c.toNat < 32 ∨ c.toNat = 127 ∨ 256 ≤ c.toNat) := by
  rcases mem_encodeValues h with h | h | ⟨x, h⟩
  · subst h
    decide
  · subst h
    decide
  · exact not_ctl_of_mem_escapeStr h

theorem hasCTL_false_of {s : Str}
    (h : ∀ c ∈ s, ¬ (c.toNat < 32 ∨ c.toNat = 127 ∨ 256 ≤ c.toNat)) :
    hasCTL s = false := by
  unfold hasCTL
  rw [← Bool.not_eq_true, List.any_eq_true]
  rintro ⟨c, hc, hct⟩
  apply h c hc
  have := of_decide_eq_true (by simpa using hct : decide ((c.toNat < 32 ∨ c.toNat = 127) ∨ 256 ≤ c.toNat) = true)
  tauto

theorem not_ctl_of_hasCTL_false {s : Str} (h : hasCTL s = false) :
    ∀ c ∈ s, ¬ (c.toNat < 32 ∨ c.toNat = 127 ∨ 256 ≤ c.toNat) := by
  intro c hc hct
  have h2 : ¬ (s.any (fun c => c.toNat < 32 || c.toNat = 127 || 256 ≤ c.toNat)) = true := by
    unfold hasCTL at h
    rw [h]
    simp
  refine h2 (List.any_eq_true.mpr ⟨c, hc, ?_⟩)
  have hct2 : (c.toNat < 32 ∨ c.toNat = 127) ∨ 256 ≤ c.toNat := by tauto
  simpa using hct2

/-! ### Scheme lemmas -/

/-- A character allowed after the first position of a URL scheme. -/
def schemeTailChar (c : Char) : Bool :=
  isAlphaChar c || isDigitChar c || c = '+' || c = '-' || c = '.'

/-- A syntactically valid URL scheme (RFC 3986 ALPHA *( ALPHA / DIGIT / "+" /
"-" / "." )). -/
def schemeClass : Str → Bool
  | [] => false
  | c :: rest => isAlphaChar c && rest.all schemeTailChar

theorem schemeClass_append_char {x : Str} {c : Char} (h : schemeClass x = true)
    (hc : schemeTailChar c = true) : schemeClass (x ++ [c]) = true := by
  cases x with
  | nil => simp [schemeClass] at h
  | cons d t =>
    simp only [schemeClass, Bool.and_eq_true, List.all_eq_true] at h
    simp only [List.cons_append, schemeClass, Bool.and_eq_true, List.all_eq_true]
    refine ⟨h.1, fun e he => ?_⟩
    rcases List.mem_append.mp he with he | he
    · exact h.2 e he
    · rw [List.mem_singleton.mp he]
      exact hc

theorem schemeClass_mem {sch : Str} (h : schemeClass sch = true) :
    ∀ c ∈ sch, schemeTailChar c = true := by
  cases sch with
  | nil => simp [schemeClass] at h
  | cons d t =>
    simp only [schemeClass, Bool.and_eq_true, List.all_eq_true] at h
    intro c hc
    rcases List.mem_cons.mp hc with hc | hc
    · subst hc
      simp [schemeTailChar, h.1]
    · exact h.2 c hc

theorem getSchemeAux_spec (full : Str) : (tail : Str) → (i : Nat) →
    tail = full.drop i → (i = 0 ∨ schemeClass (full.take i) = true) →
    ∀ sch rest, getSchemeAux full i tail = Except.ok (sch, rest) →
      (sch = [] ∧ rest = full) ∨ (schemeClass sch = true ∧ full = sch ++ ':' :: rest)
  | [], i, _, _, sch, rest, h => by
    have h' : Except.ok (([] : Str), full) = Except.ok (sch, rest) := h
    simp only [Except.ok.injEq, Prod.mk.injEq] at h'
    exact Or.inl ⟨h'.1.symm, h'.2.symm⟩
  | c :: tl, i, htail, hcls, sch, rest, h => by
    have hdrop1 : full.drop (i + 1) = tl := by
      have h2 := List.drop_drop 1 i full
      rw [← h2, ← htail]
      rfl
    have hgi : full[i]? = some c := by
      rw [← List.head?_drop, ← htail]
      rfl
    have htake1 : full.take (i + 1) = full.take i ++ [c] := by
      rw [List.take_succ, hgi]
      rfl
    by_cases ha : isAlphaChar c = true
    · have hstep : getSchemeAux full i (c :: tl) = getSchemeAux full (i + 1) tl := by
        conv_lhs => unfold getSchemeAux
        rw [if_pos ha]
      rw [hstep] at h
      refine getSchemeAux_spec full tl (i + 1) hdrop1.symm (Or.inr ?_) sch rest h
      rw [htake1]
      rcases hcls with h0 | hcl
      · subst h0
        simp [schemeClass, ha]
      · exact schemeClass_append_char hcl (by simp [schemeTailChar, ha])
    · by_cases hd : (isDigitChar c || c = '+' || c = '-' || c = '.') = true
      · have hstep : getSchemeAux full i (c :: tl) =
            if i = 0 then Except.ok ([], full) else getSchemeAux full (i + 1) tl := by
          conv_lhs => unfold getSchemeAux
          rw [if_neg ha, if_pos hd]
        rw [hstep] at h
        by_cases hi : i = 0
        · rw [if_pos hi] at h
          have h' : Except.ok (([] : Str), full) = Except.ok (sch, rest) := h
          simp only [Except.ok.injEq, Prod.mk.injEq] at h'
          exact Or.inl ⟨h'.1.symm, h'.2.symm⟩
        · rw [if_neg hi] at h
          refine getSchemeAux_spec full tl (i + 1) hdrop1.symm (Or.inr ?_) sch rest h
          rw [htake1]
          rcases hcls with h0 | hcl
          · exact absurd h0 hi
          · refine schemeClass_append_char hcl ?_
            simp only [schemeTailChar, Bool.or_eq_true] at hd ⊢
            tauto
      · by_cases hcolon : c = ':'
        · have hstep : getSchemeAux full i (c :: tl) =
              if i = 0 then Except.error ()
              else Except.ok (full.take i, full.drop (i + 1)) := by
            conv_lhs => unfold getSchemeAux
            rw [if_neg ha, if_neg hd, if_pos hcolon]
          rw [hstep] at h
          by_cases hi : i = 0
          · rw [if_pos hi] at h
            exact absurd h (by simp)
          · rw [if_neg hi] at h
            have h' : full.take i = sch ∧ full.drop (i + 1) = rest := by
              have h2 : Except.ok (full.take i, full.drop (i + 1)) =
                  Except.ok (sch, rest) := h
              simpa using h2
            right
            rcases hcls with h0 | hcl
            · exact absurd h0 hi
            refine ⟨h'.1 ▸ hcl, ?_⟩
            conv_lhs => rw [← List.take_append_drop i full, ← htail]
            rw [h'.1, hcolon]
            have htl : tl = rest := by rw [← hdrop1, h'.2]
            rw [htl]
        · have hstep : getSchemeAux full i (c :: tl) = Except.ok ([], full) := by
            conv_lhs => unfold getSchemeAux
            rw [if_neg ha, if_neg hd, if_neg hcolon]
          rw [hstep] at h
          have h' : Except.ok (([] : Str), full) = Except.ok (sch, rest) := h
          simp only [Except.ok.injEq, Prod.mk.injEq] at h'
          exact Or.inl ⟨h'.1.symm, h'.2.symm⟩

/-- Successful `getScheme` outcomes: no scheme at all, or a valid scheme
split off before a colon. -/
theorem getScheme_spec {s sch rest : Str} (h : getScheme s = Except.ok (sch, rest)) :
    (sch = [] ∧ rest = s) ∨ (schemeClass sch = true ∧ s = sch ++ ':' :: rest) :=
  getSchemeAux_spec s s 0 (by simp) (Or.inl rfl) sch rest h

theorem getSchemeAux_run (sch rest : Str) : (s2 : Str) → (i : Nat) →
    1 ≤ i → i + s2.length = sch.length →
    (∀ c ∈ s2, schemeTailChar c = true) →
    getSchemeAux (sch ++ ':' :: rest) i (s2 ++ ':' :: rest) = Except.ok (sch, rest)
  | [], i, hi, hlen, _ => by
    simp only [List.nil_append]
    conv_lhs => unfold getSchemeAux
    rw [if_neg (by decide : ¬ isAlphaChar ':' = true)]
    rw [if_neg (by decide :
      ¬ (isDigitChar ':' || ':' = '+' || ':' = '-' || ':' = '.') = true)]
    rw [if_pos (rfl : ':' = ':'), if_neg (by omega : ¬ i = 0)]
    have hi' : i = sch.length := by simpa using hlen
    subst hi'
    have h1 : (sch ++ ':' :: rest).take sch.length = sch := List.take_left sch _
    have h2 : (sch ++ ':' :: rest).drop (sch.length + 1) = rest := by
      rw [show sch ++ ':' :: rest = (sch ++ [':']) ++ rest from by simp]
      exact List.drop_left' (by simp)
    rw [h1, h2]
  | c :: s2', i, hi, hlen, hmem => by
    simp only [List.cons_append]
    have hc := hmem c (by simp)
    have hrec : getSchemeAux (sch ++ ':' :: rest) (i + 1) (s2' ++ ':' :: rest) =
        Except.ok (sch, rest) :=
      getSchemeAux_run sch rest s2' (i + 1) (by omega)
        (by simp only [List.length_cons] at hlen; omega)
        (fun d hd => hmem d (by simp [hd]))
    by_cases ha : isAlphaChar c = true
    · have hstep : getSchemeAux (sch ++ ':' :: rest) i (c :: (s2' ++ ':' :: rest)) =
          getSchemeAux (sch ++ ':' :: rest) (i + 1) (s2' ++ ':' :: rest) := by
        conv_lhs => unfold getSchemeAux
        rw [if_pos ha]
      rw [hstep]
      exact hrec
    · have hd : (isDigitChar c || c = '+' || c = '-' || c = '.') = true := by
        simp only [schemeTailChar, Bool.or_eq_true] at hc
        simp only [Bool.or_eq_true]
        tauto
      have hstep : getSchemeAux (sch ++ ':' :: rest) i (c :: (s2' ++ ':' :: rest)) =
          if i = 0 then Except.ok ([], sch ++ ':' :: rest)
          else getSchemeAux (sch ++ ':' :: rest) (i + 1) (s2' ++ ':' :: rest) := by
        conv_lhs => unfold getSchemeAux
        rw [if_neg ha, if_pos hd]
      rw [hstep, if_neg (by omega : ¬ i = 0)]
      exact hrec

/-- A string assembled from a valid scheme reparses to that scheme. -/
theorem getScheme_reparse (sch rest : Str) (hcls : schemeClass sch = true) :
    getScheme (sch ++ ':' :: rest) = Except.ok (sch, rest) := by
  cases sch with
  | nil => simp [schemeClass] at hcls
  | cons c0 t =>
    simp only [schemeClass, Bool.and_eq_true, List.all_eq_true] at hcls
    have key := getSchemeAux_run (c0 :: t) rest t 1 (by omega)
      (by simp only [List.length_cons]; omega) (fun d hd => hcls.2 d hd)
    unfold getScheme
    simp only [List.cons_append] at key ⊢
    have hstep : getSchemeAux (c0 :: (t ++ ':' :: rest)) 0 (c0 :: (t ++ ':' :: rest)) =
        getSchemeAux (c0 :: (t ++ ':' :: rest)) 1 (t ++ ':' :: rest) := by
      conv_lhs => unfold getSchemeAux
      rw [if_pos hcls.1]
    rw [hstep]
    exact key

theorem lowerChar_idem (c : Char) : lowerChar (lowerChar c) = lowerChar c := by
  unfold lowerChar
  by_cases h : (65 ≤ c.toNat && c.toNat ≤ 90) = true
  · rw [if_pos h]
    have h' : 65 ≤ c.toNat ∧ c.toNat ≤ 90 := by simpa using h
    have ht : (Char.ofNat (c.toNat + 32)).toNat = c.toNat + 32 :=
      toNat_ofNat_byte (by omega)
    rw [if_neg ?_]
    intro hx
    simp only [ht, Bool.and_eq_true, decide_eq_true_eq] at hx
    omega
  · rw [if_neg h, if_neg h]

theorem toLowerStr_idem (s : Str) : toLowerStr (toLowerStr s) = toLowerStr s := by
  induction s with
  | nil => rfl
  | cons c t ih =>
    show lowerChar (lowerChar c) :: toLowerStr (toLowerStr t) = _
    rw [lowerChar_idem, ih]
    rfl

theorem lowerChar_schemeTail {c : Char} (hc : schemeTailChar c = true) :
    schemeTailChar (lowerChar c) = true := by
  unfold lowerChar
  by_cases h : (65 ≤ c.toNat && c.toNat ≤ 90) = true
  · rw [if_pos h]
    have h' : 65 ≤ c.toNat ∧ c.toNat ≤ 90 := by simpa using h
    have ht : (Char.ofNat (c.toNat + 32)).toNat = c.toNat + 32 :=
      toNat_ofNat_byte (by omega)
    have halpha : isAlphaChar (Char.ofNat (c.toNat + 32)) = true := by
      simp only [isAlphaChar, Bool.or_eq_true, Bool.and_eq_true, decide_eq_true_eq, ht]
      left
      omega
    simp [schemeTailChar, halpha]
  · rw [if_neg h]
    exact hc

theorem lowerChar_alpha {c : Char} (hc : isAlphaChar c = true) :
    isAlphaChar (lowerChar c) = true := by
  unfold lowerChar
  by_cases h : (65 ≤ c.toNat && c.toNat ≤ 90) = true
  · rw [if_pos h]
    have h' : 65 ≤ c.toNat ∧ c.toNat ≤ 90 := by simpa using h
    have ht : (Char.ofNat (c.toNat + 32)).toNat = c.toNat + 32 :=
      toNat_ofNat_byte (by omega)
    simp only [isAlphaChar, Bool.or_eq_true, Bool.and_eq_true, decide_eq_true_eq, ht]
    left
    omega
  · rw [if_neg h]
    exact hc

theorem schemeClass_toLower {s : Str} (h : schemeClass s = true) :
    schemeClass (toLowerStr s) = true := by
  cases s with
  | nil => simp [schemeClass] at h
  | cons c t =>
    simp only [schemeClass, Bool.and_eq_true, List.all_eq_true] at h
    show schemeClass (lowerChar c :: toLowerStr t) = true
    simp only [schemeClass, Bool.and_eq_true, List.all_eq_true]
    refine ⟨lowerChar_alpha h.1, fun d hd => ?_⟩
    unfold toLowerStr at hd
    rw [List.mem_map] at hd
    obtain ⟨e, he, hde⟩ := hd
    rw [← hde]
    exact lowerChar_schemeTail (h.2 e he)

/-! ### splitQuery and prefix lemmas -/

theorem strCut_fst_no_sep (sep : Char) : (s : Str) →
    hasChar (strCut sep s).1 sep = false
  | [] => rfl
  | c :: cs => by
    rw [strCut_cons]
    by_cases hc : c = sep
    · rw [if_pos hc]
      rfl
    · rw [if_neg hc]
      show hasChar (c :: (strCut sep cs).1) sep = false
      rw [hasChar_cons, if_neg hc]
      exact strCut_fst_no_sep sep cs

theorem splitQuery_no_q {r : Str} (h : hasChar r '?' = false) :
    splitQuery r = (r, false, []) := by
  unfold splitQuery
  have hsuf : hasSuffixStr r (strOf "?") = false := by
    by_cases hs : hasSuffixStr r (strOf "?") = true
    · have := hasSuffix_single_mem hs
      rw [hasChar_false_iff] at h
      exact absurd this h
    · revert hs
      cases hasSuffixStr r (strOf "?") <;> simp
  rw [hsuf]
  rw [if_neg (by simp)]
  rw [strCut_not_found '?' r h]

theorem getLast?_append_right {a : Str} : (q : Str) → q ≠ [] →
    (a ++ q).getLast? = q.getLast?
  | [], h => absurd rfl h
  | c :: t, _ => by
    rw [show a ++ c :: t = (a ++ [c]) ++ t from by simp]
    cases t with
    | nil =>
      simp only [List.append_nil]
      rw [List.getLast?_concat]
      rfl
    | cons d t2 =>
      rw [getLast?_append_right (d :: t2) (by simp)]
      rfl

theorem splitQuery_with_q {a q : Str} (ha : hasChar a '?' = false)
    (hq : hasChar q '?' = false) (hqne : q ≠ []) :
    splitQuery (a ++ '?' :: q) = (a, false, q) := by
  unfold splitQuery
  have hsuf : hasSuffixStr (a ++ '?' :: q) (strOf "?") = false := by
    by_cases hs : hasSuffixStr (a ++ '?' :: q) (strOf "?") = true
    · exfalso
      unfold hasSuffixStr at hs
      rw [List.isSuffixOf_iff_suffix] at hs
      obtain ⟨pre, hpre⟩ := hs
      have hlast : (a ++ '?' :: q).getLast? = some '?' := by
        rw [← hpre]
        rw [show pre ++ strOf "?" = pre ++ ['?'] from rfl]
        exact List.getLast?_concat pre
      rw [show a ++ '?' :: q = (a ++ ['?']) ++ q from by simp] at hlast
      rw [getLast?_append_right q hqne] at hlast
      have := mem_getLast? q hlast
      rw [hasChar_false_iff] at hq
      exact hq this
    · revert hs
      cases hasSuffixStr (a ++ '?' :: q) (strOf "?") <;> simp
  rw [hsuf]
  rw [if_neg (by simp)]
  rw [strCut_found '?' a q ha]

theorem double_slash_isPrefix (x : Str) :
    (strOf "//").isPrefixOf ('/' :: '/' :: x) = true := by
  show (['/', '/'] : Str).isPrefixOf ('/' :: '/' :: x) = true
  simp [List.isPrefixOf]

theorem single_slash_isPrefix (x : Str) :
    (strOf "/").isPrefixOf ('/' :: x) = true := by
  show (['/'] : Str).isPrefixOf ('/' :: x) = true
  simp [List.isPrefixOf]

theorem triple_slash_not_isPrefix {x : Str} (h : ¬ x.head? = some '/') :
    (strOf "///").isPrefixOf ('/' :: '/' :: x) = false := by
  cases x with
  | nil => rfl
  | cons c t =>
    have hc : ¬ c = '/' := by
      intro he
      exact h (by rw [List.head?_cons, he])
    have hc2 : ¬ '/' = c := fun he => hc he.symm
    show (['/', '/', '/'] : Str).isPrefixOf ('/' :: '/' :: c :: t) = false
    simp [List.isPrefixOf, hc2]

theorem mem_splitQuery_fst (r : Str) : ∀ c ∈ (splitQuery r).1, c ∈ r := by
  unfold splitQuery
  by_cases h : (hasSuffixStr r (strOf "?") &&
      !(hasChar (trimSuffixStr r (strOf "?")) '?')) = true
  · rw [if_pos h]
    intro c hc
    exact List.mem_of_mem_take hc
  · rw [if_neg h]
    intro c hc
    exact mem_strCut_fst r c hc

theorem mem_splitQuery_snd (r : Str) : ∀ c ∈ (splitQuery r).2.2, c ∈ r := by
  unfold splitQuery
  by_cases h : (hasSuffixStr r (strOf "?") &&
      !(hasChar (trimSuffixStr r (strOf "?")) '?')) = true
  · rw [if_pos h]
    intro c hc
    simp at hc
  · rw [if_neg h]
    intro c hc
    exact mem_strCut_rest r c hc

theorem splitQuery_fst_no_q (r : Str) : hasChar (splitQuery r).1 '?' = false := by
  unfold splitQuery
  by_cases h : (hasSuffixStr r (strOf "?") &&
      !(hasChar (trimSuffixStr r (strOf "?")) '?')) = true
  · rw [if_pos h]
    rw [Bool.and_eq_true] at h
    have htrim : hasChar (trimSuffixStr r (strOf "?")) '?' = false := by
      have := h.2
      revert this
      cases hasChar (trimSuffixStr r (strOf "?")) '?' <;> simp
    have heq : trimSuffixStr r (strOf "?") = r.take (r.length - 1) := by
      unfold trimSuffixStr
      rw [if_pos (by have := h.1; unfold hasSuffixStr at this; exact this)]
      rfl
    rw [← heq]
    exact htrim
  · rw [if_neg h]
    exact strCut_fst_no_sep '?' r

/-- Inversion of a successful fragment-free parse that produced a host: the
input went through the authority branch of `parse`, and each component of
the result satisfies the recorded origin facts. -/
theorem urlParse_host_inv {s : Str} {u : GoURL}
    (hp : urlParse s = Except.ok u) (hhost : u.host ≠ []) (hfrag : u.fragment = []) :
    ∃ authority rest2,
      hasChar authority '@' = false ∧
      parseHost authority = Except.ok u.host ∧
      (∀ c ∈ authority, c ∈ s) ∧
      unescape EncMode.path rest2 = Except.ok u.path ∧
      u.rawPath = (if escapeStr u.path EncMode.path = rest2 then [] else rest2) ∧
      (rest2 = [] ∨ ∃ t, rest2 = '/' :: t) ∧
      (∀ c ∈ rest2, c ∈ s) ∧
      hasChar rest2 '?' = false ∧ hasChar rest2 '#' = false ∧
      (∀ c ∈ rest2, ¬ (c.toNat < 32 ∨ c.toNat = 127 ∨ 256 ≤ c.toNat)) ∧
      u.opq = [] ∧ u.omitHost = false ∧ u.rawFragment = [] ∧
      (u.scheme = [] ∨ (schemeClass u.scheme = true ∧ toLowerStr u.scheme = u.scheme)) ∧
      (∀ c ∈ u.rawQuery, c ∈ s) := by
  have hp2 : (match parseMain (strCut '#' s).1 with
      | Except.error e => Except.error e
      | Except.ok u0 =>
        if (strCut '#' s).2.1 = [] then Except.ok u0
        else
          match unescape EncMode.fragment (strCut '#' s).2.1 with
          | Except.error e => Except.error e
          | Except.ok f =>
            Except.ok { u0 with
              fragment := f,
              rawFragment :=
                if escapeStr f EncMode.fragment = (strCut '#' s).2.1 then []
                else (strCut '#' s).2.1 }) = Except.ok u := hp
  rcases hpmE : parseMain (strCut '#' s).1 with e | u0
  · rw [hpmE] at hp2
    have hp3 : (Except.error e : Except Unit GoURL) = Except.ok u := hp2
    exact absurd hp3 (by simp)
  rw [hpmE] at hp2
  have hp3 : (if (strCut '#' s).2.1 = [] then Except.ok u0
      else
        match unescape EncMode.fragment (strCut '#' s).2.1 with
        | Except.error e => Except.error e
        | Except.ok f =>
          Except.ok { u0 with
            fragment := f,
            rawFragment :=
              if escapeStr f EncMode.fragment = (strCut '#' s).2.1 then []
              else (strCut '#' s).2.1 }) = Except.ok u := hp2
  have hu0 : u0 = u := by
    by_cases hfr : (strCut '#' s).2.1 = []
    · rw [if_pos hfr] at hp3
      simpa using hp3
    · rw [if_neg hfr] at hp3
      rcases hue : unescape EncMode.fragment (strCut '#' s).2.1 with e | f
      · rw [hue] at hp3
        have hp4 : (Except.error e : Except Unit GoURL) = Except.ok u := hp3
        exact absurd hp4 (by simp)
      · rw [hue] at hp3
        have hp4 : Except.ok { u0 with
            fragment := f,
            rawFragment :=
              if escapeStr f EncMode.fragment = (strCut '#' s).2.1 then []
              else (strCut '#' s).2.1 } = Except.ok u := hp3
        simp only [Except.ok.injEq] at hp4
        exfalso
        have hfe : f = [] := by
          rw [← hp4] at hfrag
          simpa using hfrag
        obtain ⟨hiff, _, _, _, _⟩ := unescape_ok_facts EncMode.fragment _ f hue
        exact hfr (hiff.mp hfe)
  have hu0s : u = u0 := hu0.symm
  subst hu0s
  set m := (strCut '#' s).1 with hm
  have hmem_m : ∀ c ∈ m, c ∈ s := mem_strCut_fst s
  have hhash_m : hasChar m '#' = false := strCut_fst_no_sep '#' s
  unfold parseMain at hpmE
  by_cases hctl : hasCTL m = true
  · rw [if_pos hctl] at hpmE
    exact absurd hpmE (by simp)
  rw [if_neg hctl] at hpmE
  have hctlf : hasCTL m = false := by
    revert hctl
    cases hasCTL m <;> simp
  have hnoctl_m := not_ctl_of_hasCTL_false hctlf
  by_cases hstar : m = strOf "*"
  · rw [if_pos hstar] at hpmE
    simp only [Except.ok.injEq] at hpmE
    exfalso
    apply hhost
    rw [← hpmE]
  rw [if_neg hstar] at hpmE
  rcases hgs : getScheme m with e | sr
  · rw [hgs] at hpmE
    have hpmE2 : (Except.error e : Except Unit GoURL) = Except.ok u := hpmE
    exact absurd hpmE2 (by simp)
  rw [hgs] at hpmE
  have hpm2 : (if !((strOf "/").isPrefixOf (splitQuery sr.2).1) && !(toLowerStr sr.1 = []) then
      Except.ok {
        scheme := toLowerStr sr.1, opq := (splitQuery sr.2).1,
        forceQuery := (splitQuery sr.2).2.1, rawQuery := (splitQuery sr.2).2.2 }
    else if !((strOf "/").isPrefixOf (splitQuery sr.2).1) &&
        hasChar (strCut '/' (splitQuery sr.2).1).1 ':' then Except.error ()
    else parseAfterScheme
      {
        scheme := toLowerStr sr.1, forceQuery := (splitQuery sr.2).2.1,
        rawQuery := (splitQuery sr.2).2.2 } (splitQuery sr.2).1) = Except.ok u := hpmE
  by_cases hb1 : (!((strOf "/").isPrefixOf (splitQuery sr.2).1) && !(toLowerStr sr.1 = [])) = true
  · rw [if_pos hb1] at hpm2
    simp only [Except.ok.injEq] at hpm2
    exfalso
    apply hhost
    rw [← hpm2]
  rw [if_neg hb1] at hpm2
  by_cases hb2 : (!((strOf "/").isPrefixOf (splitQuery sr.2).1) &&
      hasChar (strCut '/' (splitQuery sr.2).1).1 ':') = true
  · rw [if_pos hb2] at hpm2
    exact absurd hpm2 (by simp)
  rw [if_neg hb2] at hpm2
  set rest := (splitQuery sr.2).1 with hrest
  have hmem_sr2 : ∀ c ∈ sr.2, c ∈ m := by
    rcases getScheme_spec hgs with ⟨_, h2⟩ | ⟨_, h2⟩
    · rw [h2]
      exact fun c hc => hc
    · rw [h2]
      intro c hc
      simp [hc]
  have hmem_rest : ∀ c ∈ rest, c ∈ m := fun c hc => hmem_sr2 c (mem_splitQuery_fst sr.2 c hc)
  have hq_rest : hasChar rest '?' = false := splitQuery_fst_no_q sr.2
  have hpm2b : (if (!(toLowerStr sr.1 = []) || !((strOf "///").isPrefixOf rest)) &&
        (strOf "//").isPrefixOf rest then
      match parseAuthority (if (strCut '/' (rest.drop 2)).2.2 then (strCut '/' (rest.drop 2)).1
          else rest.drop 2) with
      | Except.error e => Except.error e
      | Except.ok h =>
        setPath {
            scheme := toLowerStr sr.1, forceQuery := (splitQuery sr.2).2.1,
            rawQuery := (splitQuery sr.2).2.2, host := h }
          (if (strCut '/' (rest.drop 2)).2.2 then '/' :: (strCut '/' (rest.drop 2)).2.1 else [])
    else
      setPath {
          scheme := toLowerStr sr.1, forceQuery := (splitQuery sr.2).2.1,
          rawQuery := (splitQuery sr.2).2.2,
          omitHost := !(toLowerStr sr.1 = []) && (strOf "/").isPrefixOf rest }
        rest) = Except.ok u := hpm2
  by_cases hauth : ((!(toLowerStr sr.1 = []) || !((strOf "///").isPrefixOf rest)) &&
      (strOf "//").isPrefixOf rest) = true
  case neg =>
    rw [if_neg hauth] at hpm2b
    have hneg : (match unescape EncMode.path rest with
        | Except.error e => Except.error e
        | Except.ok dec =>
          Except.ok {
              scheme := toLowerStr sr.1, forceQuery := (splitQuery sr.2).2.1,
              rawQuery := (splitQuery sr.2).2.2,
              omitHost := !(toLowerStr sr.1 = []) && (strOf "/").isPrefixOf rest,
              path := dec,
              rawPath := if escapeStr dec EncMode.path = rest then [] else rest }) =
        Except.ok u := hpm2b
    rcases hup : unescape EncMode.path rest with e | dec
    · rw [hup] at hneg
      have hneg2 : (Except.error e : Except Unit GoURL) = Except.ok u := hneg
      exact absurd hneg2 (by simp)
    · rw [hup] at hneg
      have hneg2 : Except.ok {
          scheme := toLowerStr sr.1,
          forceQuery := (splitQuery sr.2).2.1,
          rawQuery := (splitQuery sr.2).2.2,
          omitHost := !(toLowerStr sr.1 = []) && (strOf "/").isPrefixOf rest,
          path := dec,
          rawPath := if escapeStr dec EncMode.path = rest then [] else rest } =
          Except.ok u := hneg
      simp only [Except.ok.injEq] at hneg2
      exfalso
      apply hhost
      rw [← hneg2]
  case pos =>
  rw [if_pos hauth] at hpm2b
  rw [Bool.and_eq_true] at hauth
  obtain ⟨xall, hrest_shape⟩ : ∃ x, rest = '/' :: '/' :: x := by
    have h2 := hauth.2
    rcases (by rw [← List.isPrefixOf_iff_prefix]; exact h2 : strOf "//" <+: rest) with ⟨t, ht⟩
    exact ⟨t, ht.symm⟩
  set authority := (if (strCut '/' (rest.drop 2)).2.2 then (strCut '/' (rest.drop 2)).1
      else rest.drop 2) with hauthdef
  set rest2 := (if (strCut '/' (rest.drop 2)).2.2 then '/' :: (strCut '/' (rest.drop 2)).2.1
      else []) with hrest2def
  rcases hpa : parseAuthority authority with e | hostv
  · rw [hpa] at hpm2b
    have hpm3 : (Except.error e : Except Unit GoURL) = Except.ok u := hpm2b
    exact absurd hpm3 (by simp)
  rw [hpa] at hpm2b
  have hpm3 : setPath {
      scheme := toLowerStr sr.1, forceQuery := (splitQuery sr.2).2.1,
      rawQuery := (splitQuery sr.2).2.2, host := hostv } rest2 = Except.ok u := hpm2b
  unfold setPath at hpm3
  rcases hup : unescape EncMode.path rest2 with e | dec
  · rw [hup] at hpm3
    have hpm4 : (Except.error e : Except Unit GoURL) = Except.ok u := hpm3
    exact absurd hpm4 (by simp)
  rw [hup] at hpm3
  have hpm4 : Except.ok {
      scheme := toLowerStr sr.1, forceQuery := (splitQuery sr.2).2.1,
      rawQuery := (splitQuery sr.2).2.2, host := hostv, path := dec,
      rawPath := if escapeStr dec EncMode.path = rest2 then [] else rest2 } =
      Except.ok u := hpm3
  simp only [Except.ok.injEq] at hpm4
  have hu_host : u.host = hostv := by rw [← hpm4]
  have hu_path : u.path = dec := by rw [← hpm4]
  have hu_rawPath : u.rawPath = if escapeStr dec EncMode.path = rest2 then [] else rest2 := by
    rw [← hpm4]
  have hu_opq : u.opq = [] := by rw [← hpm4]
  have hu_omit : u.omitHost = false := by rw [← hpm4]
  have hu_rawFrag : u.rawFragment = [] := by rw [← hpm4]
  have hu_scheme : u.scheme = toLowerStr sr.1 := by rw [← hpm4]
  have hu_rawQuery : u.rawQuery = (splitQuery sr.2).2.2 := by rw [← hpm4]
  have hmem_drop2 : ∀ c ∈ rest.drop 2, c ∈ m := fun c hc =>
    hmem_rest c (List.mem_of_mem_drop hc)
  have hmem_auth : ∀ c ∈ authority, c ∈ m := by
    rw [hauthdef]
    by_cases hcut : (strCut '/' (rest.drop 2)).2.2 = true
    · rw [if_pos hcut]
      exact fun c hc => hmem_drop2 c (mem_strCut_fst _ c hc)
    · rw [if_neg hcut]
      exact hmem_drop2
  have hmem_rest2 : ∀ c ∈ rest2, c ∈ m := by
    rw [hrest2def]
    by_cases hcut : (strCut '/' (rest.drop 2)).2.2 = true
    · rw [if_pos hcut]
      intro c hc
      rcases List.mem_cons.mp hc with hc | hc
      · subst hc
        exact hmem_rest '/' (by rw [hrest_shape]; simp)
      · exact hmem_drop2 c (mem_strCut_rest _ c hc)
    · rw [if_neg hcut]
      intro c hc
      simp at hc
  have hrest2_shape : rest2 = [] ∨ ∃ t, rest2 = '/' :: t := by
    rw [hrest2def]
    by_cases hcut : (strCut '/' (rest.drop 2)).2.2 = true
    · rw [if_pos hcut]
      exact Or.inr ⟨_, rfl⟩
    · rw [if_neg hcut]
      exact Or.inl rfl
  have hq_rest2 : hasChar rest2 '?' = false := by
    rw [hasChar_false_iff]
    intro hmem
    have h3 : '?' ∈ rest := by
      rw [hrest2def] at hmem
      by_cases hcut : (strCut '/' (rest.drop 2)).2.2 = true
      · rw [if_pos hcut] at hmem
        rcases List.mem_cons.mp hmem with h5 | h5
        · exact absurd h5.symm (by decide)
        · exact List.mem_of_mem_drop (mem_strCut_rest _ '?' h5)
      · rw [if_neg hcut] at hmem
        simp at hmem
    rw [hasChar_false_iff] at hq_rest
    exact hq_rest h3
  have hhash_rest2 : hasChar rest2 '#' = false := by
    rw [hasChar_false_iff]
    intro hmem
    rw [hasChar_false_iff] at hhash_m
    exact hhash_m (hmem_rest2 '#' hmem)
  have hctl_rest2 : ∀ c ∈ rest2, ¬ (c.toNat < 32 ∨ c.toNat = 127 ∨ 256 ≤ c.toNat) :=
    fun c hc => hnoctl_m c (hmem_rest2 c hc)
  have hscheme_fact : u.scheme = [] ∨
      (schemeClass u.scheme = true ∧ toLowerStr u.scheme = u.scheme) := by
    rcases getScheme_spec hgs with ⟨h1, _⟩ | ⟨h1, _⟩
    · left
      rw [hu_scheme, h1]
      rfl
    · right
      rw [hu_scheme]
      exact ⟨schemeClass_toLower h1, toLowerStr_idem sr.1⟩
  unfold parseAuthority at hpa
  by_cases hat : hasChar authority '@' = true
  · rw [if_pos hat] at hpa
    exact absurd hpa (by simp)
  rw [if_neg hat] at hpa
  refine ⟨authority, rest2, ?_, ?_, ?_, ?_, ?_, ?_, ?_, ?_, ?_, ?_, ?_, ?_, ?_, ?_, ?_⟩
  · revert hat
    cases hasChar authority '@' <;> simp
  · rw [hu_host]
    exact hpa
  · exact fun c hc => hmem_m c (hmem_auth c hc)
  · rw [hu_path]
    exact hup
  · rw [hu_rawPath, hu_path]
  · exact hrest2_shape
  · exact fun c hc => hmem_m c (hmem_rest2 c hc)
  · exact hq_rest2
  · exact hhash_rest2
  · exact hctl_rest2
  · exact hu_opq
  · exact hu_omit
  · exact hu_rawFrag
  · exact hscheme_fact
  · rw [hu_rawQuery]
    intro c hc
    exact hmem_m c (hmem_sr2 c (mem_splitQuery_snd sr.2 c hc))

/-- `URL.String` on an authority-form URL (scheme and host present, no
opaque part, no fragment, path empty or rooted). -/
theorem urlString_shape (v : GoURL) (hopq : v.opq = []) (hsch : v.scheme ≠ [])
    (hhostv : v.host ≠ []) (hfragv : v.fragment = [])
    (hhead : escapedPath v = [] ∨ ∃ t, escapedPath v = '/' :: t) :
    urlString v = v.scheme ++ ':' :: '/' :: '/' ::
      (escapeStr v.host EncMode.host ++ (escapedPath v ++
        (if v.forceQuery || v.rawQuery ≠ [] then '?' :: v.rawQuery else []))) := by
  rcases hhead with hp0 | ⟨t, hpt⟩
  · simp [urlString, hopq, hsch, hhostv, hfragv, hp0, strCut,
      (show strOf "//" = ['/', '/'] from rfl)]
  · simp [urlString, hopq, hsch, hhostv, hfragv, hpt, strCut,
      (show strOf "//" = ['/', '/'] from rfl)]

theorem mem_trimSuffixStr {c : Char} {x suf : Str}
    (h : c ∈ trimSuffixStr x suf) : c ∈ x := by
  unfold trimSuffixStr at h
  by_cases hs : suf.isSuffixOf x
  · rw [if_pos hs] at h
    exact List.mem_of_mem_take h
  · rw [if_neg hs] at h
    exact h

theorem trim_slash_shape (x : Str) (h : x = [] ∨ ∃ t, x = '/' :: t) :
    trimSuffixStr x (strOf "/") = [] ∨ ∃ t2, trimSuffixStr x (strOf "/") = '/' :: t2 := by
  unfold trimSuffixStr
  by_cases hs : (strOf "/").isSuffixOf x
  · rw [if_pos hs]
    rcases h with h0 | ⟨t, ht⟩
    · subst h0
      exact Or.inl rfl
    · subst ht
      cases t with
      | nil => exact Or.inl rfl
      | cons d t2 =>
        right
        refine ⟨List.take t2.length (d :: t2), ?_⟩
        have h1 : (strOf "/").length = 1 := rfl
        rw [h1]
        simp only [List.length_cons]
        have h2 : t2.length + 1 + 1 - 1 = t2.length + 1 := by omega
        rw [h2]
        rfl
  · rw [if_neg hs]
    exact h

theorem exceptOkEq_ok {e : Except Unit Str} {x : Str} (h : exceptOkEq e x = true) :
    e = Except.ok x := by
  rcases e with f | t
  · exact absurd h (by simp [exceptOkEq])
  · unfold exceptOkEq at h
    have ht : t = x := by simpa using h
    rw [ht]

theorem hasChar_append_false {a b : Str} {c : Char} (ha : hasChar a c = false)
    (hb : hasChar b c = false) : hasChar (a ++ b) c = false := by
  rw [hasChar_append, ha, hb]
  rfl

theorem hasChar_cons_false {x : Char} {xs : Str} {c : Char} (hx : ¬ x = c)
    (hxs : hasChar xs c = false) : hasChar (x :: xs) c = false := by
  rw [hasChar_cons, if_neg hx]
  exact hxs

/-- The behaviour of `EscapedPath` on a `normalizeURL`-transformed URL whose
raw path originated from a successful parse. -/
theorem escapedPath_facts {u : GoURL} {R2 : Str}
    (hun : unescape EncMode.path R2 = Except.ok u.path)
    (hraw : u.rawPath = (if escapeStr u.path EncMode.path = R2 then [] else R2))
    (hshape : R2 = [] ∨ ∃ t, R2 = '/' :: t)
    (hq : hasChar R2 '?' = false) (hh : hasChar R2 '#' = false)
    (hctl : ∀ c ∈ R2, ¬ (c.toNat < 32 ∨ c.toNat = 127 ∨ 256 ≤ c.toNat))
    (hbytes : ∀ c ∈ R2, c.toNat < 256) :
    unescape EncMode.path (escapedPath (normTransform u)) =
      Except.ok (trimSuffixStr u.path (strOf "/")) ∧
    (escapedPath (normTransform u) = [] ∨ ∃ t, escapedPath (normTransform u) = '/' :: t) ∧
    hasChar (escapedPath (normTransform u)) '?' = false ∧
    hasChar (escapedPath (normTransform u)) '#' = false ∧
    (∀ c ∈ escapedPath (normTransform u),
      ¬ (c.toNat < 32 ∨ c.toNat = 127 ∨ 256 ≤ c.toNat)) ∧
    (escapeStr (trimSuffixStr u.path (strOf "/")) EncMode.path =
        escapedPath (normTransform u) ∨
      validEncoded (escapedPath (normTransform u)) EncMode.path = true) ∧
    trimSuffixStr u.path (strOf "/") ≠ strOf "*" := by
  have hvpath : (normTransform u).path = trimSuffixStr u.path (strOf "/") := rfl
  have hvraw : (normTransform u).rawPath = u.rawPath := rfl
  have hup_shape : u.path = [] ∨ ∃ t, u.path = '/' :: t := by
    rcases hshape with h0 | ⟨t, ht⟩
    · subst h0
      have h2 : Except.ok ([] : Str) = Except.ok u.path := hun
      left
      simpa using h2.symm
    · subst ht
      rw [unescape_cons_lit t (by decide) (by decide) (by decide)] at hun
      rcases hrec : unescape EncMode.path t with e | r
      · rw [hrec] at hun
        have hun2 : (Except.error e : Except Unit Str) = Except.ok u.path := hun
        exact absurd hun2 (by simp)
      · rw [hrec] at hun
        have hun2 : Except.ok ('/' :: r) = Except.ok u.path := hun
        right
        exact ⟨r, by simpa using hun2.symm⟩
  have hP_shape := trim_slash_shape u.path hup_shape
  have hPstar : trimSuffixStr u.path (strOf "/") ≠ strOf "*" := by
    rcases hP_shape with h0 | ⟨t, ht⟩
    · rw [h0]
      decide
    · rw [ht]
      intro hcon
      have h2 : some '/' = some '*' := by
        have h3 := congrArg List.head? hcon
        rw [show (strOf "*") = ['*'] from rfl] at h3
        simpa using h3
      exact absurd h2 (by decide)
  have hup_bytes : ∀ c ∈ u.path, c.toNat < 256 :=
    (unescape_ok_facts EncMode.path R2 u.path hun).2.1 hbytes
  have hP_bytes : ∀ c ∈ trimSuffixStr u.path (strOf "/"), c.toNat < 256 :=
    fun c hc => hup_bytes c (mem_trimSuffixStr hc)
  by_cases hc : ((normTransform u).rawPath ≠ [] &&
      validEncoded (normTransform u).rawPath EncMode.path &&
      exceptOkEq (unescape EncMode.path (normTransform u).rawPath)
        (normTransform u).path) = true
  · have hEP : escapedPath (normTransform u) = u.rawPath := by
      unfold escapedPath
      rw [if_pos hc]
      rfl
    have hcomp := hc
    simp only [Bool.and_eq_true, decide_eq_true_eq] at hcomp
    obtain ⟨⟨h1, h2⟩, h3⟩ := hcomp
    have h1b : u.rawPath ≠ [] := h1
    have hur : u.rawPath = R2 := by
      by_cases hesc : escapeStr u.path EncMode.path = R2
      · exfalso
        apply h1b
        rw [hraw, if_pos hesc]
      · rw [hraw, if_neg hesc]
    have h3b : unescape EncMode.path u.rawPath =
        Except.ok (trimSuffixStr u.path (strOf "/")) := exceptOkEq_ok h3
    have h2b : validEncoded u.rawPath EncMode.path = true := h2
    refine ⟨?_, ?_, ?_, ?_, ?_, ?_, hPstar⟩
    · rw [hEP]
      exact h3b
    · rw [hEP, hur]
      exact hshape
    · rw [hEP, hur]
      exact hq
    · rw [hEP, hur]
      exact hh
    · rw [hEP, hur]
      exact hctl
    · right
      rw [hEP]
      exact h2b
  · have hEP : escapedPath (normTransform u) =
        escapeStr (trimSuffixStr u.path (strOf "/")) EncMode.path := by
      unfold escapedPath
      rw [if_neg hc, hvpath, if_neg hPstar]
    refine ⟨?_, ?_, ?_, ?_, ?_, ?_, hPstar⟩
    · rw [hEP]
      exact unescape_escapeStr EncMode.path _ hP_bytes
        (by intro hm; exact absurd hm (by decide))
    · rw [hEP]
      rcases hP_shape with h0 | ⟨t, ht⟩
      · rw [h0, escapeStr_nil]
        exact Or.inl rfl
      · right
        rw [ht, escapeStr_cons,
          (show escapeChar '/' EncMode.path = ['/'] from by decide)]
        exact ⟨escapeStr t EncMode.path, by rw [List.singleton_append]⟩
    · rw [hEP, hasChar_false_iff]
      exact question_not_mem_escapeStr _ (by decide)
    · rw [hEP, hasChar_false_iff]
      exact hash_not_mem_escapeStr _ _
    · rw [hEP]
      exact fun c hcm => not_ctl_of_mem_escapeStr hcm
    · left
      rw [hEP]

theorem schemeTail_not_ctl {c : Char} (h : schemeTailChar c = true) :
    ¬ (c.toNat < 32 ∨ c.toNat = 127 ∨ 256 ≤ c.toNat) := by
  simp only [schemeTailChar, isAlphaChar, isDigitChar, Bool.or_eq_true,
    Bool.and_eq_true, decide_eq_true_eq, or_assoc] at h
  rcases h with h | h | h | h | h | h
  · intro hc
    omega
  · intro hc
    omega
  · intro hc
    omega
  · subst h
    decide
  · subst h
    decide
  · subst h
    decide

/-- The serialized form of a normalized authority URL reparses and
re-normalizes to itself. -/
theorem normalizeURL_reparse {s : Str} {u : GoURL}
    (hb : ∀ c ∈ s, c.toNat < 256) (hp : urlParse s = Except.ok u)
    (hhost : u.host ≠ []) (hsch : u.scheme ≠ []) (hfrag : u.fragment = [])
    (hfq : u.forceQuery = false)
    (hpathtrim : hasSuffixStr (trimSuffixStr u.path (strOf "/")) (strOf "/") = false) :
    normalizeURL (urlString (normTransform u)) = urlString (normTransform u) := by
  obtain ⟨A, R2, hA_at, hA_ph, hA_sub, hR2_un, hraw, hR2_shape, hR2_sub, hR2_q,
    hR2_hash, hR2_ctl, hopq, homit, hrawF, hschemeF, hRQ_sub⟩ :=
    urlParse_host_inv hp hhost hfrag
  have hA_bytes : ∀ c ∈ A, c.toNat < 256 := fun c hc => hb c (hA_sub c hc)
  have hR2_bytes : ∀ c ∈ R2, c.toNat < 256 := fun c hc => hb c (hR2_sub c hc)
  have hRQ_bytes : ∀ c ∈ u.rawQuery, c.toNat < 256 := fun c hc => hb c (hRQ_sub c hc)
  obtain ⟨hscls, hslow⟩ : schemeClass u.scheme = true ∧ toLowerStr u.scheme = u.scheme := by
    rcases hschemeF with h0 | h2
    · exact absurd h0 hsch
    · exact h2
  obtain ⟨hunp, hp_shape, hp_q, hp_hash, hp_ctl, hp_valid, hPstar⟩ :=
    escapedPath_facts hR2_un hraw hR2_shape hR2_q hR2_hash hR2_ctl hR2_bytes
  set P := trimSuffixStr u.path (strOf "/") with hPdef
  set EP := escapedPath (normTransform u) with hEPdef
  set EH := escapeStr u.host EncMode.host with hEHdef
  set QT := encodeValues (trackingParams.foldl valuesDel (parseQueryValues u.rawQuery))
    with hQTdef
  have hH_re : parseHost EH = Except.ok u.host := parseHost_roundtrip hA_bytes hA_ph
  have hPA : parseAuthority EH = Except.ok u.host := by
    have hnoat : hasChar EH '@' = false :=
      (hasChar_false_iff _ _).mpr (at_not_mem_escapeStr_host u.host)
    unfold parseAuthority
    rw [if_neg (by rw [hnoat]; simp)]
    exact hH_re
  have hEH_ne : EH ≠ [] := escapeStr_ne_nil hhost _
  have hEH_noslash : hasChar EH '/' = false :=
    (hasChar_false_iff _ _).mpr
      (not_mem_escapeStr _ (by decide) (by decide) (by decide) (by decide))
  have hEH_noq : hasChar EH '?' = false :=
    (hasChar_false_iff _ _).mpr (question_not_mem_escapeStr _ (by decide))
  have hEH_nohash : hasChar EH '#' = false :=
    (hasChar_false_iff _ _).mpr (hash_not_mem_escapeStr _ _)
  have hEH_ctl : ∀ c ∈ EH, ¬ (c.toNat < 32 ∨ c.toNat = 127 ∨ 256 ≤ c.toNat) :=
    fun c hc => not_ctl_of_mem_escapeStr hc
  have hSC_tail := schemeClass_mem hscls
  have hSC_nohash : hasChar u.scheme '#' = false := by
    rw [hasChar_false_iff]
    intro hm
    exact absurd (hSC_tail _ hm) (by decide)
  have hSC_ctl : ∀ c ∈ u.scheme, ¬ (c.toNat < 32 ∨ c.toNat = 127 ∨ 256 ≤ c.toNat) :=
    fun c hc => schemeTail_not_ctl (hSC_tail c hc)
  have hQrt : encodeValues (trackingParams.foldl valuesDel (parseQueryValues QT)) = QT :=
    query_roundtrip u.rawQuery hRQ_bytes
  have hQ_noq : hasChar QT '?' = false :=
    (hasChar_false_iff _ _).mpr (encodeValues_no_question _)
  have hQ_nohash : hasChar QT '#' = false :=
    (hasChar_false_iff _ _).mpr (encodeValues_no_hash _)
  have hQ_ctl : ∀ c ∈ QT, ¬ (c.toNat < 32 ∨ c.toNat = 127 ∨ 256 ≤ c.toNat) :=
    fun _ hc => encodeValues_not_ctl hc
  have hS : urlString (normTransform u) = u.scheme ++ ':' :: '/' :: '/' ::
      (EH ++ (EP ++ (if u.forceQuery || QT ≠ [] then '?' :: QT else []))) :=
    urlString_shape (normTransform u) hopq hsch hhost hfrag hp_shape
  set QP := (if u.forceQuery || QT ≠ [] then '?' :: QT else []) with hQPdef
  have hQP_hash : hasChar QP '#' = false := by
    rw [hQPdef, hfq]
    by_cases hQ0 : QT = []
    · rw [if_neg (by simp [hQ0])]
      rfl
    · rw [if_pos (by simp [hQ0])]
      exact hasChar_cons_false (by decide) hQ_nohash
  have hQP_ctl : ∀ c ∈ QP, ¬ (c.toNat < 32 ∨ c.toNat = 127 ∨ 256 ≤ c.toNat) := by
    rw [hQPdef, hfq]
    by_cases hQ0 : QT = []
    · rw [if_neg (by simp [hQ0])]
      intro c hc
      simp at hc
    · rw [if_pos (by simp [hQ0])]
      intro c hc
      rcases List.mem_cons.mp hc with hc | hc
      · subst hc
        decide
      · exact hQ_ctl c hc
  have hS_hash : hasChar (urlString (normTransform u)) '#' = false := by
    rw [hS]
    refine hasChar_append_false hSC_nohash ?_
    refine hasChar_cons_false (by decide) ?_
    refine hasChar_cons_false (by decide) ?_
    refine hasChar_cons_false (by decide) ?_
    refine hasChar_append_false hEH_nohash ?_
    exact hasChar_append_false hp_hash hQP_hash
  have hS_ctl : hasCTL (urlString (normTransform u)) = false := by
    apply hasCTL_false_of
    rw [hS]
    intro c hc
    rcases List.mem_append.mp hc with hc | hc
    · exact hSC_ctl c hc
    rcases List.mem_cons.mp hc with hc | hc
    · subst hc
      decide
    rcases List.mem_cons.mp hc with hc | hc
    · subst hc
      decide
    rcases List.mem_cons.mp hc with hc | hc
    · subst hc
      decide
    rcases List.mem_append.mp hc with hc | hc
    · exact hEH_ctl c hc
    rcases List.mem_append.mp hc with hc | hc
    · exact hp_ctl c hc
    · exact hQP_ctl c hc
  have hS_star : ¬ urlString (normTransform u) = strOf "*" := by
    rw [hS]
    intro hcon
    rcases hu : u.scheme with _ | ⟨c0, t⟩
    · exact hsch hu
    · rw [hu] at hcon
      simp only [List.cons_append] at hcon
      rw [show (strOf "*") = ['*'] from rfl] at hcon
      have h2 := (List.cons.injEq _ _ _ _).mp hcon
      exact absurd h2.2 (by simp)
  have hgsS : getScheme (urlString (normTransform u)) =
      Except.ok (u.scheme, '/' :: '/' :: (EH ++ (EP ++ QP))) := by
    rw [hS]
    exact getScheme_reparse u.scheme _ hscls
  have hpre_noq : hasChar ('/' :: '/' :: (EH ++ EP)) '?' = false := by
    refine hasChar_cons_false (by decide) ?_
    refine hasChar_cons_false (by decide) ?_
    exact hasChar_append_false hEH_noq hp_q
  have hsplit : splitQuery ('/' :: '/' :: (EH ++ (EP ++ QP))) =
      ('/' :: '/' :: (EH ++ EP), false, QT) := by
    by_cases hQ0 : QT = []
    · have hQP0 : QP = [] := by
        rw [hQPdef, hfq]
        rw [if_neg (by simp [hQ0])]
      rw [hQP0, List.append_nil]
      rw [splitQuery_no_q hpre_noq, hQ0]
    · have hQP1 : QP = '?' :: QT := by
        rw [hQPdef, hfq]
        rw [if_pos (by simp [hQ0])]
      rw [hQP1]
      rw [show '/' :: '/' :: (EH ++ (EP ++ '?' :: QT)) =
        ('/' :: '/' :: (EH ++ EP)) ++ '?' :: QT from by simp]
      exact splitQuery_with_q hpre_noq hQ_noq hQ0
  have hcutA : (if (strCut '/' (EH ++ EP)).2.2 then (strCut '/' (EH ++ EP)).1
        else EH ++ EP) = EH ∧
      (if (strCut '/' (EH ++ EP)).2.2 then '/' :: (strCut '/' (EH ++ EP)).2.1
        else []) = EP := by
    rcases hp_shape with hp0 | ⟨pt, hpt⟩
    · rw [hp0, List.append_nil, strCut_not_found '/' EH hEH_noslash]
      exact ⟨rfl, rfl⟩
    · rw [hpt, strCut_found '/' EH pt hEH_noslash]
      exact ⟨rfl, rfl⟩
  set WL : GoURL := {
    scheme := u.scheme, forceQuery := false, rawQuery := QT,
    host := u.host, path := P,
    rawPath := if escapeStr P EncMode.path = EP then [] else EP } with hWL
  have hpmS : parseMain (urlString (normTransform u)) = Except.ok WL := by
    unfold parseMain
    rw [if_neg (by rw [hS_ctl]; simp)]
    rw [if_neg hS_star]
    rw [hgsS]
    show (if !((strOf "/").isPrefixOf
          (splitQuery ('/' :: '/' :: (EH ++ (EP ++ QP)))).1) &&
          !(toLowerStr u.scheme = []) then
        Except.ok {
          scheme := toLowerStr u.scheme,
          opq := (splitQuery ('/' :: '/' :: (EH ++ (EP ++ QP)))).1,
          forceQuery := (splitQuery ('/' :: '/' :: (EH ++ (EP ++ QP)))).2.1,
          rawQuery := (splitQuery ('/' :: '/' :: (EH ++ (EP ++ QP)))).2.2 }
      else if !((strOf "/").isPrefixOf
            (splitQuery ('/' :: '/' :: (EH ++ (EP ++ QP)))).1) &&
          hasChar (strCut '/' (splitQuery ('/' :: '/' :: (EH ++ (EP ++ QP)))).1).1 ':' then
        Except.error ()
      else
        parseAfterScheme {
            scheme := toLowerStr u.scheme,
            forceQuery := (splitQuery ('/' :: '/' :: (EH ++ (EP ++ QP)))).2.1,
            rawQuery := (splitQuery ('/' :: '/' :: (EH ++ (EP ++ QP)))).2.2 }
          (splitQuery ('/' :: '/' :: (EH ++ (EP ++ QP)))).1) = Except.ok WL
    have hs1 : (splitQuery ('/' :: '/' :: (EH ++ (EP ++ QP)))).1 =
        '/' :: '/' :: (EH ++ EP) := by rw [hsplit]
    have hs2 : (splitQuery ('/' :: '/' :: (EH ++ (EP ++ QP)))).2.1 = false := by
      rw [hsplit]
    have hs3 : (splitQuery ('/' :: '/' :: (EH ++ (EP ++ QP)))).2.2 = QT := by
      rw [hsplit]
    rw [hs1, hs2, hs3, hslow]
    rw [single_slash_isPrefix]
    rw [if_neg (by simp)]
    rw [if_neg (by simp)]
    show (if (!(u.scheme = []) || !((strOf "///").isPrefixOf ('/' :: '/' :: (EH ++ EP)))) &&
        (strOf "//").isPrefixOf ('/' :: '/' :: (EH ++ EP)) then
      match parseAuthority (if (strCut '/' (EH ++ EP)).2.2 then (strCut '/' (EH ++ EP)).1
          else EH ++ EP) with
      | Except.error e => Except.error e
      | Except.ok h =>
        setPath {
            scheme := u.scheme, forceQuery := false, rawQuery := QT, host := h }
          (if (strCut '/' (EH ++ EP)).2.2 then '/' :: (strCut '/' (EH ++ EP)).2.1 else [])
    else
      setPath {
          scheme := u.scheme, forceQuery := false, rawQuery := QT,
          omitHost := !(u.scheme = []) && (strOf "/").isPrefixOf ('/' :: '/' :: (EH ++ EP)) }
        ('/' :: '/' :: (EH ++ EP))) = Except.ok WL
    rw [if_pos (by rw [double_slash_isPrefix]; simp [hsch])]
    rw [hcutA.1, hcutA.2, hPA]
    show setPath {
        scheme := u.scheme, forceQuery := false, rawQuery := QT,
        host := u.host } EP = Except.ok WL
    unfold setPath
    rw [hunp]
  have hcutS : strCut '#' (urlString (normTransform u)) =
      (urlString (normTransform u), [], false) :=
    strCut_not_found '#' _ hS_hash
  have hc1 : (strCut '#' (urlString (normTransform u))).1 =
      urlString (normTransform u) := by rw [hcutS]
  have hc2 : (strCut '#' (urlString (normTransform u))).2.1 = [] := by rw [hcutS]
  have hupS : urlParse (urlString (normTransform u)) = Except.ok WL := by
    show (match parseMain (strCut '#' (urlString (normTransform u))).1 with
      | Except.error e => Except.error e
      | Except.ok u0 =>
        if (strCut '#' (urlString (normTransform u))).2.1 = [] then Except.ok u0
        else
          match unescape EncMode.fragment
              (strCut '#' (urlString (normTransform u))).2.1 with
          | Except.error e => Except.error e
          | Except.ok f =>
            Except.ok { u0 with
              fragment := f,
              rawFragment :=
                if escapeStr f EncMode.fragment =
                    (strCut '#' (urlString (normTransform u))).2.1 then []
                else (strCut '#' (urlString (normTransform u))).2.1 }) = Except.ok WL
    rw [hc1, hpmS]
    show (if (strCut '#' (urlString (normTransform u))).2.1 = [] then Except.ok WL
      else
        match unescape EncMode.fragment
            (strCut '#' (urlString (normTransform u))).2.1 with
        | Except.error e => Except.error e
        | Except.ok f =>
          Except.ok { WL with
            fragment := f,
            rawFragment :=
              if escapeStr f EncMode.fragment =
                  (strCut '#' (urlString (normTransform u))).2.1 then []
              else (strCut '#' (urlString (normTransform u))).2.1 }) = Except.ok WL
    rw [if_pos hc2]
  have hEPW : escapedPath WL = EP := by
    unfold escapedPath
    have hWr : WL.rawPath =
        if escapeStr P EncMode.path = EP then [] else EP := rfl
    have hWp : WL.path = P := rfl
    rw [hWr, hWp]
    by_cases he : escapeStr P EncMode.path = EP
    · rw [if_pos he]
      rw [if_neg (by simp)]
      rw [if_neg hPstar]
      exact he
    · rw [if_neg he]
      have hpne : EP ≠ [] := by
        intro h0
        apply he
        rw [h0] at hunp ⊢
        have h2 : Except.ok ([] : Str) = Except.ok P := hunp
        have h3 : P = [] := by simpa using h2.symm
        rw [h3, escapeStr_nil]
      have hval : validEncoded EP EncMode.path = true := by
        rcases hp_valid with h0 | h0
        · exact absurd h0 he
        · exact h0
      have hOkEq : exceptOkEq (unescape EncMode.path EP) P = true := by
        rw [hunp]
        simp [exceptOkEq]
      have hcond : (decide (EP ≠ []) && validEncoded EP EncMode.path &&
          exceptOkEq (unescape EncMode.path EP) P) = true := by
        simp only [Bool.and_eq_true, decide_eq_true_eq]
        exact ⟨⟨hpne, hval⟩, hOkEq⟩
      rw [if_pos hcond]
  have hWnorm : normTransform WL = WL := by
    show ({ WL with
      rawQuery := encodeValues (trackingParams.foldl valuesDel
        (parseQueryValues WL.rawQuery)),
      path := trimSuffixStr WL.path (strOf "/") } : GoURL) = WL
    have h1 : encodeValues (trackingParams.foldl valuesDel
        (parseQueryValues WL.rawQuery)) = WL.rawQuery := hQrt
    have h2 : trimSuffixStr WL.path (strOf "/") = WL.path := trimSuffixStr_id hpathtrim
    rw [h1, h2]
  have hWfq : WL.forceQuery = false := rfl
  have hWrq : WL.rawQuery = QT := rfl
  have hqp_eq : (if WL.forceQuery || WL.rawQuery ≠ [] then '?' :: WL.rawQuery else []) =
      QP := by
    rw [hWfq, hWrq, hQPdef, hfq]
  have hSW : urlString WL = urlString (normTransform u) := by
    have h0 := urlString_shape WL rfl hsch hhost rfl
      (by rw [hEPW]; exact hp_shape)
    rw [hEPW, hqp_eq] at h0
    rw [h0, hS]
  show normalizeURL (urlString (normTransform u)) = urlString (normTransform u)
  show (match urlParse (urlString (normTransform u)) with
    | Except.error _ => trimSuffixStr (urlString (normTransform u)) (strOf "/")
    | Except.ok w => urlString (normTransform w)) = urlString (normTransform u)
  rw [hupS]
  show urlString (normTransform WL) = urlString (normTransform u)
  rw [hWnorm]
  exact hSW

/-- C8: URL normalization is idempotent, amended: for every byte string that
parses to an authority-form URL (scheme and host present, no fragment, no
forced query) whose path, after one trailing-slash strip, does not still end
in a slash, `normalizeURL (normalizeURL s) = normalizeURL s`.  The unamended
universal claim is refuted by `normalizeURL_not_idem`: a path ending in `//`
loses exactly one slash per application. -/
theorem normalizeURL_idem (s : Str) (u : GoURL)
    (hb : ∀ c ∈ s, c.toNat < 256)
    (hp : urlParse s = Except.ok u)
    (hhost : u.host ≠ []) (hsch : u.scheme ≠ [])
    (hfrag : u.fragment = []) (hfq : u.forceQuery = false)
    (hpathtrim : hasSuffixStr (trimSuffixStr u.path (strOf "/")) (strOf "/") = false) :
    normalizeURL (normalizeURL s) = normalizeURL s := by
  have h1 : normalizeURL s = urlString (normTransform u) := by
    show (match urlParse s with
      | Except.error _ => trimSuffixStr s (strOf "/")
      | Except.ok w => urlString (normTransform w)) = urlString (normTransform u)
    rw [hp]
  rw [h1]
  exact normalizeURL_reparse hb hp hhost hsch hfrag hfq hpathtrim

/-- C8 counterexample: `normalizeURL` is not idempotent on
`http://x.com/a//` — the first application yields `http://x.com/a/`, the
second `http://x.com/a`. -/
theorem normalizeURL_not_idem :
    normalizeURL (normalizeURL (strOf "http://x.com/a//")) ≠
      normalizeURL (strOf "http://x.com/a//") := by decide

/-- Witness for `normalizeURL_idem` at a concrete URL with a stripped
tracking parameter. -/
theorem normalizeURL_idem_witness :
    normalizeURL (normalizeURL (strOf "http://x.com/a?utm_source=y&b=c")) =
      normalizeURL (strOf "http://x.com/a?utm_source=y&b=c") :=
  normalizeURL_idem (strOf "http://x.com/a?utm_source=y&b=c")
    { scheme := strOf "http", host := strOf "x.com", path := strOf "/a",
      rawQuery := strOf "utm_source=y&b=c" }
    (by decide) (by rfl) (by decide) (by decide) (by decide) (by decide) (by decide)

/-! ### Model of the LLM chat capability and the compression pipeline
(agent.go lines 39-44, 88-178, 569-629) -/

/-- The LLM chat capability: an oracle indexed by a call counter (each call
site uses the next counter value, so successive calls may answer
differently, like the real stateful service).  Messages are (role, content)
pairs; an `error` is the Go `error` with its message. -/
abbrev ChatOracle := Nat → List (Str × Str) → Except Str Str

/-- Decimal digits of `n` (`fuel ≥ n` suffices). -/
def natToStrAux : Nat → Nat → Str
  | 0, _ => []
  | fuel + 1, n => if n = 0 then [] else natToStrAux fuel (n / 10) ++ [Char.ofNat (48 + n % 10)]

/-- Go `fmt.Sprintf("%d", n)` for a natural number. -/
def natToStr (n : Nat) : Str := if n = 0 then strOf "0" else natToStrAux n n

/-- Model of `Config.maxContextChars` (agent.go lines 39-44): the Go
`int(float64(n) * 3.5)` is exact for every realistic `n` (`3.5` is a dyadic
float and `7n < 2^53`), so it is `7n / 2`; the `<= 0` guard becomes `= 0`
on the `Nat` model of the config field. -/
def maxContextCharsOf (contextLength : Nat) : Nat :=
  if contextLength = 0 then 32768 * 3 else 7 * contextLength / 2

/-- Go `int(float64(len) * r)` for a nonnegative ratio: floor of the exact
rational product (the float rounding of `0.5/attempt` and the product is
immaterial to every property proved here, since the result only feeds the
prompt text). -/
def ratioChars (len : Nat) (rat : ℚ) : Nat := (Rat.floor ((len : ℚ) * rat)).toNat

/-- The compression system message of `compressContextDirect`. -/
def compressSystemMsg : Str × Str :=
  (strOf "system", strOf "Compress text. Output only the result.")

/-- The compression user prompt of `compressContextDirect`. -/
def compressPrompt (targetChars : Nat) (context : Str) : Str :=
  strOf "Compress this research context to ~" ++ natToStr targetChars ++
    strOf " characters. PRESERVE: URLs, prices, names, numbers, dates, specific facts. REMOVE: redundancy, verbose descriptions. Output ONLY compressed text:\n\n" ++
    context

/-- The message list `compressContextDirect` sends. -/
def directMsgs (context : Str) (rat : ℚ) : List (Str × Str) :=
  [compressSystemMsg,
   (strOf "user", compressPrompt (ratioChars context.length rat) context)]

/-- Model of `compressContextDirect` (agent.go lines 106-132): returns the
Go `(string, error)` pair plus the next oracle counter. -/
def compressContextDirect (chat : ChatOracle) (k : Nat) (context : Str) (rat : ℚ) :
    Str × Option Str × Nat :=
  match chat k (directMsgs context rat) with
  | Except.error e => (context, some (strOf "compression failed: " ++ e), k + 1)
  | Except.ok resp =>
    let compressed := trimSpace (stripThinkTags resp)
    if compressed.length < 200 then
      (context,
       some (strOf "compression produced too small output (" ++
         natToStr compressed.length ++ strOf " chars)"),
       k + 1)
    else (compressed, none, k + 1)

/-- The per-chunk loop of `compressContextChunked` (agent.go lines 147-162):
compress each chunk, truncating a chunk whose compression failed. -/
def chunkFold (chat : ChatOracle) (rat : ℚ) (chunkSize : Nat) :
    List Str → Nat → List Str × Nat
  | [], k => ([], k)
  | chunk :: rest, k =>
    let r := compressContextDirect chat k chunk rat
    let part :=
      match r.2.1 with
      | some _ =>
        if chunk.length > chunkSize / 4 then
          chunk.take (chunkSize / 4) ++ strOf "\n[...truncated...]\n"
        else chunk
      | none => r.1
    let rr := chunkFold chat rat chunkSize rest r.2.2
    (part :: rr.1, rr.2)

/-- Model of `compressContext` with `compressContextChunked` inlined
(agent.go lines 88-178).  `fuel` bounds the chunked-then-recompress
recursion, which Go does not bound (exhausted fuel reports an error, which
every caller treats exactly like a compression failure); Go's
`int(float64(maxChars)*0.6)` and `*0.5` are modelled by the exact rationals
`3/5` and `1/2`. -/
def compressContextF (chat : ChatOracle) (maxChars : Nat) :
    Nat → Nat → Str → ℚ → Str × Option Str × Nat
  | 0, k, context, _ => (context, some (strOf "compression recursion limit"), k)
  | fuel + 1, k, context, rat =>
    if context.length ≤ 3 * maxChars / 5 then compressContextDirect chat k context rat
    else
      let chunkSize := if maxChars / 2 < 2000 then 2000 else maxChars / 2
      let folded := chunkFold chat rat chunkSize (splitContextIntoChunks context chunkSize) k
      let result := List.intercalate (strOf "\n\n---\n\n") folded.1
      if result.length > 3 * maxChars / 5 then
        compressContextF chat maxChars fuel folded.2 result rat
      else (result, none, folded.2)

/-- How one attempt of `writeReport` arrived at its generation context. -/
inductive CompRoute
  | fit
  | compFail
  | compOk
deriving DecidableEq

/-- Ghost record of one `writeReport` attempt: the ceiling in force, the
compression ratio used (none when the context already fit), the route, the
context the attempt started from, the context placed into the prompt, and
whether generation succeeded. -/
structure AttemptRec where
  ceil : Nat
  rat : Option ℚ
  route : CompRoute
  startCtx : Str
  ctx : Str
  genOk : Bool
deriving DecidableEq

/-- The report-generation user prompt of `writeReport`. -/
def reportPrompt (resultLinks : Bool) (topic cur : Str) : Str :=
  strOf "Write a research report for: " ++ topic ++ strOf "\n\nData:\n" ++ cur ++
    strOf "\n\nFormat with Markdown. Include source URLs." ++
    (if resultLinks then
      strOf "\n\nCRITICAL: Include direct clickable links [Title](URL) for each item."
    else [])

/-- The compression phase of one `writeReport` attempt (agent.go lines
579-595): when the context exceeds the ceiling, compress at ratio
`0.5/attempt`; on a compression error hard-truncate to the ceiling; a
successful compression result is used as-is.  Returns the new context, the
ratio used, the route taken and the next oracle counter. -/
def reportCompPhase (chat : ChatOracle) (fuel maxChars attempt mcc k : Nat)
    (cur : Str) : Str × Option ℚ × CompRoute × Nat :=
  if cur.length > mcc then
    match compressContextF chat maxChars fuel k cur (1 / (2 * attempt) : ℚ) with
    | (_, some _, k2) =>
      ((if cur.length > mcc then cur.take mcc else cur), some (1 / (2 * attempt) : ℚ),
        CompRoute.compFail, k2)
    | (res, none, k2) => (res, some (1 / (2 * attempt) : ℚ), CompRoute.compOk, k2)
  else (cur, none, CompRoute.fit, k)

/-- The retry loop of `writeReport` (agent.go lines 577-626), with a ghost
trace of the attempts.  `remaining` counts the loop iterations left
(`maxRetries - attempt + 1`); Go's `attempt < maxRetries` test is
`remaining > 0` here. -/
def writeReportLoop (chat : ChatOracle) (fuel maxChars : Nat) (resultLinks : Bool)
    (topic : Str) :
    Nat → Nat → Nat → Nat → Str → Except Str Str × List AttemptRec × Nat
  | _, 0, _, k, _ =>
    (Except.error (strOf "failed to generate report after 3 attempts"), [], k)
  | attempt, remaining + 1, mcc, k, cur =>
    let comp := reportCompPhase chat fuel maxChars attempt mcc k cur
    match chat comp.2.2.2 [(strOf "user", reportPrompt resultLinks topic comp.1)] with
    | Except.ok resp =>
      (Except.ok (stripThinkTags resp),
       [{ ceil := mcc, rat := comp.2.1, route := comp.2.2.1,
          startCtx := cur, ctx := comp.1, genOk := true }],
       comp.2.2.2 + 1)
    | Except.error e =>
      if remaining > 0 &&
          (containsSub e (strOf "context") || containsSub e (strOf "token")) then
        let r := writeReportLoop chat fuel maxChars resultLinks topic (attempt + 1)
          remaining (mcc / 2) (comp.2.2.2 + 1) comp.1
        (r.1,
         { ceil := mcc, rat := comp.2.1, route := comp.2.2.1,
           startCtx := cur, ctx := comp.1, genOk := false } :: r.2.1,
         r.2.2)
      else
        (Except.error (strOf "report generation failed after " ++ natToStr attempt ++
           strOf " attempts: " ++ e),
         [{ ceil := mcc, rat := comp.2.1, route := comp.2.2.1,
            startCtx := cur, ctx := comp.1, genOk := false }],
         comp.2.2.2 + 1)

/-- Model of `writeReport` (agent.go lines 569-629): the ceiling starts at
`int(float64(maxChars) * 0.5) = maxChars / 2` (0.5 is exact) and three
attempts are made. -/
def writeReport (chat : ChatOracle) (fuel maxChars : Nat) (resultLinks : Bool)
    (topic context : Str) (k : Nat) : Except Str Str × List AttemptRec × Nat :=
  writeReportLoop chat fuel maxChars resultLinks topic 1 3 (maxChars / 2) k context

/-- C9: `compressContextDirect` returns an error exactly when the chat call
fails or the cleaned output is shorter than 200 characters, and on every
error path the text returned alongside the error is the input context
unchanged. -/
theorem compressContextDirect_spec (chat : ChatOracle) (k : Nat) (context : Str)
    (rat : ℚ) :
    ((compressContextDirect chat k context rat).2.1 ≠ none ↔
      (∃ e, chat k (directMsgs context rat) = Except.error e) ∨
      (∃ resp, chat k (directMsgs context rat) = Except.ok resp ∧
        (trimSpace (stripThinkTags resp)).length < 200)) ∧
    ∀ e, (compressContextDirect chat k context rat).2.1 = some e →
      (compressContextDirect chat k context rat).1 = context := by
  rcases hc : chat k (directMsgs context rat) with e | resp
  · have hEq : compressContextDirect chat k context rat =
        (context, some (strOf "compression failed: " ++ e), k + 1) := by
      unfold compressContextDirect
      rw [hc]
    rw [hEq]
    refine ⟨⟨fun _ => Or.inl ⟨e, rfl⟩, fun _ => by simp⟩, fun e2 _ => rfl⟩
  · by_cases hlen : (trimSpace (stripThinkTags resp)).length < 200
    · have hEq : compressContextDirect chat k context rat =
          (context,
           some (strOf "compression produced too small output (" ++
             natToStr (trimSpace (stripThinkTags resp)).length ++ strOf " chars)"),
           k + 1) := by
        unfold compressContextDirect
        rw [hc]
        show (if (trimSpace (stripThinkTags resp)).length < 200 then
            ((context,
              some (strOf "compression produced too small output (" ++
                natToStr (trimSpace (stripThinkTags resp)).length ++ strOf " chars)"),
              k + 1) : Str × Option Str × Nat)
          else (trimSpace (stripThinkTags resp), none, k + 1)) = _
        rw [if_pos hlen]
      rw [hEq]
      refine ⟨⟨fun _ => Or.inr ⟨resp, rfl, hlen⟩, fun _ => by simp⟩, fun e2 _ => rfl⟩
    · have hEq : compressContextDirect chat k context rat =
          (trimSpace (stripThinkTags resp), none, k + 1) := by
        unfold compressContextDirect
        rw [hc]
        show (if (trimSpace (stripThinkTags resp)).length < 200 then
            ((context,
              some (strOf "compression produced too small output (" ++
                natToStr (trimSpace (stripThinkTags resp)).length ++ strOf " chars)"),
              k + 1) : Str × Option Str × Nat)
          else (trimSpace (stripThinkTags resp), none, k + 1)) = _
        rw [if_neg hlen]
      rw [hEq]
      refine ⟨⟨fun hcon => absurd rfl hcon, fun hdisj => ?_⟩, fun e2 he2 => by simp at he2⟩
      rcases hdisj with ⟨e2, he⟩ | ⟨resp2, hr, hl⟩
      · cases he
      · injection hr with hr
        subst hr
        exact absurd hl hlen

theorem reportCompPhase_spec (chat : ChatOracle) (fuel maxChars attempt mcc k : Nat)
    (cur : Str) :
    (∀ q, (reportCompPhase chat fuel maxChars attempt mcc k cur).2.1 = some q →
      q = 1 / (2 * attempt)) ∧
    ((reportCompPhase chat fuel maxChars attempt mcc k cur).2.2.1 ≠ CompRoute.compOk →
      (reportCompPhase chat fuel maxChars attempt mcc k cur).1.length ≤ mcc) ∧
    ((reportCompPhase chat fuel maxChars attempt mcc k cur).2.2.1 = CompRoute.fit →
      (reportCompPhase chat fuel maxChars attempt mcc k cur).1 = cur) ∧
    ((reportCompPhase chat fuel maxChars attempt mcc k cur).2.2.1 = CompRoute.compFail →
      (reportCompPhase chat fuel maxChars attempt mcc k cur).1 = cur.take mcc) := by
  unfold reportCompPhase
  by_cases hbig : cur.length > mcc
  · rw [if_pos hbig]
    rcases hr : compressContextF chat maxChars fuel k cur (1 / (2 * attempt) : ℚ)
      with ⟨res, o, k2⟩
    rcases o with _ | msg
    · show (∀ q, (some (1 / (2 * attempt) : ℚ)) = some q → q = 1 / (2 * attempt)) ∧
        (CompRoute.compOk ≠ CompRoute.compOk → res.length ≤ mcc) ∧
        (CompRoute.compOk = CompRoute.fit → res = cur) ∧
        (CompRoute.compOk = CompRoute.compFail → res = cur.take mcc)
      refine ⟨fun q hq => ?_, fun hcon => absurd rfl hcon,
        fun hcon => absurd hcon (by decide), fun hcon => absurd hcon (by decide)⟩
      injection hq with h
      exact h.symm
    · show (∀ q, (some (1 / (2 * attempt) : ℚ)) = some q → q = 1 / (2 * attempt)) ∧
        (CompRoute.compFail ≠ CompRoute.compOk →
          (if cur.length > mcc then cur.take mcc else cur).length ≤ mcc) ∧
        (CompRoute.compFail = CompRoute.fit →
          (if cur.length > mcc then cur.take mcc else cur) = cur) ∧
        (CompRoute.compFail = CompRoute.compFail →
          (if cur.length > mcc then cur.take mcc else cur) = cur.take mcc)
      refine ⟨fun q hq => ?_, fun _ => ?_, fun hcon => absurd hcon (by decide),
        fun _ => by rw [if_pos hbig]⟩
      · injection hq with h
        exact h.symm
      · rw [if_pos hbig, List.length_take]
        exact Nat.min_le_left mcc cur.length
  · rw [if_neg hbig]
    refine ⟨?_, ?_, ?_, ?_⟩
    · intro q hq
      exact absurd hq (by simp)
    · intro _
      exact Nat.le_of_not_lt hbig
    · intro _
      rfl
    · intro hcon
      simp at hcon

/-- Invariants of the `writeReport` retry loop: at most `remaining` further
attempts, ceilings halving from `mcc`, ratio `0.5/(attempt+j)` on the
`j`-th further attempt, non-`compOk` contexts within the ceiling, `fit`
attempts reusing their start context, each attempt starting from the
previous attempt's generation context, and an error result when no
generation succeeds. -/
theorem writeReportLoop_spec (chat : ChatOracle) (fuel maxChars : Nat) (rl : Bool)
    (topic : Str) : (remaining attempt mcc k : Nat) → (cur : Str) →
    ((writeReportLoop chat fuel maxChars rl topic attempt remaining mcc k cur).2.1.length
        ≤ remaining) ∧
    (∀ j (h : j < (writeReportLoop chat fuel maxChars rl topic attempt remaining mcc k
        cur).2.1.length),
      ((writeReportLoop chat fuel maxChars rl topic attempt remaining mcc k
        cur).2.1.get ⟨j, h⟩).ceil = mcc / 2 ^ j) ∧
    (∀ j (h : j < (writeReportLoop chat fuel maxChars rl topic attempt remaining mcc k
        cur).2.1.length), ∀ q,
      ((writeReportLoop chat fuel maxChars rl topic attempt remaining mcc k
        cur).2.1.get ⟨j, h⟩).rat = some q → q = 1 / (2 * (attempt + j))) ∧
    (∀ rec ∈ (writeReportLoop chat fuel maxChars rl topic attempt remaining mcc k
        cur).2.1, rec.route ≠ CompRoute.compOk → rec.ctx.length ≤ rec.ceil) ∧
    (∀ rec ∈ (writeReportLoop chat fuel maxChars rl topic attempt remaining mcc k
        cur).2.1, rec.route = CompRoute.fit → rec.ctx = rec.startCtx) ∧
    (∀ rec ∈ (writeReportLoop chat fuel maxChars rl topic attempt remaining mcc k
        cur).2.1, rec.route = CompRoute.compFail →
      rec.ctx = rec.startCtx.take rec.ceil) ∧
    (∀ h : 0 < (writeReportLoop chat fuel maxChars rl topic attempt remaining mcc k
        cur).2.1.length,
      ((writeReportLoop chat fuel maxChars rl topic attempt remaining mcc k
        cur).2.1.get ⟨0, h⟩).startCtx = cur) ∧
    (∀ j (h : j + 1 < (writeReportLoop chat fuel maxChars rl topic attempt remaining mcc
        k cur).2.1.length),
      ((writeReportLoop chat fuel maxChars rl topic attempt remaining mcc k
        cur).2.1.get ⟨j + 1, h⟩).startCtx =
        ((writeReportLoop chat fuel maxChars rl topic attempt remaining mcc k
          cur).2.1.get ⟨j, Nat.lt_of_succ_lt h⟩).ctx) ∧
    ((∀ rec ∈ (writeReportLoop chat fuel maxChars rl topic attempt remaining mcc k
        cur).2.1, rec.genOk = false) →
      ∃ e, (writeReportLoop chat fuel maxChars rl topic attempt remaining mcc k
        cur).1 = Except.error e)
  | 0, attempt, mcc, k, cur => by
    refine ⟨by simp [writeReportLoop], ?_, ?_, ?_, ?_, ?_, ?_, ?_, ?_⟩
    · intro j h
      simp [writeReportLoop] at h
    · intro j h
      simp [writeReportLoop] at h
    · intro rec hrec
      simp [writeReportLoop] at hrec
    · intro rec hrec
      simp [writeReportLoop] at hrec
    · intro rec hrec
      simp [writeReportLoop] at hrec
    · intro h
      simp [writeReportLoop] at h
    · intro j h
      simp [writeReportLoop] at h
    · intro _
      exact ⟨_, rfl⟩
  | remaining + 1, attempt, mcc, k, cur => by
    obtain ⟨hC1, hC2, hC3, hC4⟩ :=
      reportCompPhase_spec chat fuel maxChars attempt mcc k cur
    rcases hchat : chat (reportCompPhase chat fuel maxChars attempt mcc k cur).2.2.2
        [(strOf "user",
          reportPrompt rl topic (reportCompPhase chat fuel maxChars attempt mcc k cur).1)]
      with e | resp
    · by_cases hbudget : (remaining > 0 &&
          (containsSub e (strOf "context") || containsSub e (strOf "token"))) = true
      · have hstep : writeReportLoop chat fuel maxChars rl topic attempt (remaining + 1)
            mcc k cur =
            ((writeReportLoop chat fuel maxChars rl topic (attempt + 1) remaining (mcc / 2)
              ((reportCompPhase chat fuel maxChars attempt mcc k cur).2.2.2 + 1)
              (reportCompPhase chat fuel maxChars attempt mcc k cur).1).1,
             { ceil := mcc,
               rat := (reportCompPhase chat fuel maxChars attempt mcc k cur).2.1,
               route := (reportCompPhase chat fuel maxChars attempt mcc k cur).2.2.1,
               startCtx := cur,
               ctx := (reportCompPhase chat fuel maxChars attempt mcc k cur).1,
               genOk := false } ::
               (writeReportLoop chat fuel maxChars rl topic (attempt + 1) remaining
                 (mcc / 2)
                 ((reportCompPhase chat fuel maxChars attempt mcc k cur).2.2.2 + 1)
                 (reportCompPhase chat fuel maxChars attempt mcc k cur).1).2.1,
             (writeReportLoop chat fuel maxChars rl topic (attempt + 1) remaining (mcc / 2)
               ((reportCompPhase chat fuel maxChars attempt mcc k cur).2.2.2 + 1)
               (reportCompPhase chat fuel maxChars attempt mcc k cur).1).2.2) := by
          conv_lhs => unfold writeReportLoop
          simp only [hchat]
          rw [if_pos hbudget]
        obtain ⟨ih1, ih2, ih3, ih4, ih5, ihT, ih6, ih7, ih8⟩ :=
          writeReportLoop_spec chat fuel maxChars rl topic remaining (attempt + 1) (mcc / 2)
            ((reportCompPhase chat fuel maxChars attempt mcc k cur).2.2.2 + 1)
            (reportCompPhase chat fuel maxChars attempt mcc k cur).1
        rw [hstep]
        refine ⟨?_, ?_, ?_, ?_, ?_, ?_, ?_, ?_, ?_⟩
        · simpa using Nat.succ_le_succ ih1
        · intro j h
          cases j with
          | zero =>
            simp only [List.get_cons_zero]
            simp
          | succ j2 =>
            rw [List.get_cons_succ]
            rw [ih2 j2 (by simpa using h)]
            rw [Nat.div_div_eq_div_mul, pow_succ]
            ring_nf
        · intro j h
          cases j with
          | zero =>
            simp only [List.get_cons_zero]
            intro q hq
            have := hC1 q hq
            rw [this]
            norm_num
          | succ j2 =>
            rw [List.get_cons_succ]
            intro q hq
            have := ih3 j2 (by simpa using h) q hq
            rw [this]
            congr 1
            push_cast
            ring
        · intro rec hrec
          rcases List.mem_cons.mp hrec with hrec | hrec
          · subst hrec
            intro hroute
            exact hC2 hroute
          · exact ih4 rec hrec
        · intro rec hrec
          rcases List.mem_cons.mp hrec with hrec | hrec
          · subst hrec
            intro hroute
            exact hC3 hroute
          · exact ih5 rec hrec
        · intro rec hrec
          rcases List.mem_cons.mp hrec with hrec | hrec
          · subst hrec
            intro hroute
            exact hC4 hroute
          · exact ihT rec hrec
        · intro h
          rfl
        · intro j h
          cases j with
          | zero =>
            exact ih6 (by simpa using h)
          | succ j2 =>
            exact ih7 j2 (by simpa using h)
        · intro hall
          refine ih8 fun rec hrec => ?_
          exact hall rec (List.mem_cons_of_mem _ hrec)
      · have hstep : writeReportLoop chat fuel maxChars rl topic attempt (remaining + 1)
            mcc k cur =
            (Except.error (strOf "report generation failed after " ++ natToStr attempt ++
               strOf " attempts: " ++ e),
             [{ ceil := mcc,
                rat := (reportCompPhase chat fuel maxChars attempt mcc k cur).2.1,
                route := (reportCompPhase chat fuel maxChars attempt mcc k cur).2.2.1,
                startCtx := cur,
                ctx := (reportCompPhase chat fuel maxChars attempt mcc k cur).1,
                genOk := false }],
             (reportCompPhase chat fuel maxChars attempt mcc k cur).2.2.2 + 1) := by
            conv_lhs => unfold writeReportLoop
            simp only [hchat]
            rw [if_neg hbudget]
        rw [hstep]
        refine ⟨by simp, ?_, ?_, ?_, ?_, ?_, ?_, ?_, ?_⟩
        · intro j h
          simp only [List.length_singleton] at h
          have hj : j = 0 := by omega
          subst hj
          simp
        · intro j h
          simp only [List.length_singleton] at h
          have hj : j = 0 := by omega
          subst hj
          simp only [List.get_cons_zero]
          intro q hq
          have := hC1 q hq
          rw [this]
          norm_num
        · intro rec hrec
          rw [List.mem_singleton] at hrec
          subst hrec
          intro hroute
          exact hC2 hroute
        · intro rec hrec
          rw [List.mem_singleton] at hrec
          subst hrec
          intro hroute
          exact hC3 hroute
        · intro rec hrec
          rw [List.mem_singleton] at hrec
          subst hrec
          intro hroute
          exact hC4 hroute
        · intro h
          rfl
        · intro j h
          simp only [List.length_singleton] at h
          omega
        · intro _
          exact ⟨_, rfl⟩
    · have hstep : writeReportLoop chat fuel maxChars rl topic attempt (remaining + 1)
          mcc k cur =
          (Except.ok (stripThinkTags resp),
           [{ ceil := mcc,
              rat := (reportCompPhase chat fuel maxChars attempt mcc k cur).2.1,
              route := (reportCompPhase chat fuel maxChars attempt mcc k cur).2.2.1,
              startCtx := cur,
              ctx := (reportCompPhase chat fuel maxChars attempt mcc k cur).1,
              genOk := true }],
           (reportCompPhase chat fuel maxChars attempt mcc k cur).2.2.2 + 1) := by
        conv_lhs => unfold writeReportLoop
        simp only [hchat]
      rw [hstep]
      refine ⟨by simp, ?_, ?_, ?_, ?_, ?_, ?_, ?_, ?_⟩
      · intro j h
        simp only [List.length_singleton] at h
        have hj : j = 0 := by omega
        subst hj
        simp
      · intro j h
        simp only [List.length_singleton] at h
        have hj : j = 0 := by omega
        subst hj
        simp only [List.get_cons_zero]
        intro q hq
        have := hC1 q hq
        rw [this]
        norm_num
      · intro rec hrec
        rw [List.mem_singleton] at hrec
        subst hrec
        intro hroute
        exact hC2 hroute
      · intro rec hrec
        rw [List.mem_singleton] at hrec
        subst hrec
        intro hroute
        exact hC3 hroute
      · intro rec hrec
        rw [List.mem_singleton] at hrec
        subst hrec
        intro hroute
        exact hC4 hroute
      · intro h
        rfl
      · intro j h
        simp only [List.length_singleton] at h
        omega
      · intro hall
        exact absurd (hall _ (List.mem_singleton_self _)) (by simp)

/-- One search result, `search.Result`: URL, Title, Content. -/
structure SResult where
  url : Str
  title : Str
  content : Str

/-- One tracked source, `Source{Title, URL}`. -/
structure Source where
  title : Str
  url : Str

/-- The executor state threaded through `searchWithPagination`: the run-wide
deduplication set `a.seenURLs` (as the insertion-ordered list of its keys)
and source list `a.sources`, plus the per-call accumulators `results`,
`newURLs` and `duplicates`, and a ghost trace `procd` of every result
processed. -/
structure SState where
  seen : List Str
  sources : List Source
  text : Str
  newURLs : Nat
  dups : Nat
  procd : List SResult

/-- The non-deep result line written by `searchWithPagination`. -/
def snippetLine (r : SResult) : Str :=
  strOf "- " ++ r.title ++ strOf "\n  URL: " ++ r.url ++
    strOf "\n  Snippet: " ++ r.content ++ strOf "\n\n"

/-- The deep-mode result line written by `searchWithPagination`. -/
def listingLine (r : SResult) (summary : Str) : Str :=
  strOf "- LISTING: " ++ r.title ++ strOf "\n  URL: " ++ r.url ++
    strOf "\n  Details: " ++ summary ++ strOf "\n\n"

/-- Body of the per-result loop of `searchWithPagination`: normalize the
URL, count a duplicate if it was already seen, otherwise mark it seen,
count a new URL, append the (deep or snippet) result line and track the
source. `fetchO` stands for `fetcher.FetchPageContent` and `sumO` for
`a.summarizePage`; `procd` is a ghost trace of the processed results. -/
def processResult (useDeep : Bool) (fetchO : Str → Nat → Except Unit Str)
    (sumO : Str → Str → Str → Str) (st : SState) (r : SResult) : SState :=
  let n := normalizeURL r.url
  if n ∈ st.seen then
    { st with dups := st.dups + 1, procd := st.procd ++ [r] }
  else
    let line :=
      if useDeep then
        match fetchO r.url 6000 with
        | Except.ok content =>
          if content.length > 50 then listingLine r (sumO r.url r.title content)
          else snippetLine r
        | Except.error _ => snippetLine r
      else snippetLine r
    { seen := st.seen ++ [n], sources := st.sources ++ [⟨r.title, r.url⟩],
      text := st.text ++ line, newURLs := st.newURLs + 1, dups := st.dups,
      procd := st.procd ++ [r] }

/-- The per-query page loop of `searchWithPagination`: starting at `page`,
run at most `fuel` more pages; a non-paginating searcher (`canPag = false`)
only serves page 1; stop this query on a search error or an empty result
page, otherwise process the page's results and continue with the next page.
`pageO` stands for `pagSearcher.SearchWithPage` and `searchO` for
`a.searcher.Search`. -/
def pageLoop (canPag useDeep : Bool)
    (pageO : Str → Nat → Except Unit (List SResult))
    (searchO : Str → Except Unit (List SResult))
    (fetchO : Str → Nat → Except Unit Str) (sumO : Str → Str → Str → Str)
    (query : Str) (page fuel : Nat) (st : SState) : SState :=
  match fuel with
  | 0 => st
  | fuel + 1 =>
    if canPag = false ∧ page ≠ 1 then st
    else
      match (if canPag then pageO query page else searchO query) with
      | Except.error _ => st
      | Except.ok rs =>
        if rs.isEmpty then st
        else pageLoop canPag useDeep pageO searchO fetchO sumO query (page + 1) fuel
          (rs.foldl (processResult useDeep fetchO sumO) st)

/-- `searchWithPagination`: for each query, page through its results (a
`MaxPages` setting of 0 means the auto safety limit of 100 pages),
deduplicating by normalized URL against the run-wide seen set and
appending to the run-wide source list; the per-call result text, `newURLs`
and `duplicates` counters start at zero. Deep mode is active when
configured and the searcher can fetch content. -/
def searchWithPagination (canPag deepMode canFetch : Bool)
    (pageO : Str → Nat → Except Unit (List SResult))
    (searchO : Str → Except Unit (List SResult))
    (fetchO : Str → Nat → Except Unit Str) (sumO : Str → Str → Str → Str)
    (maxPagesCfg : Nat) (queries : List Str) (seen : List Str)
    (sources : List Source) : SState :=
  let useDeep := deepMode && canFetch
  let mp := if maxPagesCfg = 0 then 100 else maxPagesCfg
  queries.foldl
    (fun st q => pageLoop canPag useDeep pageO searchO fetchO sumO q 1 mp st)
    { seen := seen, sources := sources, text := [], newURLs := 0, dups := 0,
      procd := [] }

/-- A run of the executor: a sequence of `searchWithPagination` calls, each
fed one batch of queries, threading the run-wide `seenURLs` set and source
list from call to call; returns the per-call states and the final seen set
and source list. -/
def runBatches (canPag deepMode canFetch : Bool)
    (pageO : Str → Nat → Except Unit (List SResult))
    (searchO : Str → Except Unit (List SResult))
    (fetchO : Str → Nat → Except Unit Str) (sumO : Str → Str → Str → Str)
    (maxPagesCfg : Nat) : List (List Str) → List Str → List Source →
      List SState × List Str × List Source
  | [], seen, sources => ([], seen, sources)
  | qs :: rest, seen, sources =>
    let st := searchWithPagination canPag deepMode canFetch pageO searchO fetchO
      sumO maxPagesCfg qs seen sources
    let r := runBatches canPag deepMode canFetch pageO searchO fetchO sumO
      maxPagesCfg rest st.seen st.sources
    (st :: r.1, r.2)

theorem processResult_procd (useDeep : Bool) (fetchO : Str → Nat → Except Unit Str)
    (sumO : Str → Str → Str → Str) (st : SState) (r : SResult) :
    (processResult useDeep fetchO sumO st r).procd = st.procd ++ [r] := by
  by_cases h : normalizeURL r.url ∈ st.seen <;> simp [processResult, h]

theorem processResult_counts (useDeep : Bool) (fetchO : Str → Nat → Except Unit Str)
    (sumO : Str → Str → Str → Str) (st : SState) (r : SResult) :
    (processResult useDeep fetchO sumO st r).newURLs +
      (processResult useDeep fetchO sumO st r).dups = st.newURLs + st.dups + 1 := by
  by_cases h : normalizeURL r.url ∈ st.seen <;> simp [processResult, h] <;> omega

theorem processResult_seen (useDeep : Bool) (fetchO : Str → Nat → Except Unit Str)
    (sumO : Str → Str → Str → Str) (st : SState) (r : SResult) :
    (processResult useDeep fetchO sumO st r).seen =
      insertDedup st.seen (normalizeURL r.url) := by
  by_cases h : normalizeURL r.url ∈ st.seen <;> simp [processResult, insertDedup, h]

theorem processResult_srcLen (useDeep : Bool) (fetchO : Str → Nat → Except Unit Str)
    (sumO : Str → Str → Str → Str) (st : SState) (r : SResult) :
    (processResult useDeep fetchO sumO st r).sources.length + st.seen.length =
      st.sources.length + (processResult useDeep fetchO sumO st r).seen.length := by
  by_cases h : normalizeURL r.url ∈ st.seen <;> simp [processResult, h] <;> omega

theorem foldProcess_spec (useDeep : Bool) (fetchO : Str → Nat → Except Unit Str)
    (sumO : Str → Str → Str → Str) : ∀ (rs : List SResult) (st : SState),
    ((rs.foldl (processResult useDeep fetchO sumO) st).procd = st.procd ++ rs) ∧
    ((rs.foldl (processResult useDeep fetchO sumO) st).newURLs +
      (rs.foldl (processResult useDeep fetchO sumO) st).dups =
      st.newURLs + st.dups + rs.length) ∧
    ((rs.foldl (processResult useDeep fetchO sumO) st).seen =
      List.foldl insertDedup st.seen (rs.map (fun r => normalizeURL r.url))) ∧
    ((rs.foldl (processResult useDeep fetchO sumO) st).sources.length +
        st.seen.length =
      st.sources.length +
        (rs.foldl (processResult useDeep fetchO sumO) st).seen.length)
  | [], st => by simp
  | r :: rs, st => by
    obtain ⟨ih1, ih2, ih3, ih4⟩ :=
      foldProcess_spec useDeep fetchO sumO rs (processResult useDeep fetchO sumO st r)
    simp only [List.foldl_cons, List.map_cons, List.length_cons]
    refine ⟨?_, ?_, ?_, ?_⟩
    · rw [ih1, processResult_procd]
      simp
    · rw [ih2, processResult_counts]
      omega
    · rw [ih3, processResult_seen]
    · have h1 := processResult_srcLen useDeep fetchO sumO st r
      omega

theorem pageLoop_spec (canPag useDeep : Bool)
    (pageO : Str → Nat → Except Unit (List SResult))
    (searchO : Str → Except Unit (List SResult))
    (fetchO : Str → Nat → Except Unit Str) (sumO : Str → Str → Str → Str)
    (query : Str) : ∀ (fuel page : Nat) (st : SState),
    ∃ rs : List SResult,
    ((pageLoop canPag useDeep pageO searchO fetchO sumO query page fuel st).procd =
      st.procd ++ rs) ∧
    ((pageLoop canPag useDeep pageO searchO fetchO sumO query page fuel st).newURLs +
      (pageLoop canPag useDeep pageO searchO fetchO sumO query page fuel st).dups =
      st.newURLs + st.dups + rs.length) ∧
    ((pageLoop canPag useDeep pageO searchO fetchO sumO query page fuel st).seen =
      List.foldl insertDedup st.seen (rs.map (fun r => normalizeURL r.url))) ∧
    ((pageLoop canPag useDeep pageO searchO fetchO sumO query page fuel
        st).sources.length + st.seen.length =
      st.sources.length +
        (pageLoop canPag useDeep pageO searchO fetchO sumO query page fuel
          st).seen.length)
  | 0, page, st => ⟨[], by simp [pageLoop]⟩
  | fuel + 1, page, st => by
    have hstep : pageLoop canPag useDeep pageO searchO fetchO sumO query page
        (fuel + 1) st =
        (if canPag = false ∧ page ≠ 1 then st
         else
           match (if canPag then pageO query page else searchO query) with
           | Except.error _ => st
           | Except.ok rs =>
             if rs.isEmpty then st
             else pageLoop canPag useDeep pageO searchO fetchO sumO query (page + 1)
               fuel (rs.foldl (processResult useDeep fetchO sumO) st)) := rfl
    rw [hstep]
    by_cases hp : canPag = false ∧ page ≠ 1
    · rw [if_pos hp]
      exact ⟨[], by simp⟩
    · rw [if_neg hp]
      rcases hres : (if canPag then pageO query page else searchO query) with e | rs0
      · exact ⟨[], by simp⟩
      · by_cases hemp : rs0.isEmpty
        · simp only [hemp, if_true]
          exact ⟨[], by simp⟩
        · simp only [hemp]
          rw [if_neg Bool.false_ne_true]
          obtain ⟨f1, f2, f3, f4⟩ := foldProcess_spec useDeep fetchO sumO rs0 st
          obtain ⟨rs2, ih1, ih2, ih3, ih4⟩ :=
            pageLoop_spec canPag useDeep pageO searchO fetchO sumO query fuel (page + 1)
              (rs0.foldl (processResult useDeep fetchO sumO) st)
          refine ⟨rs0 ++ rs2, ?_, ?_, ?_, ?_⟩
          · rw [ih1, f1, List.append_assoc]
          · rw [ih2, f2, List.length_append]
            omega
          · rw [ih3, f3, List.map_append, List.foldl_append]
          · omega

theorem queryFold_spec (canPag useDeep : Bool)
    (pageO : Str → Nat → Except Unit (List SResult))
    (searchO : Str → Except Unit (List SResult))
    (fetchO : Str → Nat → Except Unit Str) (sumO : Str → Str → Str → Str)
    (mp : Nat) : ∀ (queries : List Str) (st : SState),
    ∃ rs : List SResult,
    ((queries.foldl
        (fun st q => pageLoop canPag useDeep pageO searchO fetchO sumO q 1 mp st)
        st).procd = st.procd ++ rs) ∧
    ((queries.foldl
        (fun st q => pageLoop canPag useDeep pageO searchO fetchO sumO q 1 mp st)
        st).newURLs +
      (queries.foldl
        (fun st q => pageLoop canPag useDeep pageO searchO fetchO sumO q 1 mp st)
        st).dups = st.newURLs + st.dups + rs.length) ∧
    ((queries.foldl
        (fun st q => pageLoop canPag useDeep pageO searchO fetchO sumO q 1 mp st)
        st).seen =
      List.foldl insertDedup st.seen (rs.map (fun r => normalizeURL r.url))) ∧
    ((queries.foldl
        (fun st q => pageLoop canPag useDeep pageO searchO fetchO sumO q 1 mp st)
        st).sources.length + st.seen.length =
      st.sources.length +
        (queries.foldl
          (fun st q => pageLoop canPag useDeep pageO searchO fetchO sumO q 1 mp st)
          st).seen.length)
  | [], st => ⟨[], by simp⟩
  | q :: queries, st => by
    obtain ⟨rs1, q1, q2, q3, q4⟩ :=
      pageLoop_spec canPag useDeep pageO searchO fetchO sumO q mp 1 st
    obtain ⟨rs2, ih1, ih2, ih3, ih4⟩ :=
      queryFold_spec canPag useDeep pageO searchO fetchO sumO mp queries
        (pageLoop canPag useDeep pageO searchO fetchO sumO q 1 mp st)
    simp only [List.foldl_cons]
    refine ⟨rs1 ++ rs2, ?_, ?_, ?_, ?_⟩
    · rw [ih1, q1, List.append_assoc]
    · rw [ih2, q2, List.length_append]
      omega
    · rw [ih3, q3, List.map_append, List.foldl_append]
    · omega

theorem searchWithPagination_spec (canPag deepMode canFetch : Bool)
    (pageO : Str → Nat → Except Unit (List SResult))
    (searchO : Str → Except Unit (List SResult))
    (fetchO : Str → Nat → Except Unit Str) (sumO : Str → Str → Str → Str)
    (mpCfg : Nat) (queries : List Str) (seen : List Str) (sources : List Source) :
    ∃ rs : List SResult,
    ((searchWithPagination canPag deepMode canFetch pageO searchO fetchO sumO mpCfg
        queries seen sources).procd = rs) ∧
    ((searchWithPagination canPag deepMode canFetch pageO searchO fetchO sumO mpCfg
        queries seen sources).newURLs +
      (searchWithPagination canPag deepMode canFetch pageO searchO fetchO sumO mpCfg
        queries seen sources).dups = rs.length) ∧
    ((searchWithPagination canPag deepMode canFetch pageO searchO fetchO sumO mpCfg
        queries seen sources).seen =
      List.foldl insertDedup seen (rs.map (fun r => normalizeURL r.url))) ∧
    ((searchWithPagination canPag deepMode canFetch pageO searchO fetchO sumO mpCfg
        queries seen sources).sources.length + seen.length =
      sources.length +
        (searchWithPagination canPag deepMode canFetch pageO searchO fetchO sumO mpCfg
          queries seen sources).seen.length) := by
  obtain ⟨rs, h1, h2, h3, h4⟩ :=
    queryFold_spec canPag (deepMode && canFetch) pageO searchO fetchO sumO
      (if mpCfg = 0 then 100 else mpCfg) queries
      ⟨seen, sources, [], 0, 0, []⟩
  refine ⟨rs, ?_, ?_, ?_, ?_⟩
  · simpa [searchWithPagination] using h1
  · simpa [searchWithPagination] using h2
  · simpa [searchWithPagination] using h3
  · simpa [searchWithPagination] using h4

theorem runBatches_spec (canPag deepMode canFetch : Bool)
    (pageO : Str → Nat → Except Unit (List SResult))
    (searchO : Str → Except Unit (List SResult))
    (fetchO : Str → Nat → Except Unit Str) (sumO : Str → Str → Str → Str)
    (mpCfg : Nat) : ∀ (batches : List (List Str)) (seen : List Str)
      (sources : List Source),
    (∀ st ∈ (runBatches canPag deepMode canFetch pageO searchO fetchO sumO mpCfg
        batches seen sources).1, st.newURLs + st.dups = st.procd.length) ∧
    ((runBatches canPag deepMode canFetch pageO searchO fetchO sumO mpCfg
        batches seen sources).2.1 =
      List.foldl insertDedup seen
        ((((runBatches canPag deepMode canFetch pageO searchO fetchO sumO mpCfg
          batches seen sources).1.map (fun st => st.procd)).flatten).map
            (fun r => normalizeURL r.url))) ∧
    ((runBatches canPag deepMode canFetch pageO searchO fetchO sumO mpCfg
        batches seen sources).2.2.length + seen.length =
      sources.length +
        (runBatches canPag deepMode canFetch pageO searchO fetchO sumO mpCfg
          batches seen sources).2.1.length)
  | [], seen, sources => by
    refine ⟨?_, ?_, ?_⟩
    · intro st hst
      simp [runBatches] at hst
    · simp [runBatches]
    · simp [runBatches]
  | qs :: rest, seen, sources => by
    obtain ⟨rs, s1, s2, s3, s4⟩ :=
      searchWithPagination_spec canPag deepMode canFetch pageO searchO fetchO sumO
        mpCfg qs seen sources
    obtain ⟨ih1, ih2, ih3⟩ :=
      runBatches_spec canPag deepMode canFetch pageO searchO fetchO sumO mpCfg rest
        (searchWithPagination canPag deepMode canFetch pageO searchO fetchO sumO
          mpCfg qs seen sources).seen
        (searchWithPagination canPag deepMode canFetch pageO searchO fetchO sumO
          mpCfg qs seen sources).sources
    have hA : (runBatches canPag deepMode canFetch pageO searchO fetchO sumO mpCfg
        (qs :: rest) seen sources).1 =
        (searchWithPagination canPag deepMode canFetch pageO searchO fetchO sumO
          mpCfg qs seen sources) ::
        (runBatches canPag deepMode canFetch pageO searchO fetchO sumO mpCfg rest
          (searchWithPagination canPag deepMode canFetch pageO searchO fetchO sumO
            mpCfg qs seen sources).seen
          (searchWithPagination canPag deepMode canFetch pageO searchO fetchO sumO
            mpCfg qs seen sources).sources).1 := rfl
    have hB : (runBatches canPag deepMode canFetch pageO searchO fetchO sumO mpCfg
        (qs :: rest) seen sources).2.1 =
        (runBatches canPag deepMode canFetch pageO searchO fetchO sumO mpCfg rest
          (searchWithPagination canPag deepMode canFetch pageO searchO fetchO sumO
            mpCfg qs seen sources).seen
          (searchWithPagination canPag deepMode canFetch pageO searchO fetchO sumO
            mpCfg qs seen sources).sources).2.1 := rfl
    have hC : (runBatches canPag deepMode canFetch pageO searchO fetchO sumO mpCfg
        (qs :: rest) seen sources).2.2 =
        (runBatches canPag deepMode canFetch pageO searchO fetchO sumO mpCfg rest
          (searchWithPagination canPag deepMode canFetch pageO searchO fetchO sumO
            mpCfg qs seen sources).seen
          (searchWithPagination canPag deepMode canFetch pageO searchO fetchO sumO
            mpCfg qs seen sources).sources).2.2 := rfl
    refine ⟨?_, ?_, ?_⟩
    · rw [hA]
      intro st hst
      rcases List.mem_cons.mp hst with h | h
      · subst h
        rw [s1]
        exact s2
      · exact ih1 st h
    · rw [hB, hA, ih2, s3]
      simp only [List.map_cons, List.flatten_cons, List.map_append, List.foldl_append,
        s1]
    · rw [hC, hB]
      omega

/-- C1: deduplication invariant of the exhaustive search executor. Over any
run (any sequence of query batches fed through `searchWithPagination`,
threading the seen set and source list), every call's `newURLs` plus
`duplicates` equals the number of results it processed, and the final
source-list length equals the number of distinct normalized URLs
encountered across the run. In the concrete scenario, the URLs
`http://x.com/a?utm_source=y` and `http://x.com/a` normalize to the same
value, so the second result counts as one duplicate and adds no source. -/
theorem searchWithPagination_dedup (canPag deepMode canFetch : Bool)
    (pageO : Str → Nat → Except Unit (List SResult))
    (searchO : Str → Except Unit (List SResult))
    (fetchO : Str → Nat → Except Unit Str) (sumO : Str → Str → Str → Str)
    (mpCfg : Nat) (batches : List (List Str)) :
    (∀ st ∈ (runBatches canPag deepMode canFetch pageO searchO fetchO sumO mpCfg
        batches [] []).1, st.newURLs + st.dups = st.procd.length) ∧
    ((runBatches canPag deepMode canFetch pageO searchO fetchO sumO mpCfg
        batches [] []).2.2.length =
      (List.foldl insertDedup []
        ((((runBatches canPag deepMode canFetch pageO searchO fetchO sumO mpCfg
          batches [] []).1.map (fun st => st.procd)).flatten).map
            (fun r => normalizeURL r.url))).length) ∧
    ((searchWithPagination true false false
        (fun q p => if p = 1 then Except.ok
          [⟨strOf "http://x.com/a?utm_source=y", strOf "T1", strOf "S1"⟩,
           ⟨strOf "http://x.com/a", strOf "T2", strOf "S2"⟩]
          else Except.ok [])
        (fun q => Except.error ()) (fun u n => Except.error ())
        (fun u t c => []) 2 [strOf "q"] [] []).newURLs = 1 ∧
      (searchWithPagination true false false
        (fun q p => if p = 1 then Except.ok
          [⟨strOf "http://x.com/a?utm_source=y", strOf "T1", strOf "S1"⟩,
           ⟨strOf "http://x.com/a", strOf "T2", strOf "S2"⟩]
          else Except.ok [])
        (fun q => Except.error ()) (fun u n => Except.error ())
        (fun u t c => []) 2 [strOf "q"] [] []).dups = 1 ∧
      (searchWithPagination true false false
        (fun q p => if p = 1 then Except.ok
          [⟨strOf "http://x.com/a?utm_source=y", strOf "T1", strOf "S1"⟩,
           ⟨strOf "http://x.com/a", strOf "T2", strOf "S2"⟩]
          else Except.ok [])
        (fun q => Except.error ()) (fun u n => Except.error ())
        (fun u t c => []) 2 [strOf "q"] [] []).sources.length = 1) := by
  obtain ⟨h1, h2, h3⟩ :=
    runBatches_spec canPag deepMode canFetch pageO searchO fetchO sumO mpCfg
      batches [] []
  refine ⟨h1, ?_, by decide⟩
  rw [← h2]
  simp only [List.length_nil] at h3
  omega

/-- Modelled from the spec: a finished execution run — the synthesized
report, the collected sources, the final working context, and whether the
run ended through cancellation (a partial outcome, not a failure). -/
structure ResearchResult where
  report : Str
  sources : List Source
  context : Str
  cancelled : Bool

/-- Modelled from the spec: the controller state across rounds — working
context, run-wide source list and seen-URL set, the cancellation-token
poll counter, and the generation-call counter. -/
structure CState where
  context : Str
  sources : List Source
  seen : List Str
  poll : Nat
  k : Nat

/-- Modelled from the spec: the round marker prefixed to each round's
findings text. -/
def roundMarker (round : Nat) : Str :=
  strOf "\n=== ROUND " ++ natToStr round ++ strOf " ===\n"

/-- Modelled from the spec: the executor's per-query page loop with
cooperative cancellation — the token (`cancelT`, read at the current poll
index) is polled before each page request, so an in-flight run stops
between pages; otherwise pages proceed exactly as in
`searchWithPagination`, stopping on error or an empty page. Returns the
updated executor state, the next poll index, and whether cancellation was
observed. -/
def pageLoopTok (cancelT : Nat → Bool) (canPag useDeep : Bool)
    (pageO : Str → Nat → Except Unit (List SResult))
    (searchO : Str → Except Unit (List SResult))
    (fetchO : Str → Nat → Except Unit Str) (sumO : Str → Str → Str → Str)
    (query : Str) (page fuel : Nat) (st : SState) (poll : Nat) :
    SState × Nat × Bool :=
  match fuel with
  | 0 => (st, poll, false)
  | fuel + 1 =>
    if cancelT poll then (st, poll + 1, true)
    else if canPag = false ∧ page ≠ 1 then (st, poll + 1, false)
    else
      match (if canPag then pageO query page else searchO query) with
      | Except.error _ => (st, poll + 1, false)
      | Except.ok rs =>
        if rs.isEmpty then (st, poll + 1, false)
        else pageLoopTok cancelT canPag useDeep pageO searchO fetchO sumO query
          (page + 1) fuel (rs.foldl (processResult useDeep fetchO sumO) st) (poll + 1)

/-- Modelled from the spec: one round's executor invocation over a batch of
queries, stopping as soon as a page-granularity poll observes
cancellation (no further query starts any page). -/
def execBatchTok (cancelT : Nat → Bool) (canPag useDeep : Bool)
    (pageO : Str → Nat → Except Unit (List SResult))
    (searchO : Str → Except Unit (List SResult))
    (fetchO : Str → Nat → Except Unit Str) (sumO : Str → Str → Str → Str)
    (mp : Nat) : List Str → SState → Nat → SState × Nat × Bool
  | [], st, poll => (st, poll, false)
  | q :: rest, st, poll =>
    let r := pageLoopTok cancelT canPag useDeep pageO searchO fetchO sumO q 1 mp
      st poll
    if r.2.2 then r
    else execBatchTok cancelT canPag useDeep pageO searchO fetchO sumO mp rest
      r.1 r.2.1

/-- Modelled from the spec: the exhaustive-mode round loop. Between rounds
the cancellation token is polled; once observed the loop stops immediately
with whatever context and sources have accumulated (no new round starts).
Otherwise the round's query batch runs through the cancellation-aware
executor, the findings are appended under a round marker, and — unless
this round was cut short by cancellation — the context is compressed at
ratio 0.5 when it exceeds 50% of the budget (a failed compression keeps
the uncompressed context and never fails the round), stopping early once
`minTarget` unique sources are collected. Returns the final controller
state and whether the run was cancelled. -/
def roundLoop (cancelT : Nat → Bool) (chat : ChatOracle) (canPag useDeep : Bool)
    (pageO : Str → Nat → Except Unit (List SResult))
    (searchO : Str → Except Unit (List SResult))
    (fetchO : Str → Nat → Except Unit Str) (sumO : Str → Str → Str → Str)
    (mp cfuel maxChars minTarget : Nat) :
    List (List Str) → Nat → CState → CState × Bool
  | [], _, st => (st, false)
  | qs :: rest, round, st =>
    if cancelT st.poll then ({ st with poll := st.poll + 1 }, true)
    else
      let ex := execBatchTok cancelT canPag useDeep pageO searchO fetchO sumO mp qs
        ⟨st.seen, st.sources, [], 0, 0, []⟩ (st.poll + 1)
      let ctx2 := st.context ++ roundMarker round ++ ex.1.text
      if ex.2.2 then (⟨ctx2, ex.1.sources, ex.1.seen, ex.2.1, st.k⟩, true)
      else
        let comp :=
          if ctx2.length > maxChars / 2 then
            match compressContextF chat maxChars cfuel st.k ctx2 ((1 : ℚ) / 2) with
            | (res, none, k2) => (res, k2)
            | (_, some _, k2) => (ctx2, k2)
          else (ctx2, st.k)
        let st2 : CState := ⟨comp.1, ex.1.sources, ex.1.seen, ex.2.1, comp.2⟩
        if minTarget ≤ st2.sources.length then (st2, false)
        else roundLoop cancelT chat canPag useDeep pageO searchO fetchO sumO mp
          cfuel maxChars minTarget rest (round + 1) st2

/-- Modelled from the spec: `RunExhaustiveWithContext` — run the
cancellation-aware round loop from an empty run state, then always attempt
report generation exactly once over the final (possibly partial) context
via the `writeReport` retry ladder; a successful report yields a
`ResearchResult` carrying the collected sources and the cancellation tag,
and only a reporting failure after all retries is a terminal error. -/
def runExhaustiveWithContext (cancelT : Nat → Bool) (chat : ChatOracle)
    (canPag useDeep : Bool)
    (pageO : Str → Nat → Except Unit (List SResult))
    (searchO : Str → Except Unit (List SResult))
    (fetchO : Str → Nat → Except Unit Str) (sumO : Str → Str → Str → Str)
    (mp cfuel wfuel maxChars minTarget : Nat) (rl : Bool) (topic : Str)
    (batches : List (List Str)) : Except Str ResearchResult × Nat :=
  let p := roundLoop cancelT chat canPag useDeep pageO searchO fetchO sumO mp
    cfuel maxChars minTarget batches 0 ⟨[], [], [], 0, 0⟩
  let w := writeReport chat wfuel maxChars rl topic p.1.context p.1.k
  match w.1 with
  | Except.ok rep => (Except.ok ⟨rep, p.1.sources, p.1.context, p.2⟩, w.2.2)
  | Except.error e => (Except.error e, w.2.2)

/-- C2: cancellation yields a successful partial result. Once the token is
observed, the executor starts no further page (the per-page poll returns
the state unchanged) and the controller starts no further round (the
between-rounds poll returns the accumulated state unchanged); the run
still attempts report generation over the partial context, and whenever
the reporting ladder succeeds the run returns a successful
`ResearchResult` carrying exactly the sources collected so far — never an
error. In the concrete scenario, cancellation signalled mid-run after 12
sources were collected yields a successful result with those 12 sources, a
non-empty report, and the cancelled tag set. -/
theorem runExhaustive_cancel :
    (∀ (cancelT : Nat → Bool) (canPag useDeep : Bool)
      (pageO : Str → Nat → Except Unit (List SResult))
      (searchO : Str → Except Unit (List SResult))
      (fetchO : Str → Nat → Except Unit Str) (sumO : Str → Str → Str → Str)
      (query : Str) (page fuel : Nat) (st : SState) (poll : Nat),
      cancelT poll = true →
      pageLoopTok cancelT canPag useDeep pageO searchO fetchO sumO query page
        (fuel + 1) st poll = (st, poll + 1, true)) ∧
    (∀ (cancelT : Nat → Bool) (chat : ChatOracle) (canPag useDeep : Bool)
      (pageO : Str → Nat → Except Unit (List SResult))
      (searchO : Str → Except Unit (List SResult))
      (fetchO : Str → Nat → Except Unit Str) (sumO : Str → Str → Str → Str)
      (mp cfuel maxChars minTarget : Nat) (qs : List Str)
      (rest : List (List Str)) (round : Nat) (st : CState),
      cancelT st.poll = true →
      roundLoop cancelT chat canPag useDeep pageO searchO fetchO sumO mp cfuel
        maxChars minTarget (qs :: rest) round st =
        ({ st with poll := st.poll + 1 }, true)) ∧
    (∀ (cancelT : Nat → Bool) (chat : ChatOracle) (canPag useDeep : Bool)
      (pageO : Str → Nat → Except Unit (List SResult))
      (searchO : Str → Except Unit (List SResult))
      (fetchO : Str → Nat → Except Unit Str) (sumO : Str → Str → Str → Str)
      (mp cfuel wfuel maxChars minTarget : Nat) (rl : Bool) (topic : Str)
      (batches : List (List Str)) (r : Str),
      (writeReport chat wfuel maxChars rl topic
        (roundLoop cancelT chat canPag useDeep pageO searchO fetchO sumO mp cfuel
          maxChars minTarget batches 0 ⟨[], [], [], 0, 0⟩).1.context
        (roundLoop cancelT chat canPag useDeep pageO searchO fetchO sumO mp cfuel
          maxChars minTarget batches 0 ⟨[], [], [], 0, 0⟩).1.k).1 = Except.ok r →
      (runExhaustiveWithContext cancelT chat canPag useDeep pageO searchO fetchO
        sumO mp cfuel wfuel maxChars minTarget rl topic batches).1 =
        Except.ok
          ⟨r,
           (roundLoop cancelT chat canPag useDeep pageO searchO fetchO sumO mp
             cfuel maxChars minTarget batches 0 ⟨[], [], [], 0, 0⟩).1.sources,
           (roundLoop cancelT chat canPag useDeep pageO searchO fetchO sumO mp
             cfuel maxChars minTarget batches 0 ⟨[], [], [], 0, 0⟩).1.context,
           (roundLoop cancelT chat canPag useDeep pageO searchO fetchO sumO mp
             cfuel maxChars minTarget batches 0 ⟨[], [], [], 0, 0⟩).2⟩) ∧
    (((runExhaustiveWithContext (fun p => decide (2 ≤ p))
        (fun k msgs => Except.ok (strOf "REPORT")) true false
        (fun q pg => if pg = 1 then Except.ok
          ((List.range 12).map (fun i =>
            (⟨strOf "http://x.com/p" ++ natToStr i, strOf "T", strOf "S"⟩ :
              SResult)))
          else Except.ok [])
        (fun q => Except.error ()) (fun u n => Except.error ())
        (fun u t c => []) 5 1 1 100000 100 false (strOf "t")
        [[strOf "q1"], [strOf "q2"]]).1.toOption.isSome = true) ∧
      (((runExhaustiveWithContext (fun p => decide (2 ≤ p))
        (fun k msgs => Except.ok (strOf "REPORT")) true false
        (fun q pg => if pg = 1 then Except.ok
          ((List.range 12).map (fun i =>
            (⟨strOf "http://x.com/p" ++ natToStr i, strOf "T", strOf "S"⟩ :
              SResult)))
          else Except.ok [])
        (fun q => Except.error ()) (fun u n => Except.error ())
        (fun u t c => []) 5 1 1 100000 100 false (strOf "t")
        [[strOf "q1"], [strOf "q2"]]).1.toOption.map
          (fun res => res.sources.length)).getD 0 = 12) ∧
      (((runExhaustiveWithContext (fun p => decide (2 ≤ p))
        (fun k msgs => Except.ok (strOf "REPORT")) true false
        (fun q pg => if pg = 1 then Except.ok
          ((List.range 12).map (fun i =>
            (⟨strOf "http://x.com/p" ++ natToStr i, strOf "T", strOf "S"⟩ :
              SResult)))
          else Except.ok [])
        (fun q => Except.error ()) (fun u n => Except.error ())
        (fun u t c => []) 5 1 1 100000 100 false (strOf "t")
        [[strOf "q1"], [strOf "q2"]]).1.toOption.map
          (fun res => res.report.isEmpty)).getD true = false) ∧
      (((runExhaustiveWithContext (fun p => decide (2 ≤ p))
        (fun k msgs => Except.ok (strOf "REPORT")) true false
        (fun q pg => if pg = 1 then Except.ok
          ((List.range 12).map (fun i =>
            (⟨strOf "http://x.com/p" ++ natToStr i, strOf "T", strOf "S"⟩ :
              SResult)))
          else Except.ok [])
        (fun q => Except.error ()) (fun u n => Except.error ())
        (fun u t c => []) 5 1 1 100000 100 false (strOf "t")
        [[strOf "q1"], [strOf "q2"]]).1.toOption.map
          (fun res => res.cancelled)).getD false = true)) := by
  refine ⟨?_, ?_, ?_, by decide⟩
  · intro cancelT canPag useDeep pageO searchO fetchO sumO query page fuel st poll h
    simp [pageLoopTok, h]
  · intro cancelT chat canPag useDeep pageO searchO fetchO sumO mp cfuel maxChars
      minTarget qs rest round st h
    simp [roundLoop, h]
  · intro cancelT chat canPag useDeep pageO searchO fetchO sumO mp cfuel wfuel
      maxChars minTarget rl topic batches r hr
    conv_lhs => unfold runExhaustiveWithContext
    simp only [hr]

/-- C5: the `writeReport` retry ladder: there are at most three attempt
records; the `j`-th attempt (counting from 0) compresses with target ratio
`0.5 / (1 + j)` — 0.5, 0.25, 1/6 — against ceiling `(maxChars / 2) / 2 ^ j`,
so the ceiling halves after each budget-looking generation failure; when
compression itself fails the attempt proceeds with the start context
hard-truncated to the current ceiling; the first attempt starts from the
initial context and every later attempt retries the previous attempt's
(already compressed) context rather than recompressing from scratch; and
if no generation attempt succeeds the run ends in a terminal error. -/
theorem writeReport_retry_ladder (chat : ChatOracle) (fuel maxChars : Nat)
    (rl : Bool) (topic context : Str) (k : Nat) :
    ((writeReport chat fuel maxChars rl topic context k).2.1.length ≤ 3) ∧
    (∀ j (h : j < (writeReport chat fuel maxChars rl topic context k).2.1.length),
      ((writeReport chat fuel maxChars rl topic context k).2.1.get ⟨j, h⟩).ceil =
        maxChars / 2 / 2 ^ j) ∧
    (∀ j (h : j < (writeReport chat fuel maxChars rl topic context k).2.1.length),
      ∀ q, ((writeReport chat fuel maxChars rl topic context k).2.1.get ⟨j, h⟩).rat =
        some q → q = 1 / (2 * (1 + j))) ∧
    (∀ rec ∈ (writeReport chat fuel maxChars rl topic context k).2.1,
      rec.route = CompRoute.compFail → rec.ctx = rec.startCtx.take rec.ceil) ∧
    (∀ h : 0 < (writeReport chat fuel maxChars rl topic context k).2.1.length,
      ((writeReport chat fuel maxChars rl topic context k).2.1.get ⟨0, h⟩).startCtx =
        context) ∧
    (∀ j (h : j + 1 < (writeReport chat fuel maxChars rl topic context k).2.1.length),
      ((writeReport chat fuel maxChars rl topic context k).2.1.get ⟨j + 1, h⟩).startCtx =
        ((writeReport chat fuel maxChars rl topic context k).2.1.get
          ⟨j, Nat.lt_of_succ_lt h⟩).ctx) ∧
    ((∀ rec ∈ (writeReport chat fuel maxChars rl topic context k).2.1,
        rec.genOk = false) →
      ∃ e, (writeReport chat fuel maxChars rl topic context k).1 = Except.error e) := by
  obtain ⟨h1, h2, h3, h4, h5, h6, h7, h8, h9⟩ :=
    writeReportLoop_spec chat fuel maxChars rl topic 3 1 (maxChars / 2) k context
  refine ⟨h1, h2, ?_, h6, h7, h8, h9⟩
  intro j h q hq
  have := h3 j h q hq
  rw [this]
  norm_num

/-- C6 (amended): the ceiling invariant of `writeReport` holds on every
attempt whose compression route is not a successful LLM compression: a
start context already within the ceiling is passed through unchanged
(`fit`), and when the compression call fails the context is hard-truncated,
so in both cases the prompt context has length at most the current ceiling.
When the compression call succeeds, its output is used without any length
check, so the ceiling is not enforced on that route. -/
theorem writeReport_ceiling (chat : ChatOracle) (fuel maxChars : Nat)
    (rl : Bool) (topic context : Str) (k : Nat) :
    (∀ rec ∈ (writeReport chat fuel maxChars rl topic context k).2.1,
      rec.route ≠ CompRoute.compOk → rec.ctx.length ≤ rec.ceil) ∧
    (∀ rec ∈ (writeReport chat fuel maxChars rl topic context k).2.1,
      rec.route = CompRoute.fit → rec.ctx = rec.startCtx) := by
  obtain ⟨h1, h2, h3, h4, h5, h6, h7, h8, h9⟩ :=
    writeReportLoop_spec chat fuel maxChars rl topic 3 1 (maxChars / 2) k context
  exact ⟨h4, h5⟩

/-- C6 counterexample: when the compression call succeeds, `writeReport`
uses its output without a length check, so the context placed into the
report prompt can exceed the reporting ceiling: here the ceiling is 175
but the compressed context fed to generation has 300 characters. -/
theorem writeReport_ceiling_violation :
    ∃ rec ∈ (writeReport (fun _ _ => Except.ok (List.replicate 300 'x'))
        5 350 false (strOf "t") (List.replicate 200 'a') 0).2.1,
      rec.ceil < rec.ctx.length := by decide

example : normalizeURL (strOf "http://x.com/a?utm_source=y") = strOf "http://x.com/a" := by decide

example : normalizeURL (strOf "http://x.com/a") = strOf "http://x.com/a" := by decide

example : normalizeURL (strOf "http://x.com/a//") = strOf "http://x.com/a/" := by decide

example : normalizeURL (strOf "http://x.com/a/") = strOf "http://x.com/a" := by decide

example : normalizeURL (strOf "HTTP://x.com/b?b=2&a=1&ref=z#frag") =
    strOf "http://x.com/b?a=1&b=2#frag" := by decide

end DeepResearch
